import Mathlib

/-!
# monofs: the record-log key-value store

A shallow embedding of `kvstore/record.go`, `kvstore/index.go`,
`kvstore/scaner.go` and `kvstore/kvstore.go`.

Conventions of the embedding.

* A Go `[]byte` is a `List Nat`; every slice handed to the code is a whole
  backing array (`len = cap`), which is how `Record.Read` and `Record.Encode`
  allocate theirs. Where the capacity is larger than the length (the token
  window of the scanner) the function takes the bytes up to the capacity and
  the length separately.
* `uint32` values are naturals reduced `% 2^32` at every arithmetic step;
  `int` (64 bit) lengths and file offsets are unbounded naturals.
* `int8` values are integers in `[-128, 127]`, with the conversions `byte`
  and `int8` written out.
* A Go run-time panic (index or slice bounds out of range) is `none`, or
  `Abort.panic` where a loop is bounded by fuel; a returned `error` is a value
  of `Error`.
* Seek, write and read on the store's file are taken to succeed; a read
  delivers all the bytes up to the end of the file that fit its buffer.
-/

namespace kvstore

/-! ## Collaborators outside `kvstore` -/

/-- Modelled from the spec: `utils.Uint32ToBytes` (package `utils` is not part
of the sources at hand). The spec fixes it as the 4-byte little-endian
serialisation of a `uint32`. -/
def Uint32ToBytes (n : Nat) : List Nat :=
  [n % 256, n / 256 % 256, n / 65536 % 256, n / 16777216 % 256]

/-- Modelled from the spec: `utils.BytesToUint32` (package `utils` is not part
of the sources at hand), the inverse of `Uint32ToBytes`: the little-endian
value of the first four bytes, as a `uint32`. -/
def BytesToUint32 (b : List Nat) : Nat :=
  (b.getD 0 0 + 256 * b.getD 1 0 + 65536 * b.getD 2 0 + 16777216 * b.getD 3 0) % 2 ^ 32

/-- One shift of the reflected CRC-32 register (polynomial `0xEDB88320`). -/
def crcShift (c : Nat) : Nat :=
  if c % 2 = 1 then (c / 2) ^^^ 0xEDB88320 else c / 2

/-- The CRC-32 register after one more input byte. -/
def crcByte (c b : Nat) : Nat :=
  crcShift (crcShift (crcShift (crcShift (crcShift (crcShift (crcShift (crcShift
    (c ^^^ (b % 256)))))))))

/-- Go standard library `crc32.ChecksumIEEE`: the CRC-32 of the IEEE
polynomial, register preset to `0xFFFFFFFF` and complemented at the end. -/
def ChecksumIEEE (data : List Nat) : Nat :=
  (data.foldl crcByte 0xFFFFFFFF) ^^^ 0xFFFFFFFF

/-- Go slice expression `data[lo:hi]` on a slice with `len = cap`: it panics
unless `lo ≤ hi ≤ cap`. -/
def slice (data : List Nat) (lo hi : Nat) : Option (List Nat) :=
  if lo ≤ hi ∧ hi ≤ data.length then some ((data.drop lo).take (hi - lo)) else none

/-- Go `copy(dst, src)`: overwrites the first `min (len dst) (len src)` bytes
of `dst`. -/
def copy (dst src : List Nat) : List Nat :=
  src.take dst.length ++ dst.drop src.length

/-- Go `copy(buf[lo:hi], src)`: the slice expression may panic, the copy
writes through to `buf`. -/
def copyAt (buf : List Nat) (lo hi : Nat) (src : List Nat) : Option (List Nat) :=
  if lo ≤ hi ∧ hi ≤ buf.length then
    some (buf.take lo ++ copy ((buf.drop lo).take (hi - lo)) src ++ buf.drop hi)
  else none

/-- Go conversion `byte(x)` of an `int8`. -/
def byte (x : Int) : Nat := (x % 256).toNat

/-- Go conversion `int8(b)` of a byte (or of any integer: two's complement wrap). -/
def int8 (x : Int) : Int := (x + 128) % 256 - 128

/-! ## `record.go` -/

def Tombstoned : Nat := 1
def metaSize : Nat := 13
def headerSize : Nat := 9

structure Record where
  Flags : Int
  Key : List Nat
  Value : List Nat
deriving DecidableEq, Repr

/-- The errors the store returns. -/
inductive Error where
  /-- Source `ErrItemNotFound` of `index.go`. -/
  | ErrItemNotFound
  /-- The `fmt.Errorf("CRC check failed %d != %d", crc, crc32)` of `Record.Decode`. -/
  | CRCCheckFailed (crc stored : Nat)
  /-- The `io.EOF` of a read at or past the end of the file. -/
  | EOF
deriving DecidableEq, Repr

/-- Source `SetBit`: `n |= (1 << pos)` on `int8`. -/
def SetBit (n : Int) (pos : Nat) : Int :=
  int8 ((byte n ||| byte (int8 (2 ^ pos)) : Nat) : Int)

/-- Source `ClearBit`: `n &= int8(^(1 << pos))`. -/
def ClearBit (n : Int) (pos : Nat) : Int :=
  int8 ((byte n &&& byte (int8 (-(int8 (2 ^ pos)) - 1)) : Nat) : Int)

/-- Source `HasBit`: `n & (1 << pos) > 0`, a signed comparison on `int8`. -/
def HasBit (n : Int) (pos : Nat) : Bool :=
  decide (0 < int8 ((byte n &&& byte (int8 (2 ^ pos)) : Nat) : Int))

/-- Source `NewRecord`: the `flags` argument is not stored. -/
def NewRecord (key value : List Nat) (_flags : Int) : Record :=
  { Flags := 0, Key := key, Value := value }

def Record.IsTombstoned (r : Record) : Bool := HasBit r.Flags Tombstoned

def Record.Tombstone (r : Record) : Record := { r with Flags := SetBit r.Flags Tombstoned }

def Record.Untombstone (r : Record) : Record := { r with Flags := ClearBit r.Flags Tombstoned }

def Record.CalculateCRC (b : List Nat) : Nat := ChecksumIEEE b

/-- Source `Record.Encode`. The buffer is filled in place, slice by slice, with the
offsets computed in `uint32` as in the source. -/
def Record.Encode (r : Record) : Option (List Nat) :=
  let buf := List.replicate (metaSize + r.Key.length + r.Value.length) 0
  let buf := buf.set 0 (byte r.Flags)
  let valueLen := r.Value.length % 2 ^ 32
  let keyLen := r.Key.length % 2 ^ 32
  (copyAt buf 1 5 (Uint32ToBytes keyLen)).bind fun buf =>
  (copyAt buf 5 9 (Uint32ToBytes valueLen)).bind fun buf =>
  let keyEndPos := (headerSize + keyLen) % 2 ^ 32
  let valEndPos := (keyEndPos + valueLen) % 2 ^ 32
  (copyAt buf headerSize keyEndPos r.Key).bind fun buf =>
  (copyAt buf keyEndPos valEndPos r.Value).bind fun buf =>
  (slice buf 0 valEndPos).bind fun covered =>
  let crc := Record.CalculateCRC covered
  copyAt buf valEndPos buf.length (Uint32ToBytes crc)

/-- Source `Record.Decode`: the receiver after the call and the returned error;
`none` when a slice expression panics. The fields are assigned before the
CRC is compared, so they are set on the error path too. -/
def Record.Decode (data : List Nat) : Option (Record × Option Error) :=
  (data.get? 0).bind fun b0 =>
  let flags := int8 b0
  (slice data 1 5).bind fun kl =>
  let keyLen := BytesToUint32 kl
  (slice data 5 9).bind fun vl =>
  let valueLen := BytesToUint32 vl
  let keyEndPos := (headerSize + keyLen) % 2 ^ 32
  let valEndPos := (keyEndPos + valueLen) % 2 ^ 32
  (slice data headerSize keyEndPos).bind fun ks =>
  let key := copy (List.replicate keyLen 0) ks
  (slice data keyEndPos valEndPos).bind fun vs =>
  let value := copy (List.replicate valueLen 0) vs
  (slice data valEndPos ((valEndPos + 4) % 2 ^ 32)).bind fun cs =>
  let crc32 := BytesToUint32 cs
  (slice data 0 valEndPos).bind fun covered =>
  let crc := Record.CalculateCRC covered
  let r : Record := { Flags := flags, Key := key, Value := value }
  if crc ≠ crc32 then some (r, some (Error.CRCCheckFailed crc crc32)) else some (r, none)

def Record.RawSize (r : Record) : Nat := metaSize + r.Key.length + r.Value.length

/-- Source `Record.Write` on a file opened for writing at its end: the encoding is
appended. The write itself is taken to succeed. -/
def Record.Write (r : Record) (file : List Nat) : Option (List Nat) :=
  r.Encode.map fun b => file ++ b

/-- Source `Record.Read` with the file positioned at `pos`: a zeroed buffer of
`maxRecordSize + metaSize` bytes receives what one `f.Read` delivers (all the
bytes up to the end of the file that fit), and the whole buffer is decoded.
A read at or past the end of the file is `io.EOF` and leaves the record
empty. -/
def Record.Read (f : List Nat) (pos maxRecordSize : Nat) : Option (Record × Option Error) :=
  let buf := List.replicate (maxRecordSize + metaSize) 0
  let got := (f.drop pos).take buf.length
  if got.length = 0 then some ({ Flags := 0, Key := [], Value := [] }, some Error.EOF)
  else Record.Decode (copy buf got)

/-! ## `index.go` -/

structure Item where
  Key : List Nat
  Val : List Nat
deriving DecidableEq, Repr

/-- Go standard library `bytes.Compare(a, b) < 0`: lexicographic order, a
proper initial segment first. -/
def bytesLess : List Nat → List Nat → Bool
  | [], [] => false
  | [], _ :: _ => true
  | _ :: _, [] => false
  | a :: as, b :: bs => if a < b then true else if b < a then false else bytesLess as bs

def byKeys (a b : Item) : Bool := bytesLess a.Key b.Key

/-- The ordered map `btree.BTreeG[Item]` (library `tidwall/btree`), kept as
the list of its items in ascending order. -/
structure Index where
  t : List Item
deriving DecidableEq, Repr

def NewIndex : Index := { t := [] }

/-- Library `BTreeG.Set`: insert in order, replacing an item that compares
equal (neither is less than the other). -/
def btreeSet : List Item → Item → List Item
  | [], item => [item]
  | x :: xs, item =>
    if byKeys item x then item :: x :: xs
    else if byKeys x item then x :: btreeSet xs item
    else item :: xs

/-- Library `BTreeG.Get`: the item that compares equal to the probe. -/
def btreeGet (t : List Item) (item : Item) : Option Item :=
  t.find? fun x => !byKeys x item && !byKeys item x

/-- Library `BTreeG.Delete`: remove the item that compares equal to the probe. -/
def btreeDelete (t : List Item) (item : Item) : List Item :=
  t.filter fun x => !(!byKeys x item && !byKeys item x)

def Index.Add (i : Index) (key value : List Nat) : Index :=
  { t := btreeSet i.t { Key := key, Val := value } }

def Index.Get (i : Index) (key : List Nat) : Except Error (List Nat) :=
  match btreeGet i.t { Key := key, Val := [] } with
  | none => .error Error.ErrItemNotFound
  | some x => .ok x.Val

def Index.Delete (i : Index) (key : List Nat) : Index :=
  { t := btreeDelete i.t { Key := key, Val := [] } }

/-! ## `scaner.go` -/

deriving instance DecidableEq for Except

/-- How a call can fail to return: a Go run-time panic, or the bound on the
number of loop iterations of the embedding being used up. -/
inductive Abort where
  | panic
  | outOfFuel
deriving DecidableEq, Repr

/-- Source `Record.Decode` on a slice whose capacity exceeds its length: `mem` holds
the bytes from the start of the slice to its capacity, `len` is its length.
Only the index expression `data[0]` is checked against the length; the slice
expressions are checked against the capacity. -/
def Record.DecodeWindow (mem : List Nat) (len : Nat) : Option (Record × Option Error) :=
  if len = 0 then none else Record.Decode mem

/-- The split function of the scanner: the number of bytes to advance, the
length of the token `data[:size]` (`none` for a nil token) and the error. -/
def split (mem : List Nat) (len : Nat) (EOF : Bool) :
    Option (Nat × Option Nat × Option Error) :=
  if EOF && len == 0 then some (0, none, none)
  else
    (Record.DecodeWindow mem len).bind fun res =>
    match res with
    | (_, some err) => some (0, none, some err)
    | (r, none) =>
      let size := r.RawSize
      if size ≤ mem.length then some (size, some size, none) else none

/-- The errors a `bufio.Scanner` records. -/
inductive ScanError where
  | EOF
  | ErrTooLong
  | ErrAdvanceTooFar
  | ErrNoProgress
  | Split (e : Error)
deriving DecidableEq, Repr

/-- The state of a Go standard library `bufio.Scanner` reading a file: `r` is
what the reader has not delivered yet, the token is the window
`buf[tokenStart : tokenStart + tokenLen]`. -/
structure Scanner where
  r : List Nat
  buf : List Nat
  start : Nat
  end_ : Nat
  token : Option (Nat × Nat)
  err : Option ScanError
  maxTokenSize : Nat
deriving DecidableEq, Repr

/-- Library `Scanner.setErr`: the first error that is not `io.EOF` sticks. -/
def Scanner.setErr (s : Scanner) (e : ScanError) : Scanner :=
  if s.err = none ∨ s.err = some ScanError.EOF then { s with err := some e } else s

/-- Source `NewScanner`: the buffer of `((maxRecordSize + metaSize) % 4096 + 1) * 4096`
bytes and the maximal token size `maxRecordSize + metaSize`. -/
def NewScanner (r : List Nat) (maxRecordSize : Nat) : Scanner :=
  let bufSize := (maxRecordSize + metaSize) % 4096
  let bufSize := bufSize + 1
  let bufSize := bufSize * 4096
  { r := r, buf := List.replicate bufSize 0, start := 0, end_ := 0, token := none,
    err := none, maxTokenSize := maxRecordSize + metaSize }

/-- Library `Scanner.Scan`, first step of making room: when the window does
not start at the front of the buffer and the buffer is full or more than half
of it is consumed, the unread bytes are copied to the front. -/
def Scanner.shift (s : Scanner) : Scanner :=
  if 0 < s.start ∧ (s.end_ = s.buf.length ∨ s.buf.length / 2 < s.start) then
    { s with buf := copy s.buf ((s.buf.drop s.start).take (s.end_ - s.start)),
             end_ := s.end_ - s.start, start := 0 }
  else s

/-- Library `Scanner.Scan`, second step of making room: a full buffer is
replaced by one of twice the size, at most `maxTokenSize`. -/
def Scanner.grow (s : Scanner) : Scanner :=
  let newSize := if s.buf.length * 2 = 0 then 4096 else s.buf.length * 2
  let newSize := min newSize s.maxTokenSize
  { s with buf := copy (List.replicate newSize 0) ((s.buf.drop s.start).take (s.end_ - s.start)),
           end_ := s.end_ - s.start, start := 0 }

/-- Library `Scanner.Scan`, the read: one `Read` of the file into `buf[end:]`,
which delivers all the bytes up to the end of the file that fit, or `io.EOF`
when none are left; with no room in the buffer the library gives up after a
hundred empty reads. -/
def Scanner.read (s : Scanner) : Scanner :=
  let room := s.buf.length - s.end_
  if room = 0 then s.setErr ScanError.ErrNoProgress
  else if s.r.length = 0 then s.setErr ScanError.EOF
  else
    let n := min room s.r.length
    { s with buf := s.buf.take s.end_ ++ s.r.take n ++ s.buf.drop (s.end_ + n),
             r := s.r.drop n, end_ := s.end_ + n }

/-- The part of the loop of library `Scanner.Scan` that makes room and reads:
shift, then grow a full buffer (or give up with `ErrTooLong` when it has
reached `maxTokenSize`), then read. The result is `(true, s)` when `Scan`
returns `false` at once. -/
def Scanner.fill (s : Scanner) : Bool × Scanner :=
  let s := s.shift
  if s.end_ = s.buf.length ∧ s.maxTokenSize ≤ s.buf.length then
    (true, s.setErr ScanError.ErrTooLong)
  else
    let s := if s.end_ = s.buf.length then s.grow else s
    (false, s.read)

/-- Library `Scanner.Scan`, with `split` as the split function: the loop runs
until a token is found or the scan stops. -/
def Scanner.scanLoop : Nat → Scanner → Except Abort (Bool × Scanner)
  | 0, _ => .error Abort.outOfFuel
  | fuel + 1, s =>
    let next (s : Scanner) : Except Abort (Bool × Scanner) :=
      if s.err ≠ none then .ok (false, { s with start := 0, end_ := 0 })
      else
        let (stop, s) := s.fill
        if stop then .ok (false, s) else Scanner.scanLoop fuel s
    if s.start < s.end_ ∨ s.err ≠ none then
      match split (s.buf.drop s.start) (s.end_ - s.start) (s.err ≠ none) with
      | none => .error Abort.panic
      | some (_, _, some err) => .ok (false, s.setErr (ScanError.Split err))
      | some (advance, token, none) =>
        if s.end_ - s.start < advance then .ok (false, s.setErr ScanError.ErrAdvanceTooFar)
        else
          let s1 := { s with start := s.start + advance,
                             token := token.map fun len => (s.start, len) }
          match token with
          | some _ => .ok (true, s1)
          | none => next s1
    else next s

/-- One call of `Scanner.Scan`. With this split function and a file as the
reader the loop body runs at most twice: the first round either splits or
reads, the second splits what was read or stops at the end of the file. -/
def Scanner.Scan (s : Scanner) : Except Abort (Bool × Scanner) :=
  Scanner.scanLoop 3 s

/-- Source `Scanner.Record`: decode the current token `s.Bytes()`, a window of the
buffer whose capacity runs to the end of the buffer. -/
def Scanner.Record (s : Scanner) : Option (Record × Option Error) :=
  match s.token with
  | none => Record.DecodeWindow [] 0
  | some (pos, len) => Record.DecodeWindow (s.buf.drop pos) len

/-! ## `kvstore.go` -/

/-- A `KVStore`: `file` is the content of the file at `path` (the store's own
descriptor and the one `RebuildIndex` opens see the same file). -/
structure KVStore where
  index : Index
  file : List Nat
  maxRecordSize : Nat
deriving DecidableEq, Repr

/-- Source `NewKVStore` on a path whose file holds `content` (empty when the file is
created): a fresh index. -/
def NewKVStore (content : List Nat) (maxRecordSize : Nat) : KVStore :=
  { index := NewIndex, file := content, maxRecordSize := maxRecordSize }

/-- Source `KVStore.recordAt`: seek to `offset`, read one record. -/
def KVStore.recordAt (kv : KVStore) (offset : Nat) : Option (Record × Option Error) :=
  Record.Read kv.file offset kv.maxRecordSize

/-- Source `KVStore.Get`. -/
def KVStore.Get (kv : KVStore) (key : List Nat) : Option (Except Error (List Nat)) :=
  match kv.index.Get key with
  | .error err => some (.error err)
  | .ok offsetRaw =>
    let offset := BytesToUint32 offsetRaw
    (kv.recordAt offset).bind fun res =>
    match res with
    | (_, some err) => some (.error err)
    | (record, none) => some (.ok record.Value)

/-- Source `KVStore.set`: seek to the end, append the record, then update the index.
Seek and write on the file are taken to succeed, so the returned error is
always nil; `none` is a panic of the encoder. -/
def KVStore.set (kv : KVStore) (key value : List Nat) (deleted : Bool) : Option KVStore :=
  let offset := kv.file.length
  let flags : Int := 0
  let record := NewRecord key value flags
  let record := if deleted then record.Tombstone else record
  (record.Write kv.file).bind fun file =>
  if record.IsTombstoned then
    some { kv with file := file, index := kv.index.Delete key }
  else
    some { kv with file := file, index := kv.index.Add key (Uint32ToBytes (offset % 2 ^ 32)) }

def KVStore.Delete (kv : KVStore) (key : List Nat) : Option KVStore :=
  kv.set key [0] true

def KVStore.Put (kv : KVStore) (key value : List Nat) : Option KVStore :=
  kv.set key value false

/-- The loop `for scaner.Scan() { ... }` of `RebuildIndex`: the index after
the loop and the error returned. -/
def KVStore.rebuildLoop : Nat → Scanner → Index → Nat → Except Abort (Index × Option Error)
  | 0, _, _, _ => .error Abort.outOfFuel
  | fuel + 1, scaner, index, offset =>
    match scaner.Scan with
    | .error a => .error a
    | .ok (false, _) => .ok (index, none)
    | .ok (true, scaner) =>
      match scaner.Record with
      | none => .error Abort.panic
      | some (_, some err) => .ok (index, some err)
      | some (record, none) =>
        KVStore.rebuildLoop fuel scaner (index.Add record.Key (Uint32ToBytes offset))
          ((offset + record.RawSize % 2 ^ 32) % 2 ^ 32)

/-- Source `KVStore.RebuildIndex`: scan the file at `path` from its start. Every
token takes at least one byte, so `len(file) + 1` rounds of the loop are
enough. -/
def KVStore.RebuildIndex (kv : KVStore) : Except Abort (KVStore × Option Error) :=
  let offset := 0
  let scaner := NewScanner kv.file kv.maxRecordSize
  match KVStore.rebuildLoop (kv.file.length + 1) scaner kv.index offset with
  | .error a => .error a
  | .ok (index, err) => .ok ({ kv with index := index }, err)

/-- Source `KVStore.Close`: the file stays as it is. -/
def KVStore.Close (kv : KVStore) : List Nat := kv.file

/-! ## Calls and sequences of calls -/

/-- A call of the store's write interface. -/
inductive Op where
  | Put (key value : List Nat)
  | Delete (key : List Nat)
deriving DecidableEq, Repr

/-- The key a call is about. -/
def Op.key : Op → List Nat
  | Op.Put key _ => key
  | Op.Delete key => key

/-- One call on a store. -/
def KVStore.apply (kv : KVStore) : Op → Option KVStore
  | Op.Put key value => kv.Put key value
  | Op.Delete key => kv.Delete key

/-- A sequence of calls, each returning before the next; `none` when one of
them panics. -/
def KVStore.run (kv : KVStore) : List Op → Option KVStore
  | [] => some kv
  | op :: ops => (kv.apply op).bind fun kv => kv.run ops

/-! ## Vocabulary of the statements -/

/-- The key length a buffer announces in bytes 1..5 of its header. -/
def headerKeyLen (data : List Nat) : Nat := BytesToUint32 ((data.drop 1).take 4)

/-- The value length a buffer announces in bytes 5..9 of its header. -/
def headerValueLen (data : List Nat) : Nat := BytesToUint32 ((data.drop 5).take 4)

/-- The record layout in the words of the format description: flags, the two
lengths, key, value, and the CRC of all that precedes it. -/
def Record.layout (r : Record) : List Nat :=
  let body := [byte r.Flags] ++ Uint32ToBytes r.Key.length ++ Uint32ToBytes r.Value.length
    ++ r.Key ++ r.Value
  body ++ Uint32ToBytes (ChecksumIEEE body)

/-- Flip bit `j` of byte `i` of a buffer. -/
def flipBit (data : List Nat) (i j : Nat) : List Nat :=
  data.set i (data.getD i 0 ^^^ 2 ^ j)

/-- The record a call appends to the file. -/
def Op.record : Op → Record
  | Op.Put key value => NewRecord key value 0
  | Op.Delete key => (NewRecord key [0] 0).Tombstone

/-- The size of the buffer that `NewScanner` allocates. -/
def scanBufferSize (maxRecordSize : Nat) : Nat :=
  ((maxRecordSize + metaSize) % 4096 + 1) * 4096

/-- The scanner of `RebuildIndex` once the whole file has been read into its
buffer: the reader is exhausted, the bytes of the file are followed by the
zeros the buffer was allocated with, and the unread window starts at `pos`. -/
def Scanner.loaded (file : List Nat) (maxRecordSize pos : Nat) (token : Option (Nat × Nat)) :
    Scanner :=
  { r := [], buf := file ++ List.replicate (scanBufferSize maxRecordSize - file.length) 0,
    start := pos, end_ := file.length, token := token, err := none,
    maxTokenSize := maxRecordSize + metaSize }

/-- The index after `Add` has been called for each record of a list in turn,
with the running `uint32` offset of `RebuildIndex`. -/
def indexRecords : List Record → Index → Nat → Index
  | [], index, _ => index
  | r :: rs, index, offset =>
    indexRecords rs (index.Add r.Key (Uint32ToBytes offset))
      ((offset + r.RawSize % 2 ^ 32) % 2 ^ 32)

/-- The bytes of a file that holds the encodings of a list of records. -/
def encodeAll (rs : List Record) : List Nat :=
  (rs.map Record.layout).flatten

/-- A record that the codec round-trips: flags in the range of `int8` and an
encoded size below `2^32`. -/
def Record.Sound (r : Record) : Prop :=
  -128 ≤ r.Flags ∧ r.Flags < 128 ∧ 13 + r.Key.length + r.Value.length < 2 ^ 32

/-! ## `index.go` and `kvstore.go`: range scans -/

/-- Library `BTreeG.Ascend(pivot, iter)` with an iterator that always returns
`true`: the items from the first one that is not less than the pivot to the
last, in ascending order. -/
def btreeAscend (t : List Item) (pivot : Item) : List Item :=
  t.dropWhile fun x => byKeys x pivot

/-- Library `BTreeG.Descend(pivot, iter)` with an iterator that always returns
`true`: the items from the last one that is not greater than the pivot down to
the first, in descending order. -/
def btreeDescend (t : List Item) (pivot : Item) : List Item :=
  (t.takeWhile fun x => !byKeys pivot x).reverse

/-- Source `Index.Search`: the items the iteration appends, in the order
of the iteration. -/
def Index.Search (i : Index) (key : List Nat) (descend : Bool) : List Item :=
  let item : Item := { Key := key, Val := [] }
  if descend then btreeDescend i.t item else btreeAscend i.t item

/-- The loop of `KVStore.Search` over the items of the index: each record is
read from the file at the item's offset; the first read that returns an
error ends the search with that error, a panic of the decoder is `none`. -/
def KVStore.searchLoop (kv : KVStore) : List Item → Option (Except Error (List Record))
  | [] => some (.ok [])
  | item :: items =>
    let offset := BytesToUint32 item.Val
    (kv.recordAt offset).bind fun res =>
    match res with
    | (_, some err) => some (.error err)
    | (record, none) =>
      (kv.searchLoop items).bind fun rest =>
      match rest with
      | .error err => some (.error err)
      | .ok records => some (.ok (record :: records))

/-- Source `KVStore.Search`. -/
def KVStore.Search (kv : KVStore) (key : List Nat) (revert : Bool) :
    Option (Except Error (List Record)) :=
  kv.searchLoop (kv.index.Search key revert)

/-! ## Invariants of the store -/

/-- The items of the index are in strictly ascending order of their keys. -/
def Index.Sorted (i : Index) : Prop :=
  i.t.Pairwise fun a b => byKeys a b = true

/-- Every index entry is the offset, below `2^32`, of the encoding of a
non-tombstone record with the entry's key, of an encoded size below `2^32`,
whose key and value satisfy `P`. -/
def KVStore.EntriesSat (kv : KVStore) (P : List Nat → List Nat → Prop) : Prop :=
  ∀ item ∈ kv.index.t, ∃ front back value,
    kv.file = front ++ Record.layout ⟨0, item.Key, value⟩ ++ back ∧
    item.Val = Uint32ToBytes front.length ∧
    front.length < 2 ^ 32 ∧
    13 + item.Key.length + value.length < 2 ^ 32 ∧
    P item.Key value

/-- Every index entry points to a record that fits the buffer `Get` reads:
key and value together are at most the maximum record size. -/
def KVStore.EntriesFit (kv : KVStore) : Prop :=
  kv.EntriesSat fun key value => key.length + value.length ≤ kv.maxRecordSize

/-- A `Put` whose key and value together are at most `M`; a `Delete` is not
constrained, its record is never read back through the index. -/
def Op.Fits (M : Nat) : Op → Prop
  | Op.Put key value => key.length + value.length ≤ M
  | Op.Delete _ => True

/-- Whether the index holds an entry for the key (`Index.Get` returns no error). -/
def Index.Has (i : Index) (k : List Nat) : Bool :=
  match i.Get k with
  | .ok _ => true
  | .error _ => false

/-- Spec vocabulary: a key is live after a sequence of calls when the last call
on it is a `Put`; `b` says whether it was live before the sequence. -/
def liveAfter (k : List Nat) : Bool → List Op → Bool
  | b, [] => b
  | b, Op.Put key _ :: ops => liveAfter k (if key = k then true else b) ops
  | b, Op.Delete key :: ops => liveAfter k (if key = k then false else b) ops

end kvstore

namespace file

/-! ## `fs/file/fileEngine.go` -/

/-- Modelled from the spec: `utils.Uint64ToBytes` (package `utils` is not part
of the sources at hand). The spec writes the 64-bit keys of the stores as
`u64_be`: the 8-byte big-endian serialisation of a `uint64`. -/
def Uint64ToBytes (n : Nat) : List Nat :=
  [n / 2 ^ 56 % 256, n / 2 ^ 48 % 256, n / 2 ^ 40 % 256, n / 2 ^ 32 % 256,
   n / 2 ^ 24 % 256, n / 2 ^ 16 % 256, n / 2 ^ 8 % 256, n % 256]

/-- The errors the engine returns: the one `PickBlocks` makes with
`errors.New("offset is bigger than data length")`, and those of the store. -/
inductive EngineError where
  | OffsetBiggerThanDataLength
  | Store (err : kvstore.Error)
deriving DecidableEq, Repr

structure FsFileEngine where
  hash : String
  path : String
  inode : Nat
  kvs : kvstore.KVStore

/-- Source `NewFsFileEngine`: a store with maximum record size `4096 * 2` on the
file `path/hash`, which holds `content` (empty when the file is created). -/
def NewFsFileEngine (inode : Nat) (path hash : String) (content : List Nat) : FsFileEngine :=
  { hash := hash, path := path, inode := inode, kvs := kvstore.NewKVStore content (4096 * 2) }

/-- Source `PickBlocks`, on `uint64` arguments: a slice of two block indexes. -/
def PickBlocks (offset dataLen : Nat) : Except EngineError (List Nat) :=
  if dataLen < offset then .error EngineError.OffsetBiggerThanDataLength
  else
    let blocks := List.replicate 2 0
    let blocks := blocks.set 0 (offset / 4096)
    let blocks := blocks.set 1 ((offset + dataLen) % 2 ^ 64 / 4096)
    .ok blocks

/-- Go `m[k] = v` on a `map[uint64][]byte` kept as the list of its entries: the
entry of `k` is replaced, or added when there is none. -/
def mapSet : List (Nat × List Nat) → Nat → List Nat → List (Nat × List Nat)
  | [], k, v => [(k, v)]
  | (k0, v0) :: m, k, v => if k0 = k then (k, v) :: m else (k0, v0) :: mapSet m k v

/-- Go `m[k]` on a `map[uint64][]byte`: `none` stands for the nil slice of a
missing key. -/
def mapGet : List (Nat × List Nat) → Nat → Option (List Nat)
  | [], _ => none
  | (k0, v0) :: m, k => if k0 = k then some v0 else mapGet m k

/-- The loop of `AllocateBlocks` over the picked blocks. -/
def FsFileEngine.allocateLoop (fs : FsFileEngine) :
    List Nat → List (Nat × List Nat) → Option (Except EngineError (List (Nat × List Nat)))
  | [], blocksData => some (.ok blocksData)
  | block :: blocks, blocksData =>
    let blocksData := mapSet blocksData block (List.replicate 4096 0)
    (fs.kvs.Get (Uint64ToBytes block)).bind fun res =>
    match res with
    | .error err =>
      if err ≠ kvstore.Error.ErrItemNotFound then some (.error (EngineError.Store err))
      else fs.allocateLoop blocks blocksData
    | .ok blockData =>
      fs.allocateLoop blocks
        (mapSet blocksData block
          (kvstore.copy ((mapGet blocksData block).getD []) blockData))

/-- Source `FsFileEngine.AllocateBlocks`: the returned map and error; `none` when
the store panics. -/
def FsFileEngine.AllocateBlocks (fs : FsFileEngine) (offset dataLen : Nat) :
    Option (Except EngineError (List (Nat × List Nat))) :=
  match PickBlocks offset dataLen with
  | .error err => some (.error err)
  | .ok blocks => fs.allocateLoop blocks []

/-- Source `FsFileEngine.WriteBlock`. -/
def FsFileEngine.WriteBlock (fs : FsFileEngine) (block : Nat) (data : List Nat) :
    Option FsFileEngine :=
  (fs.kvs.Put (Uint64ToBytes block) data).map fun kvs => { fs with kvs := kvs }

/-- Source `FsFileEngine.ReadBlock`. -/
def FsFileEngine.ReadBlock (fs : FsFileEngine) (block : Nat) :
    Option (Except kvstore.Error (List Nat)) :=
  fs.kvs.Get (Uint64ToBytes block)

/-- A sequence of `WriteBlock` calls, each returning before the next. -/
def FsFileEngine.writeAll (fs : FsFileEngine) : List (Nat × List Nat) → Option FsFileEngine
  | [] => some fs
  | (block, data) :: ws => (fs.WriteBlock block data).bind fun fs => fs.writeAll ws

/-- The 4 KiB buffer `AllocateBlocks` hands out for a block: zeros when the
store has no such block, otherwise the stored bytes, at most 4096 of them,
followed by zeros up to 4096. -/
def FsFileEngine.blockBuffer (fs : FsFileEngine) (block : Nat) : List Nat :=
  match fs.ReadBlock block with
  | some (.ok data) => data.take 4096 ++ List.replicate (4096 - data.length) 0
  | _ => List.replicate 4096 0

/-- Spec vocabulary: the 4 KiB blocks touched by the byte range
`[offset, offset + dataLen)`. -/
def touched (offset dataLen b : Nat) : Prop :=
  offset / 4096 ≤ b ∧ b ≤ (offset + dataLen - 1) / 4096

instance (offset dataLen b : Nat) : Decidable (touched offset dataLen b) := by
  unfold touched
  infer_instance

/-! ## `fs/file/file.go` -/

/-- Go conversion `uint64(x)` of an `int64`. -/
def uint64 (x : Int) : Nat := (x % 2 ^ 64).toNat

/-- Source `FsFile`: `data` is the in-memory content, `fsEngine` the data engine. -/
structure FsFile where
  fsName : String
  inode : Nat
  handle : Nat
  offset : Nat
  data : List Nat
  hash : String
  dataBasePath : String
  fsEngine : FsFileEngine

/-- Source `New`: the engine is opened on the file `dataBasePath/hash`, which holds
`content`. `NewFsFileEngine` fails only when that file cannot be opened,
which is taken not to happen. -/
def New (name : String) (inode : Nat) (hash dataBasePath : String) (content : List Nat) :
    FsFile :=
  { fsName := name, inode := inode, handle := 0, offset := 0, data := [], hash := hash,
    dataBasePath := dataBasePath, fsEngine := NewFsFileEngine inode dataBasePath hash content }

/-- Source `FsFile.ReadAt`: the blocks are allocated and dropped; the returned count
is always 0. `none` when the store panics. -/
def FsFile.ReadAt (f : FsFile) (_b : List Nat) (off size : Int) :
    Option (Nat × Option EngineError) :=
  (f.fsEngine.AllocateBlocks (uint64 off) (uint64 size)).map fun res =>
    match res with
    | .error err => (0, some err)
    | .ok _ => (0, none)

/-- The first statement of `FsFile.WriteAt` (and of `FsFile.Write`): the content is
extended with zeros when it is shorter than `uint64(off) + uint64(len(b))`,
computed in `uint64`. -/
def FsFile.extended (f : FsFile) (b : List Nat) (off : Int) : List Nat :=
  let need := (uint64 off + uint64 b.length) % 2 ^ 64
  if uint64 f.data.length < need then
    f.data ++ List.replicate ((need + 2 ^ 64 - uint64 f.data.length) % 2 ^ 64) 0
  else f.data

/-- Source `FsFile.WriteAt`: the file after the call, `n` and the error (always nil);
`none` when the slice expression `file.data[off:]` panics. -/
def FsFile.WriteAt (f : FsFile) (b : List Nat) (off : Int) :
    Option (FsFile × Nat × Option EngineError) :=
  let data := f.extended b off
  if off < 0 ∨ data.length < off.toNat then none
  else
    let dst := data.drop off.toNat
    let n := min dst.length b.length
    some ({ f with data := data.take off.toNat ++ kvstore.copy dst b }, n, none)

/-- Source `FsFile.Sync`. -/
def FsFile.Sync (_f : FsFile) : Option EngineError := none

end file

namespace fuseops

/-! ## Library `jacobsa/fuse`: the operations the handlers receive -/

/-- Library `fuseops.InodeAttributes`; `Nlink`, `Mode`, `Rdev`, `Uid` and `Gid` are
`uint32`, the times are points of the clock. -/
structure InodeAttributes where
  Size : Nat
  Nlink : Nat
  Mode : Nat
  Rdev : Nat
  Uid : Nat
  Gid : Nat
  Atime : Nat
  Mtime : Nat
  Ctime : Nat
deriving DecidableEq, Repr

structure ChildInodeEntry where
  Child : Nat
  Attributes : InodeAttributes
deriving DecidableEq, Repr

structure CreateFileOp where
  Parent : Nat
  Name : String
  Mode : Nat
  Entry : ChildInodeEntry
  Handle : Nat
deriving DecidableEq, Repr

structure CreateLinkOp where
  Parent : Nat
  Name : String
  Target : Nat
  Entry : ChildInodeEntry
deriving DecidableEq, Repr

structure CreateSymlinkOp where
  Parent : Nat
  Name : String
  Target : String
  Entry : ChildInodeEntry
deriving DecidableEq, Repr

structure ReadSymlinkOp where
  Inode : Nat
  Target : String
deriving DecidableEq, Repr

structure RenameOp where
  OldParent : Nat
  OldName : String
  NewParent : Nat
  NewName : String
deriving DecidableEq, Repr

structure UnlinkOp where
  Parent : Nat
  Name : String
deriving DecidableEq, Repr

structure OpenFileOp where
  Inode : Nat
  Handle : Nat
deriving DecidableEq, Repr

structure ReadFileOp where
  Handle : Nat
  Offset : Int
  Size : Int
  Dst : List Nat
  BytesRead : Nat
deriving DecidableEq, Repr

structure WriteFileOp where
  Handle : Nat
  Offset : Int
  Data : List Nat
deriving DecidableEq, Repr

structure FlushFileOp where
  Handle : Nat
deriving DecidableEq, Repr

structure SyncFileOp where
  Handle : Nat
deriving DecidableEq, Repr

structure ReleaseFileHandleOp where
  Handle : Nat
deriving DecidableEq, Repr

end fuseops

namespace file

/-! ## `fs/file/file.go`: reading and writing through the operations -/

/-- Source `FsFile.Read`: `copy(op.Dst, file.data[op.Offset:])`, with the number
of bytes copied in `op.BytesRead`; the error is always nil. `none` when the
slice expression `file.data[op.Offset:]` panics. -/
def FsFile.Read (f : FsFile) (op : fuseops.ReadFileOp) :
    Option (fuseops.ReadFileOp × Option EngineError) :=
  if op.Offset < 0 ∨ f.data.length < op.Offset.toNat then none
  else
    let src := f.data.drop op.Offset.toNat
    some ({ op with Dst := kvstore.copy op.Dst src, BytesRead := min op.Dst.length src.length },
      none)

/-- Source `FsFile.Write`: the file after the call and the error (always nil);
`none` when the slice expression `file.data[op.Offset:]` panics. -/
def FsFile.Write (f : FsFile) (op : fuseops.WriteFileOp) : Option (FsFile × Option EngineError) :=
  let data := f.extended op.Data op.Offset
  if op.Offset < 0 ∨ data.length < op.Offset.toNat then none
  else
    some ({ f with data := data.take op.Offset.toNat
                     ++ kvstore.copy (data.drop op.Offset.toNat) op.Data }, none)

end file

namespace fsdb

/-! ## Package `fsdb`: the metadata DB -/

/-- Go `os.ModeDir`. -/
def ModeDir : Nat := 2 ^ 31

/-- Go `os.ModeSymlink`. -/
def ModeSymlink : Nat := 2 ^ 27

/-- Source `fsdb.InodeAttributes`, as the handlers and the test of the package build
it: the attributes of the adapter, the hash and the parent. -/
structure InodeAttributes where
  Hash : String
  ParentID : Nat
  InodeAttributes : fuseops.InodeAttributes
deriving DecidableEq, Repr

/-- Source `fsdb.Inode`, as the test of the package builds it. -/
structure Inode where
  InodeID : Nat
  ParentID : Nat
  Name : String
  Attrs : InodeAttributes
deriving DecidableEq, Repr

/-- Modelled from the spec: `fsdb.NewInode` (the package's sources other than
its test are not at hand): the inode with the given id, parent, name and
attributes. -/
def NewInode (id parent : Nat) (name : String) (attrs : InodeAttributes) : Inode :=
  { InodeID := id, ParentID := parent, Name := name, Attrs := attrs }

/-- Modelled from the spec: `Inode.ID` (not at hand). -/
def Inode.ID (i : Inode) : Nat := i.InodeID

/-- Modelled from the spec: `Inode.SetParent` (not at hand). -/
def Inode.SetParent (i : Inode) (parent : Nat) : Inode := { i with ParentID := parent }

/-- Modelled from the spec: `Inode.SetName` (not at hand). -/
def Inode.SetName (i : Inode) (name : String) : Inode := { i with Name := name }

/-- Modelled from the spec: `Inode.SetAttrsParent` (not at hand): the parent
recorded in the attributes. -/
def Inode.SetAttrsParent (i : Inode) (parent : Nat) : Inode :=
  { i with Attrs := { i.Attrs with ParentID := parent } }

/-- Modelled from the spec: `InodeAttributes.GetHash` (not at hand). -/
def InodeAttributes.GetHash (a : fsdb.InodeAttributes) : String := a.Hash

/-- Library `fuseutil.DirentType`, the three kinds the handlers tell apart. -/
inductive DirentType where
  | DT_File
  | DT_Directory
  | DT_Link
deriving DecidableEq, Repr

/-- Modelled from the spec: `fsdb.InodeDirentType` (not at hand): a directory
by the directory bit of the mode, a link by the symlink bit, a file
otherwise. -/
def InodeDirentType (mode : Nat) : DirentType :=
  if mode &&& ModeDir = ModeDir then DirentType.DT_Directory
  else if mode &&& ModeSymlink = ModeSymlink then DirentType.DT_Link
  else DirentType.DT_File

/-- The errors of the metadata DB: `ErrNoSuchInode`, and a failure of the
underlying store files. -/
inductive Error where
  | ErrNoSuchInode
  | ErrIO
deriving DecidableEq, Repr

/-- A table of rows with unique keys, as the list of its rows: lookup. -/
def rowGet {κ ν : Type} [DecidableEq κ] : List (κ × ν) → κ → Option ν
  | [], _ => none
  | (k0, v0) :: m, k => if k0 = k then some v0 else rowGet m k

/-- A table of rows with unique keys: the row of `k` is replaced, or added. -/
def rowSet {κ ν : Type} [DecidableEq κ] : List (κ × ν) → κ → ν → List (κ × ν)
  | [], k, v => [(k, v)]
  | (k0, v0) :: m, k, v => if k0 = k then (k, v) :: m else (k0, v0) :: rowSet m k v

/-- A table of rows with unique keys: the row of `k` is removed. -/
def rowDelete {κ ν : Type} [DecidableEq κ] : List (κ × ν) → κ → List (κ × ν)
  | [], _ => []
  | (k0, v0) :: m, k => if k0 = k then rowDelete m k else (k0, v0) :: rowDelete m k

/-- Modelled from the spec: the metadata DB (the package's sources other than
its test are not at hand). The spec describes two stores, attribute rows by
inode id and directory entries by `(parent, name)`, read through a cache;
`attrs` and `dentries` are what a read through the cache returns. `nextID`
is the counter of `new_inode_id`; `failing` says that the store files fail,
in which case every operation returns an IO error. -/
structure Fsdb where
  attrs : List (Nat × InodeAttributes)
  dentries : List ((Nat × String) × Nat)
  nextID : Nat
  failing : Bool
deriving DecidableEq, Repr

/-- Modelled from the spec: `get_inode_attributes(id)`, in the source
`GetFsdbInodeAttributes` (not at hand). -/
def Fsdb.GetFsdbInodeAttributes (db : Fsdb) (id : Nat) : Except Error InodeAttributes :=
  if db.failing then .error Error.ErrIO
  else
    match rowGet db.attrs id with
    | none => .error Error.ErrNoSuchInode
    | some a => .ok a

/-- Modelled from the spec: `get_inode(parent, name)` (not at hand): the
directory entry gives the child id, the attribute row its attributes;
`NoSuchInode` when either is missing. -/
def Fsdb.GetInode (db : Fsdb) (parent : Nat) (name : String) : Except Error Inode :=
  if db.failing then .error Error.ErrIO
  else
    match rowGet db.dentries (parent, name) with
    | none => .error Error.ErrNoSuchInode
    | some child =>
      match rowGet db.attrs child with
      | none => .error Error.ErrNoSuchInode
      | some a => .ok { InodeID := child, ParentID := parent, Name := name, Attrs := a }

/-- Modelled from the spec: `add_inode(inode, write_back)` (not at hand): the
attribute row and the directory entry are written; an entry with the same
`(parent, name)` is overwritten. -/
def Fsdb.AddInode (db : Fsdb) (inode : Inode) (_writeBack : Bool) : Fsdb × Option Error :=
  if db.failing then (db, some Error.ErrIO)
  else
    ({ db with attrs := rowSet db.attrs inode.InodeID inode.Attrs,
               dentries := rowSet db.dentries (inode.ParentID, inode.Name) inode.InodeID },
      none)

/-- Modelled from the spec: `delete_inode(inode, write_back)` (not at hand):
the directory entry and the attribute row are removed. -/
def Fsdb.DeleteInode (db : Fsdb) (inode : Inode) (_writeBack : Bool) : Fsdb × Option Error :=
  if db.failing then (db, some Error.ErrIO)
  else
    ({ db with attrs := rowDelete db.attrs inode.InodeID,
               dentries := rowDelete db.dentries (inode.ParentID, inode.Name) },
      none)

/-- Modelled from the spec: persisting the attributes of an inode ("decrement
and persist"), in the source `CreateInodeAttrs` (not at hand): the attribute
row is written, the directory entries are left alone. -/
def Fsdb.CreateInodeAttrs (db : Fsdb) (inode : Inode) : Fsdb × Option Error :=
  if db.failing then (db, some Error.ErrIO)
  else ({ db with attrs := rowSet db.attrs inode.InodeID inode.Attrs }, none)

/-- Modelled from the spec: `new_inode_id()` (not at hand): a fresh id from a
counter. -/
def Fsdb.NewInodeID (db : Fsdb) : Fsdb × Nat :=
  ({ db with nextID := db.nextID + 1 }, db.nextID)

end fsdb

namespace monofs

/-! ## `fs/fileoper.go`: the inode/handle layer -/

/-- The errno values the handlers return (`fuse.ENOENT`, `fuse.EIO`,
`fuse.EINVAL`, `syscall.EISDIR`). -/
inductive Errno where
  | ENOENT
  | EIO
  | EISDIR
  | EINVAL
deriving DecidableEq, Repr

/-- A Go `error` value returned by a handler: an errno, or an error of the data
engine handed on as it is. -/
inductive Error where
  | errno (e : Errno)
  | engine (e : file.EngineError)
deriving DecidableEq, Repr

/-- Modelled from the spec: the per-parent lock `fsHashLock` (its type is not
among the sources at hand), a mutex per parent id. `held` lists the ids
whose mutex is locked. -/
structure HashLock where
  held : List Nat
deriving DecidableEq, Repr

/-- Modelled from the spec: `fsHashLock.Lock` (not at hand). The mutex is not
reentrant: on a key that is held the call blocks until the holder unlocks,
which is `none` here, where no other call runs. -/
def HashLock.Lock (l : HashLock) (key : Nat) : Option HashLock :=
  if key ∈ l.held then none else some { held := key :: l.held }

/-- Modelled from the spec: `fsHashLock.Unlock` (not at hand). -/
def HashLock.Unlock (l : HashLock) (key : Nat) : HashLock :=
  { held := l.held.erase key }

/-- Ghost record of a call: the lock operations and the mutations of the
metadata DB, in the order in which they happen. -/
inductive Event where
  | Lock (key : Nat)
  | Unlock (key : Nat)
  | AddInode (id : Nat)
  | DeleteInode (id : Nat)
  | CreateInodeAttrs (id : Nat)
deriving DecidableEq, Repr

/-- Modelled from the spec: the struct `Monofs` (declared in a file that is
not among the sources at hand), with the fields the handlers of
`fileoper.go` use. `Clock` is the time `fs.Clock.Now()` returns, `randString`
the string `utils.RandString(32)` returns, `disk` the content of the files
under `localDataPath` by name; `history` is ghost state. -/
structure Monofs where
  Name : String
  metadb : fsdb.Fsdb
  fsHashLock : HashLock
  fileHandles : List (Nat × file.FsFile)
  Clock : Nat
  uid : Nat
  gid : Nat
  CurrentSnapshot : String
  localDataPath : String
  randString : String
  disk : List (String × List Nat)
  history : List Event

/-- How a call of a handler ends: it returns (the state, the operation with its
output fields, the error), it blocks forever on a lock, or it panics. -/
inductive Outcome (α : Type) where
  | returned (fs : Monofs) (op : α) (err : Option Error)
  | blocked (fs : Monofs)
  | panic

/-- Source expression `fs.fsHashLock.Lock(key)`; `none` when it blocks. -/
def Monofs.Lock (fs : Monofs) (key : Nat) : Option Monofs :=
  (fs.fsHashLock.Lock key).map fun l =>
    { fs with fsHashLock := l, history := fs.history ++ [Event.Lock key] }

/-- Source expression `fs.fsHashLock.Unlock(key)`. -/
def Monofs.Unlock (fs : Monofs) (key : Nat) : Monofs :=
  { fs with fsHashLock := fs.fsHashLock.Unlock key,
            history := fs.history ++ [Event.Unlock key] }

/-- Modelled from the spec: `Monofs.GetInode` (not at hand), the lookup of the
metadata DB. -/
def Monofs.GetInode (fs : Monofs) (parent : Nat) (name : String) (_cache : Bool) :
    Except fsdb.Error fsdb.Inode :=
  fs.metadb.GetInode parent name

/-- Modelled from the spec: `Monofs.AddInode` (not at hand). -/
def Monofs.AddInode (fs : Monofs) (inode : fsdb.Inode) (writeBack : Bool) :
    Monofs × Option fsdb.Error :=
  match fs.metadb.AddInode inode writeBack with
  | (db, none) =>
    ({ fs with metadb := db, history := fs.history ++ [Event.AddInode inode.InodeID] }, none)
  | (_, some err) => (fs, some err)

/-- Modelled from the spec: `Monofs.DeleteInode` (not at hand). -/
def Monofs.DeleteInode (fs : Monofs) (inode : fsdb.Inode) (writeBack : Bool) :
    Monofs × Option fsdb.Error :=
  match fs.metadb.DeleteInode inode writeBack with
  | (db, none) =>
    ({ fs with metadb := db, history := fs.history ++ [Event.DeleteInode inode.InodeID] },
      none)
  | (_, some err) => (fs, some err)

/-- Modelled from the spec: `Monofs.CreateInodeAttrs` (not at hand). -/
def Monofs.CreateInodeAttrs (fs : Monofs) (inode : fsdb.Inode) : Monofs × Option fsdb.Error :=
  match fs.metadb.CreateInodeAttrs inode with
  | (db, none) =>
    ({ fs with metadb := db, history := fs.history ++ [Event.CreateInodeAttrs inode.InodeID] },
      none)
  | (_, some err) => (fs, some err)

/-- Modelled from the spec: `Monofs.NewInode` (not at hand): an inode with a
freshly allocated id. -/
def Monofs.NewInode (fs : Monofs) (parent : Nat) (name : String)
    (attrs : fsdb.InodeAttributes) : Monofs × fsdb.Inode :=
  let (db, id) := fs.metadb.NewInodeID
  ({ fs with metadb := db }, fsdb.NewInode id parent name attrs)

/-- The content of the file `localDataPath/name`; empty when there is none. -/
def Monofs.content (fs : Monofs) (name : String) : List Nat :=
  (fsdb.rowGet fs.disk name).getD []

/-- The hash `CreateFile` gives a new file,
`fmt.Sprintf("%x.%s", sha256.Sum(nil), fs.CurrentSnapshot)`. The SHA-256 digest
of name, time and random string is not computed here: the three strings in a
row stand for it. No statement below depends on the hash of a new file. -/
def newFileHash (name : String) (t : Nat) (rand snapshot : String) : String :=
  name ++ toString t ++ rand ++ "." ++ snapshot

/-- Source `Monofs.CreateFile`. The deferred `Unlock` runs on every return.
`monofile.New` fails only when the data file cannot be opened, which is
taken not to happen. -/
def Monofs.CreateFile (fs : Monofs) (op : fuseops.CreateFileOp) :
    Outcome fuseops.CreateFileOp :=
  match fs.Lock op.Parent with
  | none => .blocked fs
  | some fs =>
    let res : Monofs × fuseops.CreateFileOp × Option Error :=
      match fs.GetInode op.Parent op.Name true with
      | .ok i =>
        (fs, { op with Entry := { Child := i.ID, Attributes := i.Attrs.InodeAttributes } }, none)
      | .error _ =>
        let t := fs.Clock
        let (fs, inode) := fs.NewInode op.Parent op.Name
          { Hash := newFileHash op.Name t fs.randString fs.CurrentSnapshot,
            ParentID := 0,
            InodeAttributes :=
              { Size := 0, Nlink := 1, Mode := op.Mode, Rdev := 0, Uid := fs.uid, Gid := fs.gid,
                Atime := t, Mtime := t, Ctime := t } }
        match fs.AddInode inode true with
        | (fs, some _) => (fs, op, some (Error.errno Errno.EIO))
        | (fs, none) =>
          let fsHandle := file.New fs.Name inode.ID inode.Attrs.Hash fs.localDataPath
            (fs.content inode.Attrs.Hash)
          ({ fs with fileHandles := fsdb.rowSet fs.fileHandles op.Handle fsHandle },
            { op with Entry := { Child := inode.ID,
                                 Attributes := inode.Attrs.InodeAttributes } }, none)
    .returned (res.1.Unlock op.Parent) res.2.1 res.2.2

/-- Source `Monofs.CreateLink`. `Nlink` is a `uint32`. -/
def Monofs.CreateLink (fs : Monofs) (op : fuseops.CreateLinkOp) :
    Outcome fuseops.CreateLinkOp :=
  match fs.Lock op.Parent with
  | none => .blocked fs
  | some fs =>
    let res : Monofs × fuseops.CreateLinkOp × Option Error :=
      match fs.metadb.GetFsdbInodeAttributes op.Target with
      | .error err =>
        if err = fsdb.Error.ErrNoSuchInode then (fs, op, some (Error.errno Errno.ENOENT))
        else (fs, op, some (Error.errno Errno.EIO))
      | .ok iattr =>
        let inode := fsdb.NewInode op.Target op.Parent op.Name
          { Hash := iattr.Hash, ParentID := iattr.ParentID,
            InodeAttributes := iattr.InodeAttributes }
        let inode : fsdb.Inode :=
          { inode with Attrs := { inode.Attrs with InodeAttributes :=
              { inode.Attrs.InodeAttributes with
                  Nlink := (inode.Attrs.InodeAttributes.Nlink + 1) % 2 ^ 32 } } }
        match fs.AddInode inode true with
        | (fs, some _) => (fs, op, some (Error.errno Errno.EIO))
        | (fs, none) =>
          (fs, { op with Entry := { Child := inode.ID,
                                    Attributes := inode.Attrs.InodeAttributes } }, none)
    .returned (res.1.Unlock op.Parent) res.2.1 res.2.2

/-- Source `Monofs.CreateSymlink`. -/
def Monofs.CreateSymlink (fs : Monofs) (op : fuseops.CreateSymlinkOp) :
    Outcome fuseops.CreateSymlinkOp :=
  match fs.Lock op.Parent with
  | none => .blocked fs
  | some fs =>
    let res : Monofs × fuseops.CreateSymlinkOp × Option Error :=
      let t := fs.Clock
      let (fs, inode) := fs.NewInode op.Parent op.Name
        { Hash := op.Target,
          ParentID := 0,
          InodeAttributes :=
            { Size := 0, Nlink := 1, Mode := 0o777 ||| fsdb.ModeSymlink, Rdev := 0,
              Uid := fs.uid, Gid := fs.gid, Ctime := t, Mtime := t, Atime := t } }
      match fs.AddInode inode true with
      | (fs, some _) => (fs, op, some (Error.errno Errno.EIO))
      | (fs, none) =>
        (fs, { op with Entry := { Child := inode.ID,
                                  Attributes := inode.Attrs.InodeAttributes } }, none)
    .returned (res.1.Unlock op.Parent) res.2.1 res.2.2

/-- Source `Monofs.ReadSymlink`. -/
def Monofs.ReadSymlink (fs : Monofs) (op : fuseops.ReadSymlinkOp) :
    Outcome fuseops.ReadSymlinkOp :=
  match fs.metadb.GetFsdbInodeAttributes op.Inode with
  | .error err =>
    if err = fsdb.Error.ErrNoSuchInode then .returned fs op (some (Error.errno Errno.ENOENT))
    else .returned fs op (some (Error.errno Errno.EIO))
  | .ok attr =>
    if fsdb.InodeDirentType attr.InodeAttributes.Mode = fsdb.DirentType.DT_Link then
      .returned fs { op with Target := attr.Hash } none
    else .returned fs op none

/-- Source `Monofs.Rename`. The call deferred after the lock of the new parent is
taken is `fs.fsHashLock.Lock(op.NewParent)`; it runs on every return that
follows. -/
def Monofs.Rename (fs : Monofs) (op : fuseops.RenameOp) : Outcome fuseops.RenameOp :=
  match fs.Lock op.OldParent with
  | none => .blocked fs
  | some fs =>
    match fs.GetInode op.OldParent op.OldName true with
    | .error err =>
      let fs := fs.Unlock op.OldParent
      if err = fsdb.Error.ErrNoSuchInode then .returned fs op (some (Error.errno Errno.ENOENT))
      else .returned fs op (some (Error.errno Errno.EIO))
    | .ok inode =>
      let (fs, err) := fs.DeleteInode inode false
      let fs := fs.Unlock op.OldParent
      match err with
      | some _ => .returned fs op (some (Error.errno Errno.EIO))
      | none =>
        match fs.Lock op.NewParent with
        | none => .blocked fs
        | some fs =>
          let res : Monofs × Option Error :=
            let inode := inode.SetParent op.NewParent
            let inode := inode.SetName op.NewName
            let inode := inode.SetAttrsParent op.NewParent
            let t := fs.Clock
            let inode : fsdb.Inode :=
              { inode with Attrs := { inode.Attrs with InodeAttributes :=
                  { inode.Attrs.InodeAttributes with Mtime := t } } }
            let inode : fsdb.Inode :=
              { inode with Attrs := { inode.Attrs with InodeAttributes :=
                  { inode.Attrs.InodeAttributes with Atime := t } } }
            match fs.AddInode inode true with
            | (fs, some _) => (fs, some (Error.errno Errno.EIO))
            | (fs, none) => (fs, none)
          match res.1.Lock op.NewParent with
          | none => .blocked res.1
          | some fs => .returned fs op res.2

/-- Source `Monofs.Unlink`. -/
def Monofs.Unlink (fs : Monofs) (op : fuseops.UnlinkOp) : Outcome fuseops.UnlinkOp :=
  match fs.Lock op.Parent with
  | none => .blocked fs
  | some fs =>
    let res : Monofs × Option Error :=
      match fs.GetInode op.Parent op.Name true with
      | .error err =>
        if err = fsdb.Error.ErrNoSuchInode then (fs, some (Error.errno Errno.ENOENT))
        else (fs, some (Error.errno Errno.EIO))
      | .ok inode =>
        if inode.Attrs.InodeAttributes.Mode &&& fsdb.ModeDir = fsdb.ModeDir then
          (fs, some (Error.errno Errno.EISDIR))
        else if inode.Attrs.InodeAttributes.Mode &&& fsdb.ModeSymlink ≠ fsdb.ModeSymlink then
          if inode.Attrs.InodeAttributes.Nlink > 1 then
            let inode : fsdb.Inode :=
              { inode with Attrs := { inode.Attrs with InodeAttributes :=
                  { inode.Attrs.InodeAttributes with
                      Nlink := inode.Attrs.InodeAttributes.Nlink - 1 } } }
            match fs.CreateInodeAttrs inode with
            | (fs, some _) => (fs, some (Error.errno Errno.EIO))
            | (fs, none) => (fs, none)
          else
            match fs.DeleteInode inode false with
            | (fs, some _) => (fs, some (Error.errno Errno.EIO))
            | (fs, none) => (fs, none)
        else (fs, none)
    .returned (res.1.Unlock op.Parent) op res.2

/-- Source `Monofs.OpenFile`. `monofile.New` fails only when the data file cannot
be opened, which is taken not to happen. -/
def Monofs.OpenFile (fs : Monofs) (op : fuseops.OpenFileOp) : Outcome fuseops.OpenFileOp :=
  match fs.metadb.GetFsdbInodeAttributes op.Inode with
  | .error err =>
    if err = fsdb.Error.ErrNoSuchInode then .returned fs op (some (Error.errno Errno.ENOENT))
    else .returned fs op (some (Error.errno Errno.EIO))
  | .ok a =>
    if a.GetHash = "" ∧
        fsdb.InodeDirentType a.InodeAttributes.Mode = fsdb.DirentType.DT_File then
      .returned fs op (some (Error.errno Errno.EIO))
    else
      let fsh := file.New fs.Name op.Inode a.GetHash fs.localDataPath (fs.content a.GetHash)
      .returned { fs with fileHandles := fsdb.rowSet fs.fileHandles op.Handle fsh } op none

/-- Source `Monofs.ReadFile`: the error of `ReadAt` is returned as it is. -/
def Monofs.ReadFile (fs : Monofs) (op : fuseops.ReadFileOp) : Outcome fuseops.ReadFileOp :=
  match fsdb.rowGet fs.fileHandles op.Handle with
  | none => .returned fs op (some (Error.errno Errno.EINVAL))
  | some handle =>
    match handle.ReadAt op.Dst op.Offset op.Size with
    | none => .panic
    | some (n, err) => .returned fs { op with BytesRead := n } (err.map Error.engine)

/-- Source `Monofs.WriteFile`: the handle in the table is the file that `WriteAt`
changes. -/
def Monofs.WriteFile (fs : Monofs) (op : fuseops.WriteFileOp) : Outcome fuseops.WriteFileOp :=
  match fsdb.rowGet fs.fileHandles op.Handle with
  | none => .returned fs op (some (Error.errno Errno.EINVAL))
  | some handle =>
    match handle.WriteAt op.Data op.Offset with
    | none => .panic
    | some (handle, _, err) =>
      .returned { fs with fileHandles := fsdb.rowSet fs.fileHandles op.Handle handle } op
        (err.map Error.engine)

/-- Source `Monofs.FlushFile`. -/
def Monofs.FlushFile (fs : Monofs) (op : fuseops.FlushFileOp) : Outcome fuseops.FlushFileOp :=
  match fsdb.rowGet fs.fileHandles op.Handle with
  | none => .returned fs op (some (Error.errno Errno.EINVAL))
  | some handle => .returned fs op (handle.Sync.map Error.engine)

/-- Source `Monofs.ReleaseFileHandle`. -/
def Monofs.ReleaseFileHandle (fs : Monofs) (op : fuseops.ReleaseFileHandleOp) :
    Outcome fuseops.ReleaseFileHandleOp :=
  .returned { fs with fileHandles := fsdb.rowDelete fs.fileHandles op.Handle } op none

/-- Source `Monofs.SyncFile`. -/
def Monofs.SyncFile (fs : Monofs) (op : fuseops.SyncFileOp) : Outcome fuseops.SyncFileOp :=
  match fsdb.rowGet fs.fileHandles op.Handle with
  | none => .returned fs op (some (Error.errno Errno.EINVAL))
  | some handle => .returned fs op (handle.Sync.map Error.engine)

/-- Modelled from the spec: `NewMonoFS` (not at hand) on an empty metadata
path: the metadata DB holds the root inode only (id 1, mode
`0755 | directory`, the uid and gid of the process), no lock is held and no
handle is open. -/
def NewMonoFS (name : String) (uid gid clock : Nat) : Monofs :=
  { Name := name,
    metadb :=
      { attrs := [(1, { Hash := "", ParentID := 0,
                        InodeAttributes :=
                          { Size := 0, Nlink := 1, Mode := 0o755 ||| fsdb.ModeDir, Rdev := 0,
                            Uid := uid, Gid := gid, Atime := clock, Mtime := clock,
                            Ctime := clock } })],
        dentries := [], nextID := 2, failing := false },
    fsHashLock := { held := [] },
    fileHandles := [],
    Clock := clock, uid := uid, gid := gid,
    CurrentSnapshot := "head", localDataPath := "data", randString := "r",
    disk := [], history := [] }

end monofs

namespace kvstore

/-! # Theorems -/

/-! ## The record codec -/

theorem Uint32ToBytes_length (n : Nat) : (Uint32ToBytes n).length = 4 := rfl

theorem BytesToUint32_Uint32ToBytes (n : Nat) (h : n < 2 ^ 32) :
    BytesToUint32 (Uint32ToBytes n) = n := by
  simp only [BytesToUint32, Uint32ToBytes, List.getD_cons_zero, List.getD_cons_succ]
  omega

theorem headerKeyLen_lt (data : List Nat) : headerKeyLen data < 2 ^ 32 :=
  Nat.mod_lt _ (by norm_num)

theorem headerValueLen_lt (data : List Nat) : headerValueLen data < 2 ^ 32 :=
  Nat.mod_lt _ (by norm_num)

theorem slice_eq_some {data : List Nat} {lo hi : Nat} (h1 : lo ≤ hi) (h2 : hi ≤ data.length) :
    slice data lo hi = some ((data.drop lo).take (hi - lo)) := by
  simp [slice, h1, h2]

theorem slice_eq_none {data : List Nat} {lo hi : Nat} (h : hi < lo ∨ data.length < hi) :
    slice data lo hi = none := by
  unfold slice
  rw [if_neg]
  omega

theorem copy_of_length_eq {dst src : List Nat} (h : dst.length = src.length) :
    copy dst src = src := by
  unfold copy
  rw [h, List.take_length, List.drop_eq_nil_of_le (by omega), List.append_nil]

theorem get?_zero_of_pos (data : List Nat) (h : 0 < data.length) :
    data.get? 0 = some (data.getD 0 0) := by
  cases data with
  | nil => simp at h
  | cons b0 rest => rfl

/-- What `Record.Decode` does on a buffer that holds all the bytes its header
announces, when the offsets do not wrap. -/
theorem Decode_of_fits (data : List Nat) (h9 : 9 ≤ data.length)
    (hlen : 13 + headerKeyLen data + headerValueLen data ≤ data.length)
    (hwrap : 13 + headerKeyLen data + headerValueLen data < 2 ^ 32) :
    Record.Decode data =
      let K := headerKeyLen data
      let V := headerValueLen data
      let r : Record := { Flags := int8 (data.getD 0 0), Key := (data.drop 9).take K,
                          Value := (data.drop (9 + K)).take V }
      let crc := ChecksumIEEE (data.take (9 + K + V))
      let stored := BytesToUint32 ((data.drop (9 + K + V)).take 4)
      if crc ≠ stored then some (r, some (Error.CRCCheckFailed crc stored)) else some (r, none) := by
  have hK : BytesToUint32 ((data.drop 1).take 4) = headerKeyLen data := rfl
  have hV : BytesToUint32 ((data.drop 5).take 4) = headerValueLen data := rfl
  generalize headerKeyLen data = K at *
  generalize headerValueLen data = V at *
  have e1 : (9 + K) % 2 ^ 32 = 9 + K := Nat.mod_eq_of_lt (by omega)
  have e2 : (9 + K + V) % 2 ^ 32 = 9 + K + V := Nat.mod_eq_of_lt (by omega)
  have e3 : (9 + K + V + 4) % 2 ^ 32 = 9 + K + V + 4 := Nat.mod_eq_of_lt (by omega)
  unfold Record.Decode
  rw [get?_zero_of_pos data (by omega)]
  simp only [Option.some_bind, headerSize, Record.CalculateCRC]
  rw [slice_eq_some (by omega) (by omega)]
  simp only [Option.some_bind, show 5 - 1 = 4 from rfl, hK]
  rw [slice_eq_some (by omega) (by omega)]
  simp only [Option.some_bind, show 9 - 5 = 4 from rfl, hV, e1, e2, e3]
  rw [slice_eq_some (by omega) (by omega), slice_eq_some (by omega) (by omega),
    slice_eq_some (by omega) (by omega), slice_eq_some (by omega) (by omega)]
  simp only [Option.some_bind, List.drop_zero, Nat.sub_zero]
  have e4 : 9 + K + V + 4 - (9 + K + V) = 4 := by omega
  have e5 : 9 + K - 9 = K := by omega
  have e6 : 9 + K + V - (9 + K) = V := by omega
  rw [e4, e5, e6, copy_of_length_eq, copy_of_length_eq]
  · simp only [List.length_replicate, List.length_take, List.length_drop]; omega
  · simp only [List.length_replicate, List.length_take, List.length_drop]; omega

/-- Panic of `Record.Decode`: it panics on a buffer with a full header that is shorter than
its header announces, or whose announced size does not fit 32 bits. -/
theorem Decode_of_short (data : List Nat) (h9 : 9 ≤ data.length)
    (h : data.length < 13 + headerKeyLen data + headerValueLen data ∨
      2 ^ 32 ≤ 13 + headerKeyLen data + headerValueLen data) :
    Record.Decode data = none := by
  have hK : BytesToUint32 ((data.drop 1).take 4) = headerKeyLen data := rfl
  have hV : BytesToUint32 ((data.drop 5).take 4) = headerValueLen data := rfl
  have hKlt := headerKeyLen_lt data
  have hVlt := headerValueLen_lt data
  generalize headerKeyLen data = K at *
  generalize headerValueLen data = V at *
  unfold Record.Decode
  rw [get?_zero_of_pos data (by omega)]
  simp only [Option.some_bind, headerSize, Record.CalculateCRC]
  rw [slice_eq_some (by omega) (by omega)]
  simp only [Option.some_bind, show 5 - 1 = 4 from rfl, hK]
  rw [slice_eq_some (by omega) (by omega)]
  simp only [Option.some_bind, show 9 - 5 = 4 from rfl, hV]
  by_cases w1 : 9 + K < 2 ^ 32
  · rw [Nat.mod_eq_of_lt w1]
    by_cases w2 : 9 + K + V < 2 ^ 32
    · rw [Nat.mod_eq_of_lt w2]
      cases slice data 9 (9 + K) <;> simp only [Option.none_bind, Option.some_bind]
      cases slice data (9 + K) (9 + K + V) <;>
        simp only [Option.none_bind, Option.some_bind]
      rw [slice_eq_none]
      · rfl
      · by_cases w3 : 9 + K + V + 4 < 2 ^ 32
        · rw [Nat.mod_eq_of_lt w3]; omega
        · left; omega
    · cases slice data 9 (9 + K) <;> simp only [Option.none_bind, Option.some_bind]
      rw [slice_eq_none]
      · rfl
      · left; omega
  · rw [slice_eq_none]
    · rfl
    · left; omega

theorem copyAt_zeros (front src : List Nat) (m lo hi : Nat) (hlo : lo = front.length)
    (hhi : hi = lo + src.length) (h : src.length ≤ m) :
    copyAt (front ++ List.replicate m 0) lo hi src
      = some (front ++ src ++ List.replicate (m - src.length) 0) := by
  subst hlo hhi
  unfold copyAt
  rw [if_pos (by simp; omega)]
  have e1 : List.take front.length (front ++ List.replicate m 0) = front := List.take_left' rfl
  have e2 : List.drop front.length (front ++ List.replicate m 0) = List.replicate m 0 :=
    List.drop_left' rfl
  have e3 : List.drop (front.length + src.length) (front ++ List.replicate m 0)
      = List.replicate (m - src.length) 0 := by
    rw [← List.drop_drop, e2, List.drop_replicate]
  rw [e1, e2, e3, copy_of_length_eq]
  simp only [List.length_take, List.length_replicate]
  omega

theorem Record.layout_length (r : Record) :
    r.layout.length = 13 + r.Key.length + r.Value.length := by
  simp only [Record.layout, List.length_append, Uint32ToBytes_length, List.length_singleton]
  omega

/-- Layout: `Record.Encode` produces the layout of the format description whenever
the end of the value fits a `uint32`. -/
theorem Encode_eq_layout (r : Record) (h : 9 + r.Key.length + r.Value.length < 2 ^ 32) :
    r.Encode = some r.layout := by
  obtain ⟨f, key, value⟩ := r
  simp only at h
  have eK : key.length % 2 ^ 32 = key.length := Nat.mod_eq_of_lt (by omega)
  have eV : value.length % 2 ^ 32 = value.length := Nat.mod_eq_of_lt (by omega)
  have e1 : (9 + key.length) % 2 ^ 32 = 9 + key.length := Nat.mod_eq_of_lt (by omega)
  have e2 : (9 + key.length + value.length) % 2 ^ 32 = 9 + key.length + value.length :=
    Nat.mod_eq_of_lt (by omega)
  have b0 : (List.replicate (13 + key.length + value.length) 0).set 0 (byte f)
      = [byte f] ++ List.replicate (12 + key.length + value.length) 0 := by
    rw [show 13 + key.length + value.length = (12 + key.length + value.length) + 1 by omega,
      List.replicate_succ]
    rfl
  unfold Record.Encode
  simp only [metaSize, headerSize, Record.CalculateCRC, eK, eV, e1, e2, b0]
  rw [copyAt_zeros [byte f] (Uint32ToBytes key.length) _ 1 5 rfl rfl
    (by simp only [Uint32ToBytes_length]; omega)]
  simp only [Option.some_bind, Uint32ToBytes_length]
  rw [copyAt_zeros _ (Uint32ToBytes value.length) _ 5 9 (by simp [Uint32ToBytes_length]) rfl
    (by simp only [Uint32ToBytes_length]; omega)]
  simp only [Option.some_bind, Uint32ToBytes_length]
  rw [copyAt_zeros _ key _ 9 (9 + key.length) (by simp [Uint32ToBytes_length]) rfl (by omega)]
  simp only [Option.some_bind]
  rw [copyAt_zeros _ value _ (9 + key.length) (9 + key.length + value.length)
    (by simp [Uint32ToBytes_length]; omega) rfl (by omega)]
  simp only [Option.some_bind]
  rw [show 12 + key.length + value.length - 4 - 4 - key.length - value.length = 4 by omega]
  rw [slice_eq_some (Nat.zero_le _) (by simp [Uint32ToBytes_length]; omega)]
  simp only [Option.some_bind, List.drop_zero, Nat.sub_zero]
  rw [List.take_left' (by simp [Uint32ToBytes_length]; omega)]
  rw [copyAt_zeros _ _ 4 _ _ (by simp [Uint32ToBytes_length]; omega)
    (by simp [Uint32ToBytes_length]; omega) (by simp [Uint32ToBytes_length])]
  simp [Record.layout, Uint32ToBytes_length]

theorem layout_headerKeyLen (r : Record) (t : List Nat) (h : r.Key.length < 2 ^ 32) :
    headerKeyLen (r.layout ++ t) = r.Key.length := by
  unfold headerKeyLen Record.layout
  simp only [Uint32ToBytes, List.cons_append, List.nil_append, List.drop_succ_cons,
    List.drop_zero, List.take_succ_cons, List.take_zero, List.append_assoc]
  exact BytesToUint32_Uint32ToBytes _ h

theorem layout_headerValueLen (r : Record) (t : List Nat) (h : r.Value.length < 2 ^ 32) :
    headerValueLen (r.layout ++ t) = r.Value.length := by
  unfold headerValueLen Record.layout
  simp only [Uint32ToBytes, List.cons_append, List.nil_append, List.drop_succ_cons,
    List.drop_zero, List.take_succ_cons, List.take_zero, List.append_assoc]
  exact BytesToUint32_Uint32ToBytes _ h

theorem int8_byte (f : Int) (h1 : -128 ≤ f) (h2 : f < 128) : int8 ((byte f : Nat) : Int) = f := by
  unfold int8 byte
  omega

theorem crcShift_lt (c : Nat) (h : c < 2 ^ 32) : crcShift c < 2 ^ 32 := by
  unfold crcShift
  split
  · exact Nat.xor_lt_two_pow (by omega) (by norm_num)
  · omega

theorem crcByte_lt (c b : Nat) (h : c < 2 ^ 32) : crcByte c b < 2 ^ 32 := by
  unfold crcByte
  have h0 : c ^^^ (b % 256) < 2 ^ 32 :=
    Nat.xor_lt_two_pow h (lt_trans (Nat.mod_lt _ (by norm_num)) (by norm_num))
  exact crcShift_lt _ (crcShift_lt _ (crcShift_lt _ (crcShift_lt _ (crcShift_lt _
    (crcShift_lt _ (crcShift_lt _ (crcShift_lt _ h0)))))))

theorem foldl_crcByte_lt (data : List Nat) (c : Nat) (h : c < 2 ^ 32) :
    data.foldl crcByte c < 2 ^ 32 := by
  induction data generalizing c with
  | nil => exact h
  | cons b bs ih => exact ih _ (crcByte_lt c b h)

theorem ChecksumIEEE_lt (data : List Nat) : ChecksumIEEE data < 2 ^ 32 :=
  Nat.xor_lt_two_pow (foldl_crcByte_lt data _ (by norm_num)) (by norm_num)

/-- Decoding reads only the record at the front of the buffer: whatever
follows an encoded record, the record comes back and the CRC agrees. -/
theorem Decode_layout_append (r : Record) (t : List Nat)
    (hf1 : -128 ≤ r.Flags) (hf2 : r.Flags < 128)
    (h : 13 + r.Key.length + r.Value.length < 2 ^ 32) :
    Record.Decode (r.layout ++ t) = some (r, none) := by
  have hK := layout_headerKeyLen r t (by omega)
  have hV := layout_headerValueLen r t (by omega)
  have hl := Record.layout_length r
  rw [Decode_of_fits _ (by simp only [List.length_append]; omega)
    (by simp only [List.length_append]; omega) (by omega)]
  simp only [hK, hV]
  obtain ⟨f, key, value⟩ := r
  simp only at hf1 hf2 h hl ⊢
  have body_len : ([byte f] ++ Uint32ToBytes key.length ++ Uint32ToBytes value.length
      ++ key ++ value).length = 9 + key.length + value.length := by
    simp only [List.length_append, Uint32ToBytes_length, List.length_singleton]
  have e0 : (Record.layout ⟨f, key, value⟩ ++ t).getD 0 0 = byte f := rfl
  have e1 : List.take key.length (List.drop 9 (Record.layout ⟨f, key, value⟩ ++ t)) = key := by
    simp [Record.layout, Uint32ToBytes]
  have e2 : List.take value.length
      (List.drop (9 + key.length) (Record.layout ⟨f, key, value⟩ ++ t)) = value := by
    have : Record.layout ⟨f, key, value⟩ ++ t
        = ([byte f] ++ Uint32ToBytes key.length ++ Uint32ToBytes value.length ++ key)
          ++ (value ++ (Uint32ToBytes (ChecksumIEEE ([byte f] ++ Uint32ToBytes key.length
            ++ Uint32ToBytes value.length ++ key ++ value)) ++ t)) := by
      simp [Record.layout]
    rw [this, List.drop_left' (by simp [Uint32ToBytes_length]; omega), List.take_left' rfl]
  have e3 : List.take (9 + key.length + value.length) (Record.layout ⟨f, key, value⟩ ++ t)
      = [byte f] ++ Uint32ToBytes key.length ++ Uint32ToBytes value.length ++ key ++ value := by
    simp only [Record.layout, List.append_assoc]
    simp only [← List.append_assoc]
    rw [List.append_assoc _ _ t, List.take_left' body_len]
  have e4 : List.take 4 (List.drop (9 + key.length + value.length)
      (Record.layout ⟨f, key, value⟩ ++ t))
      = Uint32ToBytes (ChecksumIEEE ([byte f] ++ Uint32ToBytes key.length
            ++ Uint32ToBytes value.length ++ key ++ value)) := by
    simp only [Record.layout, List.append_assoc]
    simp only [← List.append_assoc]
    rw [List.append_assoc _ _ t, List.drop_left' body_len]
    exact List.take_left' (Uint32ToBytes_length _)
  rw [e0, e1, e2, e3, e4, BytesToUint32_Uint32ToBytes _ (ChecksumIEEE_lt _), int8_byte f hf1 hf2]
  simp

theorem xor_poly_ge (x : Nat) (hx : x < 2 ^ 31) : 2 ^ 31 ≤ x ^^^ 0xEDB88320 := by
  apply Nat.testBit_implies_ge
  rw [Nat.testBit_xor, Nat.testBit_lt_two_pow hx]
  decide

theorem crcShift_inj (a b : Nat) (ha : a < 2 ^ 32) (hb : b < 2 ^ 32)
    (h : crcShift a = crcShift b) : a = b := by
  unfold crcShift at h
  split_ifs at h with p q q
  · have := Nat.xor_left_inj.mp h
    omega
  · have := xor_poly_ge (a / 2) (by omega)
    omega
  · have := xor_poly_ge (b / 2) (by omega)
    omega
  · omega

theorem crcShift8_inj (a b : Nat) (ha : a < 2 ^ 32) (hb : b < 2 ^ 32)
    (h : crcShift (crcShift (crcShift (crcShift (crcShift (crcShift (crcShift (crcShift a)))))))
       = crcShift (crcShift (crcShift (crcShift (crcShift (crcShift (crcShift (crcShift b)))))))) :
    a = b := by
  have l1 := fun x (hx : x < 2 ^ 32) => crcShift_lt x hx
  have a1 := l1 _ ha
  have a2 := l1 _ a1
  have a3 := l1 _ a2
  have a4 := l1 _ a3
  have a5 := l1 _ a4
  have a6 := l1 _ a5
  have a7 := l1 _ a6
  have b1 := l1 _ hb
  have b2 := l1 _ b1
  have b3 := l1 _ b2
  have b4 := l1 _ b3
  have b5 := l1 _ b4
  have b6 := l1 _ b5
  have b7 := l1 _ b6
  have h7 := crcShift_inj _ _ a7 b7 h
  have h6 := crcShift_inj _ _ a6 b6 h7
  have h5 := crcShift_inj _ _ a5 b5 h6
  have h4 := crcShift_inj _ _ a4 b4 h5
  have h3 := crcShift_inj _ _ a3 b3 h4
  have h2 := crcShift_inj _ _ a2 b2 h3
  have h1 := crcShift_inj _ _ a1 b1 h2
  exact crcShift_inj _ _ ha hb h1

theorem byte_lt_two_pow_32 (b : Nat) : b % 256 < 2 ^ 32 :=
  lt_trans (Nat.mod_lt _ (by norm_num)) (by norm_num)

/-- The register after a byte determines the register before it. -/
theorem crcByte_inj_state (c1 c2 b : Nat) (h1 : c1 < 2 ^ 32) (h2 : c2 < 2 ^ 32)
    (h : crcByte c1 b = crcByte c2 b) : c1 = c2 := by
  unfold crcByte at h
  have := crcShift8_inj _ _ (Nat.xor_lt_two_pow h1 (byte_lt_two_pow_32 b))
    (Nat.xor_lt_two_pow h2 (byte_lt_two_pow_32 b)) h
  exact Nat.xor_left_inj.mp this

/-- The register after a byte determines the byte. -/
theorem crcByte_inj_byte (c b1 b2 : Nat) (hc : c < 2 ^ 32)
    (h : crcByte c b1 = crcByte c b2) : b1 % 256 = b2 % 256 := by
  unfold crcByte at h
  have := crcShift8_inj _ _ (Nat.xor_lt_two_pow hc (byte_lt_two_pow_32 b1))
    (Nat.xor_lt_two_pow hc (byte_lt_two_pow_32 b2)) h
  exact Nat.xor_right_inj.mp this

theorem foldl_crcByte_inj (data : List Nat) (c1 c2 : Nat) (h1 : c1 < 2 ^ 32) (h2 : c2 < 2 ^ 32)
    (h : data.foldl crcByte c1 = data.foldl crcByte c2) : c1 = c2 := by
  induction data generalizing c1 c2 with
  | nil => exact h
  | cons b bs ih =>
    exact crcByte_inj_state c1 c2 b h1 h2 (ih _ _ (crcByte_lt c1 b h1) (crcByte_lt c2 b h2) h)

theorem flip_mod_ne (b j : Nat) (hj : j < 8) : (b ^^^ 2 ^ j) % 256 ≠ b % 256 := by
  intro h
  have h2 := congrArg (fun x => Nat.testBit x j) h
  simp only [show (256 : Nat) = 2 ^ 8 from rfl, Nat.testBit_mod_two_pow, Nat.testBit_xor,
    Nat.testBit_two_pow_self, hj, decide_True, Bool.true_and] at h2
  cases hb : b.testBit j <;> simp [hb] at h2

/-- CRC-32 detects every single-bit error: two byte strings that differ in
one bit of one byte have different checksums. -/
theorem ChecksumIEEE_flipBit_ne (data : List Nat) (i j : Nat) (hi : i < data.length)
    (hj : j < 8) : ChecksumIEEE (flipBit data i j) ≠ ChecksumIEEE data := by
  intro h
  unfold ChecksumIEEE at h
  have h1 := Nat.xor_left_inj.mp h
  have hd : data = data.take i ++ data.getD i 0 :: data.drop (i + 1) := by
    rw [List.getD_eq_getElem _ _ hi, List.getElem_cons_drop, List.take_append_drop]
  have hf : flipBit data i j = data.take i ++ (data.getD i 0 ^^^ 2 ^ j) :: data.drop (i + 1) := by
    unfold flipBit
    rw [List.set_eq_take_append_cons_drop, if_pos hi]
  rw [hf] at h1
  nth_rewrite 4 [hd] at h1
  simp only [List.foldl_append, List.foldl_cons] at h1
  have hs := foldl_crcByte_lt (data.take i) 0xFFFFFFFF (by norm_num)
  have h2 := foldl_crcByte_inj _ _ _ (crcByte_lt _ _ hs) (crcByte_lt _ _ hs) h1
  exact flip_mod_ne _ j hj (crcByte_inj_byte _ _ _ hs h2)

theorem Encode_bind_Decode_of_wrap (r : Record)
    (h1 : 9 + r.Key.length + r.Value.length < 2 ^ 32)
    (h2 : 2 ^ 32 ≤ 13 + r.Key.length + r.Value.length) :
    r.Encode.bind Record.Decode = none := by
  rw [Encode_eq_layout r h1, Option.some_bind]
  have hK := layout_headerKeyLen r [] (by omega)
  have hV := layout_headerValueLen r [] (by omega)
  rw [List.append_nil] at hK hV
  apply Decode_of_short
  · rw [Record.layout_length]; omega
  · right; rw [hK, hV]; exact h2

theorem encode_then_decode_of_length (key : List Nat) (hk : key.length = 2 ^ 32 - 13) :
    key.length < 2 ^ 32 ∧ ([] : List Nat).length < 2 ^ 32 ∧
    (Record.Encode ⟨0, key, []⟩).bind Record.Decode = none := by
  refine ⟨by omega, by norm_num, ?_⟩
  apply Encode_bind_Decode_of_wrap
  · simp only [List.length_nil]; omega
  · simp only [List.length_nil]; omega

/-- C1, as stated, fails: a key of `2^32 - 13` bytes and an empty value have
lengths below `2^32`, the encoder returns, and the decoder panics on its
output, because the end of the CRC field, `valEndPos + 4`, wraps to `0` in
`uint32`. -/
theorem decode_of_encoded_wraps :
    (List.replicate (2 ^ 32 - 13) 0).length < 2 ^ 32 ∧ ([] : List Nat).length < 2 ^ 32 ∧
    (Record.Encode ⟨0, List.replicate (2 ^ 32 - 13) 0, []⟩).bind Record.Decode = none :=
  encode_then_decode_of_length _ (List.length_replicate _ _)

/-- C1 (amended): for every flags value of type `int8`, key and value whose
encoded size `13 + len(key) + len(value)` is below `2^32`, `Record.Encode`
returns and `Record.Decode` applied to its output returns no error and
yields a record with the same Flags, Key and Value. -/
theorem decode_encode_roundtrip (flags : Int) (key value : List Nat)
    (hf : -128 ≤ flags ∧ flags < 128) (h : 13 + key.length + value.length < 2 ^ 32) :
    ∃ enc, Record.Encode ⟨flags, key, value⟩ = some enc ∧
      Record.Decode enc = some (⟨flags, key, value⟩, none) := by
  refine ⟨_, Encode_eq_layout _ (by simp only; omega), ?_⟩
  have := Decode_layout_append ⟨flags, key, value⟩ [] hf.1 hf.2 h
  rwa [List.append_nil] at this

/-- The theorem of C1 at a concrete input, with its hypotheses discharged. -/
theorem decode_encode_roundtrip_witness :
    (-128 ≤ (2 : Int) ∧ (2 : Int) < 128) ∧
    13 + [104, 105].length + [1, 2, 3].length < 2 ^ 32 ∧
    ∃ enc, Record.Encode ⟨2, [104, 105], [1, 2, 3]⟩ = some enc ∧
      Record.Decode enc = some (⟨2, [104, 105], [1, 2, 3]⟩, none) :=
  ⟨by decide, by decide, decode_encode_roundtrip 2 [104, 105] [1, 2, 3] (by decide) (by decide)⟩

theorem Encode_none_of_wrap (r : Record) (hK : r.Key.length < 2 ^ 32)
    (hV : r.Value.length < 2 ^ 32) (h : 2 ^ 32 ≤ 9 + r.Key.length + r.Value.length) :
    r.Encode = none := by
  obtain ⟨f, key, value⟩ := r
  simp only at hK hV h
  unfold Record.Encode
  simp only [metaSize, headerSize, Nat.mod_eq_of_lt hK, Nat.mod_eq_of_lt hV]
  cases copyAt ((List.replicate (13 + key.length + value.length) 0).set 0 (byte f)) 1 5
    (Uint32ToBytes key.length) with
  | none => rfl
  | some b1 =>
    simp only [Option.some_bind]
    cases copyAt b1 5 9 (Uint32ToBytes value.length) with
    | none => rfl
    | some b2 =>
      simp only [Option.some_bind]
      by_cases w : 9 + key.length < 2 ^ 32
      · rw [Nat.mod_eq_of_lt w]
        cases copyAt b2 9 (9 + key.length) key with
        | none => rfl
        | some b3 =>
          simp only [Option.some_bind]
          have : copyAt b3 (9 + key.length) ((9 + key.length + value.length) % 2 ^ 32) value
              = none := by
            unfold copyAt
            rw [if_neg]
            omega
          rw [this]
          rfl
      · have : copyAt b2 9 ((9 + key.length) % 2 ^ 32) key = none := by
          unfold copyAt
          rw [if_neg]
          omega
        rw [this]
        rfl

theorem Encode_none_of_length (key : List Nat) (hk : key.length = 2 ^ 32 - 9) :
    Record.Encode ⟨0, key, []⟩ = none := by
  apply Encode_none_of_wrap
  · simp only; omega
  · simp only [List.length_nil]; norm_num
  · simp only [List.length_nil]; omega

/-- C2, as stated, fails: for a key of `2^32 - 9` bytes and an empty value
`keyEndPos = headerSize + keyLen` wraps to `0` in `uint32`, the slice
expression `buf[headerSize:keyEndPos]` panics and no bytes are returned. -/
theorem encode_long_key_panics :
    Record.Encode ⟨0, List.replicate (2 ^ 32 - 9) 0, []⟩ = none :=
  Encode_none_of_length _ (List.length_replicate _ _)

/-- C2 (amended): for every record with key length K and value length V such
that `9 + K + V < 2^32`, `Record.Encode` returns exactly `13 + K + V` bytes
(equal to `RawSize`) laid out as: byte 0 = flags, bytes 1..5 = K as u32
little-endian, bytes 5..9 = V as u32 little-endian, bytes 9..9+K = key, bytes
9+K..9+K+V = value, last 4 bytes = IEEE CRC32 of bytes 0..9+K+V as u32
little-endian. -/
theorem encode_layout_bytes (r : Record) (h : 9 + r.Key.length + r.Value.length < 2 ^ 32) :
    ∃ enc, r.Encode = some enc ∧
      enc.length = 13 + r.Key.length + r.Value.length ∧
      enc.length = r.RawSize ∧
      enc.take 1 = [byte r.Flags] ∧
      (enc.drop 1).take 4 = Uint32ToBytes r.Key.length ∧
      (enc.drop 5).take 4 = Uint32ToBytes r.Value.length ∧
      (enc.drop 9).take r.Key.length = r.Key ∧
      (enc.drop (9 + r.Key.length)).take r.Value.length = r.Value ∧
      enc.drop (9 + r.Key.length + r.Value.length)
        = Uint32ToBytes (ChecksumIEEE (enc.take (9 + r.Key.length + r.Value.length))) := by
  refine ⟨_, Encode_eq_layout r h, Record.layout_length r, ?_, ?_, ?_, ?_, ?_, ?_, ?_⟩
  · rw [Record.layout_length]; simp only [Record.RawSize, metaSize]
  · rfl
  · simp [Record.layout, Uint32ToBytes]
  · simp [Record.layout, Uint32ToBytes]
  · simp [Record.layout, Uint32ToBytes]
  · have : r.layout = ([byte r.Flags] ++ Uint32ToBytes r.Key.length
        ++ Uint32ToBytes r.Value.length ++ r.Key) ++ (r.Value ++ Uint32ToBytes (ChecksumIEEE
          ([byte r.Flags] ++ Uint32ToBytes r.Key.length ++ Uint32ToBytes r.Value.length
            ++ r.Key ++ r.Value))) := by
      simp [Record.layout]
    rw [this, List.drop_left' (by simp [Uint32ToBytes_length]; omega), List.take_left' rfl]
  · have hb : ([byte r.Flags] ++ Uint32ToBytes r.Key.length ++ Uint32ToBytes r.Value.length
        ++ r.Key ++ r.Value).length = 9 + r.Key.length + r.Value.length := by
      simp only [List.length_append, Uint32ToBytes_length, List.length_singleton]
    unfold Record.layout
    simp only
    rw [List.drop_left' hb, List.take_left' hb]

/-- The theorem of C2 at a concrete input, with its hypotheses discharged. -/
theorem encode_layout_bytes_witness :
    9 + 2 + 3 < 2 ^ 32 ∧
    ∃ enc, Record.Encode ⟨2, [104, 105], [1, 2, 3]⟩ = some enc ∧
      enc.length = 13 + 2 + 3 ∧
      enc.length = Record.RawSize ⟨2, [104, 105], [1, 2, 3]⟩ ∧
      enc.take 1 = [byte 2] ∧
      (enc.drop 1).take 4 = Uint32ToBytes 2 ∧
      (enc.drop 5).take 4 = Uint32ToBytes 3 ∧
      (enc.drop 9).take 2 = [104, 105] ∧
      (enc.drop (9 + 2)).take 3 = [1, 2, 3] ∧
      enc.drop (9 + 2 + 3) = Uint32ToBytes (ChecksumIEEE (enc.take (9 + 2 + 3))) :=
  ⟨by decide, encode_layout_bytes ⟨2, [104, 105], [1, 2, 3]⟩ (by decide)⟩

theorem flipBit_length (data : List Nat) (i j : Nat) : (flipBit data i j).length = data.length := by
  simp [flipBit]

/-- A window of the buffer that does not contain byte `i` is not changed by a
flip in byte `i`. -/
theorem flipBit_window (data : List Nat) (i j lo n : Nat) (h : i < lo ∨ lo + n ≤ i) :
    ((flipBit data i j).drop lo).take n = (data.drop lo).take n := by
  apply List.ext_getElem?
  intro k
  simp only [flipBit, List.getElem?_take, List.getElem?_drop, List.getElem?_set]
  by_cases hk : k < n
  · simp only [hk, if_true]
    rw [if_neg (by omega)]
  · simp only [hk, if_false]

/-- A flip inside the front of the buffer is a flip of the front. -/
theorem flipBit_take (data : List Nat) (i j n : Nat) (h : i < n) :
    (flipBit data i j).take n = flipBit (data.take n) i j := by
  apply List.ext_getElem?
  intro k
  simp only [flipBit, List.getElem?_take, List.getElem?_set, List.getD_eq_getElem?_getD,
    List.length_take]
  by_cases hk : k < n
  · simp only [hk, if_true, h]
    by_cases hik : i = k
    · subst hik
      simp only [if_true]
      by_cases hl : i < data.length
      · simp [hl, h]
      · simp [hl]
    · simp only [hik, if_false]
  · simp only [hk, if_false]
    by_cases hik : i = k
    · omega
    · simp [hik]

/-- A flip behind the front of the buffer is a flip of the rest. -/
theorem flipBit_drop (data : List Nat) (i j n : Nat) (h : n ≤ i) :
    (flipBit data i j).drop n = flipBit (data.drop n) (i - n) j := by
  obtain ⟨m, rfl⟩ : ∃ m, i = n + m := ⟨i - n, by omega⟩
  rw [Nat.add_sub_cancel_left]
  unfold flipBit
  rw [List.drop_set, if_neg (by omega), Nat.add_sub_cancel_left]
  congr 2
  simp only [List.getD_eq_getElem?_getD, List.getElem?_drop]

theorem flip_byte_lt (b j : Nat) (hb : b < 256) (hj : j < 8) : b ^^^ 2 ^ j < 256 :=
  Nat.xor_lt_two_pow (n := 8) hb (Nat.pow_lt_pow_right (by norm_num) hj)

theorem flip_byte_ne (b j : Nat) (hj : j < 8) : b ^^^ 2 ^ j ≠ b := by
  intro h
  have := flip_mod_ne b j hj
  rw [h] at this
  exact this rfl

/-- A flipped bit in the four bytes of a stored `uint32` changes its value. -/
theorem BytesToUint32_flipBit_ne (c m j : Nat) (hm : m < 4) (hj : j < 8) :
    BytesToUint32 (flipBit (Uint32ToBytes c) m j) ≠ BytesToUint32 (Uint32ToBytes c) := by
  have key : ∀ b, b < 256 → b ^^^ 2 ^ j < 256 ∧ b ^^^ 2 ^ j ≠ b :=
    fun b hb => ⟨flip_byte_lt b j hb hj, flip_byte_ne b j hj⟩
  have k0 := key (c % 256) (Nat.mod_lt _ (by norm_num))
  have k1 := key (c / 256 % 256) (Nat.mod_lt _ (by norm_num))
  have k2 := key (c / 65536 % 256) (Nat.mod_lt _ (by norm_num))
  have k3 := key (c / 16777216 % 256) (Nat.mod_lt _ (by norm_num))
  have hcases : m = 0 ∨ m = 1 ∨ m = 2 ∨ m = 3 := by omega
  rcases hcases with rfl | rfl | rfl | rfl <;>
    simp only [flipBit, Uint32ToBytes, BytesToUint32, List.set_cons_zero, List.set_cons_succ,
      List.getD_cons_zero, List.getD_cons_succ]
  · generalize (c % 256) ^^^ 2 ^ j = x at k0 ⊢
    omega
  · generalize (c / 256 % 256) ^^^ 2 ^ j = x at k1 ⊢
    omega
  · generalize (c / 65536 % 256) ^^^ 2 ^ j = x at k2 ⊢
    omega
  · generalize (c / 16777216 % 256) ^^^ 2 ^ j = x at k3 ⊢
    omega

/-- C3, as stated, fails: the record with an empty key and the value
`[174, 20, 9, 230]` (the CRC of a header that announces no key and no value)
encodes to 17 bytes; with bit 2 of byte 5 flipped the header announces a value
of length 0, the first four value bytes are read as the CRC, and `Decode`
succeeds, yielding a record with an empty value. -/
theorem decode_flipped_length_bit_succeeds :
    Record.Encode ⟨0, [], [174, 20, 9, 230]⟩
      = some [0, 0, 0, 0, 0, 4, 0, 0, 0, 174, 20, 9, 230, 230, 209, 14, 165] ∧
    Record.Decode (flipBit [0, 0, 0, 0, 0, 4, 0, 0, 0, 174, 20, 9, 230, 230, 209, 14, 165] 5 2)
      = some (⟨0, [], []⟩, none) := by
  constructor <;> decide!

/-- C3 (amended): for every record whose encoded size is below `2^32` and
every bit position inside the bytes produced by `Record.Encode` that lies
outside the two length fields (in the flags byte, the key, the value or the
CRC), `Record.Decode` applied to those bytes with that single bit flipped
returns the CRC error. -/
theorem decode_flipped_bit_fails (r : Record) (i j : Nat)
    (h : 13 + r.Key.length + r.Value.length < 2 ^ 32)
    (hi : i < 13 + r.Key.length + r.Value.length) (hj : j < 8) (hfield : i = 0 ∨ 9 ≤ i) :
    ∃ enc, r.Encode = some enc ∧
      ∃ r2 crc stored, Record.Decode (flipBit enc i j)
        = some (r2, some (Error.CRCCheckFailed crc stored)) := by
  refine ⟨_, Encode_eq_layout r (by omega), ?_⟩
  have hl := Record.layout_length r
  have hK0 := layout_headerKeyLen r [] (by omega)
  have hV0 := layout_headerValueLen r [] (by omega)
  rw [List.append_nil] at hK0 hV0
  have hK : headerKeyLen (flipBit r.layout i j) = r.Key.length := by
    rw [← hK0]
    unfold headerKeyLen
    rw [flipBit_window _ _ _ _ _ (by omega)]
  have hV : headerValueLen (flipBit r.layout i j) = r.Value.length := by
    rw [← hV0]
    unfold headerValueLen
    rw [flipBit_window _ _ _ _ _ (by omega)]
  have hfl := flipBit_length r.layout i j
  rw [Decode_of_fits _ (by omega) (by omega) (by omega)]
  simp only [hK, hV]
  have hb : ([byte r.Flags] ++ Uint32ToBytes r.Key.length ++ Uint32ToBytes r.Value.length
      ++ r.Key ++ r.Value).length = 9 + r.Key.length + r.Value.length := by
    simp only [List.length_append, Uint32ToBytes_length, List.length_singleton]
  have htake : r.layout.take (9 + r.Key.length + r.Value.length)
      = [byte r.Flags] ++ Uint32ToBytes r.Key.length ++ Uint32ToBytes r.Value.length
        ++ r.Key ++ r.Value := by
    unfold Record.layout
    exact List.take_left' hb
  have hdrop : r.layout.drop (9 + r.Key.length + r.Value.length)
      = Uint32ToBytes (ChecksumIEEE ([byte r.Flags] ++ Uint32ToBytes r.Key.length
        ++ Uint32ToBytes r.Value.length ++ r.Key ++ r.Value)) := by
    unfold Record.layout
    exact List.drop_left' hb
  have hne : ChecksumIEEE ((flipBit r.layout i j).take (9 + r.Key.length + r.Value.length))
      ≠ BytesToUint32 (((flipBit r.layout i j).drop (9 + r.Key.length + r.Value.length)).take 4) := by
    by_cases hcov : i < 9 + r.Key.length + r.Value.length
    · rw [flipBit_window _ _ _ _ _ (Or.inl hcov), flipBit_take _ _ _ _ hcov, hdrop,
        List.take_of_length_le (l := Uint32ToBytes _) (by simp [Uint32ToBytes_length]),
        BytesToUint32_Uint32ToBytes _ (ChecksumIEEE_lt _), ← htake]
      exact ChecksumIEEE_flipBit_ne _ _ _ (by rw [htake, hb]; exact hcov) hj
    · have e1 : (flipBit r.layout i j).take (9 + r.Key.length + r.Value.length)
          = r.layout.take (9 + r.Key.length + r.Value.length) := by
        have := flipBit_window r.layout i j 0 (9 + r.Key.length + r.Value.length)
          (Or.inr (by omega))
        simpa using this
      rw [e1, flipBit_drop _ _ _ _ (by omega), hdrop, htake,
        List.take_of_length_le (l := flipBit _ _ _)
          (by simp [flipBit_length, Uint32ToBytes_length])]
      intro hc
      refine BytesToUint32_flipBit_ne (ChecksumIEEE ([byte r.Flags] ++ Uint32ToBytes r.Key.length
        ++ Uint32ToBytes r.Value.length ++ r.Key ++ r.Value))
        (i - (9 + r.Key.length + r.Value.length)) j (by omega) hj ?_
      rw [BytesToUint32_Uint32ToBytes _ (ChecksumIEEE_lt _)]
      exact hc.symm
  rw [if_pos hne]
  exact ⟨_, _, _, rfl⟩

/-- The theorem of C3 at a concrete input, with its hypotheses discharged. -/
theorem decode_flipped_bit_fails_witness :
    13 + 2 + 3 < 2 ^ 32 ∧ 10 < 13 + 2 + 3 ∧ 7 < 8 ∧ (10 = 0 ∨ 9 ≤ 10) ∧
    ∃ enc, Record.Encode ⟨2, [104, 105], [1, 2, 3]⟩ = some enc ∧
      ∃ r2 crc stored, Record.Decode (flipBit enc 10 7)
        = some (r2, some (Error.CRCCheckFailed crc stored)) :=
  ⟨by decide, by decide, by decide, by decide,
    decode_flipped_bit_fails ⟨2, [104, 105], [1, 2, 3]⟩ 10 7 (by decide) (by decide) (by decide)
      (by decide)⟩

theorem headerKeyLen_cons (b0 k0 k1 k2 k3 : Nat) (rest : List Nat) :
    headerKeyLen (b0 :: k0 :: k1 :: k2 :: k3 :: rest) = BytesToUint32 [k0, k1, k2, k3] := rfl

theorem headerValueLen_cons (b0 k0 k1 k2 k3 v0 v1 v2 v3 : Nat) (rest : List Nat) :
    headerValueLen (b0 :: k0 :: k1 :: k2 :: k3 :: v0 :: v1 :: v2 :: v3 :: rest)
      = BytesToUint32 [v0, v1, v2, v3] := rfl

/-- On a buffer whose header announces a key of `2^32 - 1` bytes `Decode`
panics whatever the CRC field holds, so that the claimed equivalence fails on
one of two buffers that differ in the CRC field only. -/
theorem Decode_equiv_fails_of_length (fill : List Nat) (hfill : fill.length = 2 ^ 32 - 1) :
    ¬ ∀ data : List Nat,
      13 + headerKeyLen data + headerValueLen data ≤ data.length →
      ((∃ r e, Record.Decode data = some (r, some e)) ↔
        BytesToUint32 ((data.drop (9 + headerKeyLen data + headerValueLen data)).take 4)
          ≠ ChecksumIEEE (data.take (9 + headerKeyLen data + headerValueLen data))) := by
  intro hall
  have main : ∀ last : Nat, last < 256 →
      BytesToUint32 [0, 0, 0, last]
        = ChecksumIEEE ([0, 255, 255, 255, 255, 0, 0, 0, 0] ++ fill) := by
    intro last hlast
    have hK : headerKeyLen (([0, 255, 255, 255, 255, 0, 0, 0, 0] ++ fill) ++ [0, 0, 0, last])
        = 2 ^ 32 - 1 := by
      simp only [List.cons_append, List.nil_append, headerKeyLen_cons]
      decide
    have hV : headerValueLen (([0, 255, 255, 255, 255, 0, 0, 0, 0] ++ fill) ++ [0, 0, 0, last])
        = 0 := by
      simp only [List.cons_append, List.nil_append, headerValueLen_cons]
      decide
    have hlen : (([0, 255, 255, 255, 255, 0, 0, 0, 0] ++ fill) ++ [0, 0, 0, last]).length
        = 2 ^ 32 + 12 := by
      simp only [List.length_append, List.length_cons, List.length_nil, hfill]
      norm_num
    have hfront : ([0, 255, 255, 255, 255, 0, 0, 0, 0] ++ fill).length = 2 ^ 32 + 8 := by
      simp only [List.length_append, List.length_cons, List.length_nil, hfill]
      norm_num
    have hnone : Record.Decode (([0, 255, 255, 255, 255, 0, 0, 0, 0] ++ fill) ++ [0, 0, 0, last])
        = none := by
      apply Decode_of_short
      · omega
      · right; rw [hK, hV]; norm_num
    have h1 := hall _ (by rw [hK, hV, hlen]; norm_num)
    rw [hnone, hK, hV] at h1
    have h2 : ¬ ∃ (r : Record) (e : Error), (none : Option (Record × Option Error)) = some (r, some e) := by
      rintro ⟨r, e, h⟩
      cases h
    have h3 := (not_congr h1).mp h2
    rw [not_not, show 9 + (2 ^ 32 - 1) + 0 = 2 ^ 32 + 8 by norm_num,
      List.drop_left' hfront, List.take_left' hfront] at h3
    exact h3
  have a := main 0 (by norm_num)
  have b := main 1 (by norm_num)
  rw [← a] at b
  revert b
  decide

/-- C4, as stated, fails: take the two buffers of `2^32 + 12` bytes whose
header announces a key of `2^32 - 1` bytes and no value, filled with zeros,
the last byte being 0 in one and 1 in the other. Both hold the
`13 + K + V` bytes announced, `keyEndPos` wraps to 8 in `uint32` and `Decode`
panics on both, returning no error; but the CRC field differs between them
while the checksummed bytes agree, so for one of them the field differs from
the checksum. -/
theorem decode_huge_buffer_panics :
    ¬ ∀ data : List Nat,
      13 + headerKeyLen data + headerValueLen data ≤ data.length →
      ((∃ r e, Record.Decode data = some (r, some e)) ↔
        BytesToUint32 ((data.drop (9 + headerKeyLen data + headerValueLen data)).take 4)
          ≠ ChecksumIEEE (data.take (9 + headerKeyLen data + headerValueLen data))) :=
  Decode_equiv_fails_of_length (List.replicate (2 ^ 32 - 1) 0) (List.length_replicate _ _)

/-- C4 (amended): for every buffer of at least `13 + K + V` bytes, where K and
V are the key and value lengths read from its header and `13 + K + V < 2^32`,
`Record.Decode` returns, and it returns an error if and only if the u32 stored
at bytes `9+K+V..13+K+V` differs from the IEEE CRC32 of bytes `0..9+K+V`. -/
theorem decode_error_iff_crc (data : List Nat)
    (hlen : 13 + headerKeyLen data + headerValueLen data ≤ data.length)
    (hwrap : 13 + headerKeyLen data + headerValueLen data < 2 ^ 32) :
    ∃ r e, Record.Decode data = some (r, e) ∧
      (e ≠ none ↔
        BytesToUint32 ((data.drop (9 + headerKeyLen data + headerValueLen data)).take 4)
          ≠ ChecksumIEEE (data.take (9 + headerKeyLen data + headerValueLen data))) := by
  rw [Decode_of_fits data (by omega) hlen hwrap]
  simp only
  split
  · rename_i hne
    exact ⟨_, _, rfl, by simp [Ne.symm hne]⟩
  · rename_i heq
    rw [not_not] at heq
    exact ⟨_, _, rfl, by simp [heq]⟩

/-- The theorem of C4 at a concrete input, with its hypotheses discharged. -/
theorem decode_error_iff_crc_witness :
    13 + headerKeyLen [2, 1, 0, 0, 0, 1, 0, 0, 0, 104, 1, 9, 9, 9, 9, 7]
        + headerValueLen [2, 1, 0, 0, 0, 1, 0, 0, 0, 104, 1, 9, 9, 9, 9, 7]
      ≤ [2, 1, 0, 0, 0, 1, 0, 0, 0, 104, 1, 9, 9, 9, 9, 7].length ∧
    ∃ r e, Record.Decode [2, 1, 0, 0, 0, 1, 0, 0, 0, 104, 1, 9, 9, 9, 9, 7] = some (r, e) ∧
      (e ≠ none ↔
        BytesToUint32 (([2, 1, 0, 0, 0, 1, 0, 0, 0, 104, 1, 9, 9, 9, 9, 7].drop
            (9 + headerKeyLen [2, 1, 0, 0, 0, 1, 0, 0, 0, 104, 1, 9, 9, 9, 9, 7]
              + headerValueLen [2, 1, 0, 0, 0, 1, 0, 0, 0, 104, 1, 9, 9, 9, 9, 7])).take 4)
          ≠ ChecksumIEEE ([2, 1, 0, 0, 0, 1, 0, 0, 0, 104, 1, 9, 9, 9, 9, 7].take
            (9 + headerKeyLen [2, 1, 0, 0, 0, 1, 0, 0, 0, 104, 1, 9, 9, 9, 9, 7]
              + headerValueLen [2, 1, 0, 0, 0, 1, 0, 0, 0, 104, 1, 9, 9, 9, 9, 7]))) :=
  ⟨by decide,
    decode_error_iff_crc [2, 1, 0, 0, 0, 1, 0, 0, 0, 104, 1, 9, 9, 9, 9, 7] (by decide) (by decide)⟩

/-! ## The index and the store -/

theorem bytesLess_irrefl (a : List Nat) : bytesLess a a = false := by
  induction a with
  | nil => rfl
  | cons x xs ih => simp [bytesLess, ih]

theorem bytesLess_total (a b : List Nat) (h1 : bytesLess a b = false)
    (h2 : bytesLess b a = false) : a = b := by
  induction a generalizing b with
  | nil =>
    cases b with
    | nil => rfl
    | cons y ys => simp [bytesLess] at h1
  | cons x xs ih =>
    cases b with
    | nil => simp [bytesLess] at h2
    | cons y ys =>
      simp only [bytesLess] at h1 h2
      by_cases hxy : x < y
      · simp [hxy] at h1
      · by_cases hyx : y < x
        · simp [hyx] at h2
        · simp only [hxy, hyx, if_false] at h1 h2
          have : x = y := by omega
          rw [this, ih ys h1 h2]

/-- Two items compare equal under `byKeys` exactly when their keys are equal. -/
theorem keysEquiv_iff (x item : Item) :
    (!byKeys x item && !byKeys item x) = true ↔ x.Key = item.Key := by
  unfold byKeys
  constructor
  · intro h
    simp only [Bool.and_eq_true, Bool.not_eq_true'] at h
    exact bytesLess_total _ _ h.1 h.2
  · intro h
    rw [h]
    simp [bytesLess_irrefl]

theorem btreeGet_btreeSet_same (t : List Item) (item probe : Item)
    (h : probe.Key = item.Key) : btreeGet (btreeSet t item) probe = some item := by
  have hself : (!byKeys item probe && !byKeys probe item) = true :=
    (keysEquiv_iff item probe).mpr h.symm
  induction t with
  | nil => simp [btreeSet, btreeGet, List.find?, hself]
  | cons x xs ih =>
    unfold btreeSet
    by_cases h1 : byKeys item x = true
    · rw [if_pos h1]
      unfold btreeGet
      rw [List.find?_cons, hself]
    · by_cases h2 : byKeys x item = true
      · rw [if_neg h1, if_pos h2]
        have hx : (!byKeys x probe && !byKeys probe x) = false := by
          have : ¬ x.Key = probe.Key := by
            intro hk
            have := bytesLess_irrefl item.Key
            unfold byKeys at h2
            rw [hk, h] at h2
            rw [h2] at this
            exact Bool.noConfusion this
          exact Bool.eq_false_iff.mpr (fun hc => this ((keysEquiv_iff x probe).mp hc))
        unfold btreeGet at ih ⊢
        rw [List.find?_cons, hx]
        exact ih
      · rw [if_neg h1, if_neg h2]
        unfold btreeGet
        rw [List.find?_cons, hself]

theorem btreeGet_btreeSet_other (t : List Item) (item probe : Item)
    (h : probe.Key ≠ item.Key) : btreeGet (btreeSet t item) probe = btreeGet t probe := by
  have hitem : (!byKeys item probe && !byKeys probe item) = false :=
    Bool.eq_false_iff.mpr (fun hc => h ((keysEquiv_iff item probe).mp hc).symm)
  induction t with
  | nil => simp [btreeSet, btreeGet, List.find?, hitem]
  | cons x xs ih =>
    unfold btreeSet
    by_cases h1 : byKeys item x = true
    · rw [if_pos h1]
      unfold btreeGet
      rw [List.find?_cons, hitem]
    · by_cases h2 : byKeys x item = true
      · rw [if_neg h1, if_pos h2]
        unfold btreeGet at ih ⊢
        rw [List.find?_cons, List.find?_cons, ih]
      · rw [if_neg h1, if_neg h2]
        have hxi : x.Key = item.Key := by
          apply (keysEquiv_iff x item).mp
          simp only [Bool.not_eq_true] at h1 h2
          simp [h1, h2]
        have hx : (!byKeys x probe && !byKeys probe x) = false :=
          Bool.eq_false_iff.mpr (fun hc => h (hxi ▸ ((keysEquiv_iff x probe).mp hc)).symm)
        unfold btreeGet
        rw [List.find?_cons, List.find?_cons, hitem, hx]

theorem btreeGet_btreeDelete_same (t : List Item) (item probe : Item)
    (h : probe.Key = item.Key) : btreeGet (btreeDelete t item) probe = none := by
  unfold btreeGet btreeDelete
  rw [List.find?_eq_none]
  intro x hx
  rw [List.mem_filter] at hx
  intro hc
  have h1 := (keysEquiv_iff x probe).mp hc
  have h2 : (!byKeys x item && !byKeys item x) = true := (keysEquiv_iff x item).mpr (h1.trans h)
  rw [h2] at hx
  exact Bool.noConfusion hx.2

theorem btreeGet_btreeDelete_other (t : List Item) (item probe : Item)
    (h : probe.Key ≠ item.Key) : btreeGet (btreeDelete t item) probe = btreeGet t probe := by
  unfold btreeGet btreeDelete
  induction t with
  | nil => rfl
  | cons x xs ih =>
    by_cases hx : (!byKeys x item && !byKeys item x) = true
    · have hxp : (!byKeys x probe && !byKeys probe x) = false :=
        Bool.eq_false_iff.mpr (fun hc =>
          h (((keysEquiv_iff x probe).mp hc).symm.trans ((keysEquiv_iff x item).mp hx)))
      rw [List.filter_cons, List.find?_cons, hxp]
      simp only [hx, Bool.not_true, Bool.false_eq_true, if_false]
      exact ih
    · rw [List.filter_cons]
      simp only [Bool.not_eq_true] at hx
      simp only [hx, Bool.not_false, if_true]
      rw [List.find?_cons, List.find?_cons, ih]

theorem Index.Get_Add_same (i : Index) (key value : List Nat) :
    (i.Add key value).Get key = .ok value := by
  unfold Index.Get Index.Add
  simp only
  rw [btreeGet_btreeSet_same i.t ⟨key, value⟩ ⟨key, []⟩ rfl]

theorem Index.Get_Add_other (i : Index) (key value k : List Nat) (h : k ≠ key) :
    (i.Add key value).Get k = i.Get k := by
  unfold Index.Get Index.Add
  simp only
  rw [btreeGet_btreeSet_other i.t ⟨key, value⟩ ⟨k, []⟩ h]

theorem Index.Get_Delete_same (i : Index) (key : List Nat) :
    (i.Delete key).Get key = .error Error.ErrItemNotFound := by
  unfold Index.Get Index.Delete
  simp only
  rw [btreeGet_btreeDelete_same i.t ⟨key, []⟩ ⟨key, []⟩ rfl]

theorem Index.Get_Delete_other (i : Index) (key k : List Nat) (h : k ≠ key) :
    (i.Delete key).Get k = i.Get k := by
  unfold Index.Get Index.Delete
  simp only
  rw [btreeGet_btreeDelete_other i.t ⟨key, []⟩ ⟨k, []⟩ h]

/-- Reading at the offset of an encoded record that fits the read buffer
returns that record, whatever follows it in the file. -/
theorem Read_at_record (front back : List Nat) (r : Record) (M : Nat)
    (hf1 : -128 ≤ r.Flags) (hf2 : r.Flags < 128)
    (hM : r.Key.length + r.Value.length ≤ M)
    (hsize : 13 + r.Key.length + r.Value.length < 2 ^ 32) :
    Record.Read (front ++ r.layout ++ back) front.length M = some (r, none) := by
  have hl := Record.layout_length r
  unfold Record.Read
  simp only [metaSize, List.length_replicate]
  rw [List.append_assoc, List.drop_left' rfl, List.take_append_eq_append_take,
    List.take_of_length_le (l := r.layout) (by omega)]
  rw [if_neg (by simp only [List.length_append]; omega)]
  have hc : copy (List.replicate (M + 13) 0) (r.layout ++ List.take (M + 13 - r.layout.length) back)
      = r.layout ++ (List.take (M + 13 - r.layout.length) back
          ++ List.drop (r.layout ++ List.take (M + 13 - r.layout.length) back).length
            (List.replicate (M + 13) 0)) := by
    unfold copy
    rw [List.length_replicate, List.take_of_length_le, List.append_assoc]
    simp only [List.length_append, List.length_take]
    omega
  rw [hc]
  exact Decode_layout_append r _ hf1 hf2 hsize

theorem IsTombstoned_put (key value : List Nat) :
    (NewRecord key value 0).IsTombstoned = false := by
  show HasBit 0 Tombstoned = false
  decide

theorem IsTombstoned_delete (key value : List Nat) :
    (NewRecord key value 0).Tombstone.IsTombstoned = true := by
  show HasBit (SetBit 0 Tombstoned) Tombstoned = true
  decide

/-- What `Put` does when the encoder does not wrap. -/
theorem Put_eq (kv : KVStore) (key value : List Nat)
    (h : 9 + key.length + value.length < 2 ^ 32) :
    kv.Put key value = some
      { kv with file := kv.file ++ Record.layout ⟨0, key, value⟩,
                index := kv.index.Add key (Uint32ToBytes (kv.file.length % 2 ^ 32)) } := by
  unfold KVStore.Put KVStore.set
  simp only [Bool.false_eq_true, if_false, IsTombstoned_put]
  unfold Record.Write
  rw [show NewRecord key value 0 = ⟨0, key, value⟩ from rfl, Encode_eq_layout _ h]
  rfl

/-- A call appends to the file, keeps the maximal record size and leaves the
index entries of all other keys as they are. -/
theorem apply_frame (kv kv2 : KVStore) (op : Op) (h : kv.apply op = some kv2) :
    (∃ enc, kv2.file = kv.file ++ enc) ∧ kv2.maxRecordSize = kv.maxRecordSize ∧
      ∀ k, k ≠ op.key → kv2.index.Get k = kv.index.Get k := by
  cases op with
  | Put key value =>
    simp only [KVStore.apply, KVStore.Put, KVStore.set, Bool.false_eq_true, if_false,
      IsTombstoned_put, Record.Write] at h
    cases he : (NewRecord key value 0).Encode with
    | none => rw [he] at h; cases h
    | some enc =>
      rw [he] at h
      simp only [Option.map_some', Option.some_bind, Option.some.injEq] at h
      subst h
      exact ⟨⟨enc, rfl⟩, rfl, fun k hk => Index.Get_Add_other _ _ _ _ hk⟩
  | Delete key =>
    simp only [KVStore.apply, KVStore.Delete, KVStore.set, if_true,
      IsTombstoned_delete, Record.Write] at h
    cases he : (NewRecord key [0] 0).Tombstone.Encode with
    | none => rw [he] at h; cases h
    | some enc =>
      rw [he] at h
      simp only [Option.map_some', Option.some_bind, Option.some.injEq] at h
      subst h
      exact ⟨⟨enc, rfl⟩, rfl, fun k hk => Index.Get_Delete_other _ _ _ hk⟩

theorem run_frame (ops : List Op) (kv kv2 : KVStore) (k : List Nat)
    (h : kv.run ops = some kv2) (hk : ∀ op ∈ ops, op.key ≠ k) :
    (∃ enc, kv2.file = kv.file ++ enc) ∧ kv2.maxRecordSize = kv.maxRecordSize ∧
      kv2.index.Get k = kv.index.Get k := by
  induction ops generalizing kv with
  | nil =>
    simp only [KVStore.run, Option.some.injEq] at h
    subst h
    exact ⟨⟨[], (List.append_nil _).symm⟩, rfl, rfl⟩
  | cons op ops ih =>
    simp only [KVStore.run] at h
    cases ha : kv.apply op with
    | none => rw [ha] at h; cases h
    | some kv1 =>
      rw [ha, Option.some_bind] at h
      obtain ⟨⟨e1, hf1⟩, hm1, hi1⟩ := apply_frame kv kv1 op ha
      obtain ⟨⟨e2, hf2⟩, hm2, hi2⟩ := ih kv1 h (fun o ho => hk o (List.mem_cons_of_mem _ ho))
      refine ⟨⟨e1 ++ e2, ?_⟩, hm2.trans hm1, ?_⟩
      · rw [hf2, hf1, List.append_assoc]
      · rw [hi2, hi1 k (fun hc => hk op (List.mem_cons_self _ _) hc.symm)]

theorem run_append (ops1 ops2 : List Op) (kv : KVStore) :
    kv.run (ops1 ++ ops2) = (kv.run ops1).bind fun kv => kv.run ops2 := by
  induction ops1 generalizing kv with
  | nil => rfl
  | cons op ops ih =>
    simp only [List.cons_append, KVStore.run]
    cases kv.apply op with
    | none => rfl
    | some kv1 => exact ih kv1

/-- Lookup: `Get` of a key whose index entry is the offset of an encoded record with
that key's value. -/
theorem Get_of_entry (kv : KVStore) (key value front back : List Nat)
    (hidx : kv.index.Get key = .ok (Uint32ToBytes front.length))
    (hfile : kv.file = front ++ Record.layout ⟨0, key, value⟩ ++ back)
    (hoff : front.length < 2 ^ 32)
    (hM : key.length + value.length ≤ kv.maxRecordSize)
    (hsize : 13 + key.length + value.length < 2 ^ 32) :
    kv.Get key = some (.ok value) := by
  unfold KVStore.Get
  rw [hidx]
  simp only [BytesToUint32_Uint32ToBytes _ hoff, KVStore.recordAt, hfile]
  rw [Read_at_record front back ⟨0, key, value⟩ _ (by norm_num) (by norm_num) hM hsize]
  rfl

theorem copy_length (dst src : List Nat) : (copy dst src).length = dst.length := by
  unfold copy
  simp only [List.length_append, List.length_take, List.length_drop]
  omega

theorem copyAt_length (buf : List Nat) (lo hi : Nat) (src b : List Nat)
    (h : copyAt buf lo hi src = some b) : b.length = buf.length := by
  unfold copyAt at h
  split at h
  · rename_i hc
    simp only [Option.some.injEq] at h
    subst h
    simp only [List.length_append, copy_length, List.length_take, List.length_drop]
    omega
  · cases h

/-- Whenever `Record.Encode` returns, it returns `13 + K + V` bytes. -/
theorem Encode_length (r : Record) (enc : List Nat) (h : r.Encode = some enc) :
    enc.length = 13 + r.Key.length + r.Value.length := by
  unfold Record.Encode at h
  simp only [metaSize] at h
  cases h1 : copyAt ((List.replicate (13 + r.Key.length + r.Value.length) 0).set 0 (byte r.Flags))
    1 5 (Uint32ToBytes (r.Key.length % 2 ^ 32)) with
  | none => rw [h1] at h; cases h
  | some b1 =>
    rw [h1, Option.some_bind] at h
    have l1 := copyAt_length _ _ _ _ _ h1
    cases h2 : copyAt b1 5 9 (Uint32ToBytes (r.Value.length % 2 ^ 32)) with
    | none => rw [h2] at h; cases h
    | some b2 =>
      rw [h2, Option.some_bind] at h
      have l2 := copyAt_length _ _ _ _ _ h2
      cases h3 : copyAt b2 headerSize ((headerSize + r.Key.length % 2 ^ 32) % 2 ^ 32) r.Key with
      | none => rw [h3] at h; cases h
      | some b3 =>
        rw [h3, Option.some_bind] at h
        have l3 := copyAt_length _ _ _ _ _ h3
        cases h4 : copyAt b3 ((headerSize + r.Key.length % 2 ^ 32) % 2 ^ 32)
          (((headerSize + r.Key.length % 2 ^ 32) % 2 ^ 32 + r.Value.length % 2 ^ 32) % 2 ^ 32)
          r.Value with
        | none => rw [h4] at h; cases h
        | some b4 =>
          rw [h4, Option.some_bind] at h
          have l4 := copyAt_length _ _ _ _ _ h4
          cases h5 : slice b4 0
            (((headerSize + r.Key.length % 2 ^ 32) % 2 ^ 32 + r.Value.length % 2 ^ 32) % 2 ^ 32) with
          | none => rw [h5] at h; cases h
          | some cov =>
            rw [h5, Option.some_bind] at h
            have l5 := copyAt_length _ _ _ _ _ h
            rw [l5, l4, l3, l2, l1, List.length_set, List.length_replicate]

theorem zero_file_get_of_length (rest : List Nat) (h : rest.length = 2 ^ 32 - 15) :
    [97].length + [98].length ≤ 2 ∧
    ∃ kv2, (NewKVStore (List.replicate 15 0 ++ rest) 2).Put [97] [98] = some kv2 ∧
      kv2.Get [97] = some (.error (Error.CRCCheckFailed 3859354798 0)) := by
  refine ⟨by decide, _, Put_eq _ _ _ (by decide), ?_⟩
  have hlen : (NewKVStore (List.replicate 15 0 ++ rest) 2).file.length % 2 ^ 32 = 0 := by
    show (List.replicate 15 0 ++ rest).length % 2 ^ 32 = 0
    rw [List.length_append, List.length_replicate, h]
    norm_num
  unfold KVStore.Get
  simp only [hlen, Index.Get_Add_same]
  have hoff : BytesToUint32 (Uint32ToBytes 0) = 0 := by decide
  rw [hoff]
  unfold KVStore.recordAt Record.Read
  simp only [NewKVStore, metaSize, List.length_replicate, List.drop_zero]
  rw [List.append_assoc, List.take_left' (List.length_replicate _ _)]
  rw [if_neg (by simp), copy_of_length_eq rfl]
  have hd : Record.Decode (List.replicate (2 + 13) 0)
      = some (⟨0, [], []⟩, some (Error.CRCCheckFailed 3859354798 0)) := by decide!
  rw [hd]
  rfl

/-- C6, as stated, fails: on a store opened over a file of `2^32` zero bytes,
with maximum record size 2, `Put("a", "b")` succeeds; the offset `2^32` of the
new record is stored as `uint32(2^32) = 0`, and `Get("a")` decodes the zero
bytes at offset 0 and returns the CRC error instead of `"b"`. -/
theorem put_offset_wraps :
    [97].length + [98].length ≤ 2 ∧
    ∃ kv2, (NewKVStore (List.replicate 15 0 ++ List.replicate (2 ^ 32 - 15) 0) 2).Put [97] [98]
        = some kv2 ∧
      kv2.Get [97] = some (.error (Error.CRCCheckFailed 3859354798 0)) :=
  zero_file_get_of_length _ (List.length_replicate _ _)

/-- C6 (amended): on a KVStore with maximum record size M whose file is
shorter than `2^32` bytes, for every key and value with
`len(key) + len(value) <= M` and `13 + len(key) + len(value) < 2^32`,
immediately after `Put(key, value)` succeeds, `Get(key)` returns exactly value
and no error. -/
theorem get_after_put (kv kv2 : KVStore) (key value : List Nat)
    (hM : key.length + value.length ≤ kv.maxRecordSize)
    (hput : kv.Put key value = some kv2)
    (hoff : kv.file.length < 2 ^ 32)
    (hsize : 13 + key.length + value.length < 2 ^ 32) :
    kv2.Get key = some (.ok value) := by
  rw [Put_eq kv key value (by omega), Option.some.injEq] at hput
  subst hput
  apply Get_of_entry _ key value kv.file []
  · simp only [Nat.mod_eq_of_lt hoff, Index.Get_Add_same]
  · simp only [List.append_nil]
  · exact hoff
  · exact hM
  · exact hsize

/-- The theorem of C6 at a concrete input, with its hypotheses discharged. -/
theorem get_after_put_witness :
    [104].length + [1, 2].length ≤ (NewKVStore [] 16).maxRecordSize ∧
    (NewKVStore [] 16).file.length < 2 ^ 32 ∧ 13 + [104].length + [1, 2].length < 2 ^ 32 ∧
    ∃ kv2, (NewKVStore [] 16).Put [104] [1, 2] = some kv2 ∧ kv2.Get [104] = some (.ok [1, 2]) :=
  ⟨by decide, by decide, by decide, _, Put_eq _ _ _ (by decide),
    get_after_put (NewKVStore [] 16) _ [104] [1, 2] (by decide) (Put_eq _ _ _ (by decide))
      (by decide) (by decide)⟩

/-- A sequence of calls appends to the file and keeps the maximal record size. -/
theorem run_grows (ops : List Op) (kv kv2 : KVStore) (h : kv.run ops = some kv2) :
    (∃ enc, kv2.file = kv.file ++ enc) ∧ kv2.maxRecordSize = kv.maxRecordSize := by
  induction ops generalizing kv with
  | nil =>
    simp only [KVStore.run, Option.some.injEq] at h
    subst h
    exact ⟨⟨[], (List.append_nil _).symm⟩, rfl⟩
  | cons op ops ih =>
    simp only [KVStore.run] at h
    cases ha : kv.apply op with
    | none => rw [ha] at h; cases h
    | some kv1 =>
      rw [ha, Option.some_bind] at h
      obtain ⟨⟨e1, hf1⟩, hm1, _⟩ := apply_frame kv kv1 op ha
      obtain ⟨⟨e2, hf2⟩, hm2⟩ := ih kv1 h
      refine ⟨⟨e1 ++ e2, ?_⟩, hm2.trans hm1⟩
      rw [hf2, hf1, List.append_assoc]

/-- C7, as stated, fails: on a store with maximum record size 4,
`Put("a", [1, 2, 3, 4])` succeeds (`set` does not compare the record with the
maximum record size) and the index entry of the key is the offset 0 of the
record, but `Get("a")` reads only `4 + 13` of its 18 bytes and the decoder
panics instead of returning the value. -/
theorem get_oversized_record_panics :
    ∃ s, (NewKVStore [] 4).run [Op.Put [97] [1, 2, 3, 4]] = some s ∧
      s.index.Get [97] = .ok (Uint32ToBytes 0) ∧ s.Get [97] = none := by
  have h : ((NewKVStore [] 4).run [Op.Put [97] [1, 2, 3, 4]]).any (fun s =>
      decide (s.index.Get [97] = .ok (Uint32ToBytes 0)) && decide (s.Get [97] = none))
      = true := by decide!
  cases hr : (NewKVStore [] 4).run [Op.Put [97] [1, 2, 3, 4]] with
  | none => rw [hr] at h; cases h
  | some s =>
    rw [hr] at h
    simp only [Option.any_some, Bool.and_eq_true, decide_eq_true_eq] at h
    exact ⟨s, rfl, h.1, h.2⟩

/-- C7 (amended): for every sequence of Put and Delete calls on a KVStore
whose file stays below `2^32` bytes, and every key K whose latest call in the
sequence is a `Put(K, V)` with `len(K) + len(V)` at most the maximum record
size, the index entry for K is the file offset at which that call wrote its
record, the record is in the file at that offset, and `Get(K)` returns V. -/
theorem get_latest_put (s0 s2 : KVStore) (ops1 ops2 : List Op) (key value : List Nat)
    (hrun : s0.run (ops1 ++ Op.Put key value :: ops2) = some s2)
    (hlast : ∀ op ∈ ops2, op.key ≠ key)
    (hM : key.length + value.length ≤ s0.maxRecordSize)
    (hfile : s2.file.length < 2 ^ 32) :
    ∃ s1, s0.run ops1 = some s1 ∧
      s2.index.Get key = .ok (Uint32ToBytes s1.file.length) ∧
      (s2.file.drop s1.file.length).take (13 + key.length + value.length)
        = Record.layout ⟨0, key, value⟩ ∧
      s2.Get key = some (.ok value) := by
  rw [run_append] at hrun
  cases h1 : s0.run ops1 with
  | none => rw [h1] at hrun; cases hrun
  | some s1 =>
    rw [h1, Option.some_bind] at hrun
    refine ⟨s1, rfl, ?_⟩
    simp only [KVStore.run, KVStore.apply] at hrun
    cases hp : s1.Put key value with
    | none => rw [hp] at hrun; cases hrun
    | some sp =>
      rw [hp, Option.some_bind] at hrun
      obtain ⟨⟨e2, hf2⟩, hm2, hi2⟩ := run_frame ops2 sp s2 key hrun hlast
      obtain ⟨_, hm0⟩ := run_grows ops1 s0 s1 h1
      -- the encoder returned `13 + K + V` bytes, all of them in the final file
      have hp2 := hp
      unfold KVStore.Put KVStore.set at hp2
      simp only [Bool.false_eq_true, if_false, IsTombstoned_put, Record.Write] at hp2
      cases he : (NewRecord key value 0).Encode with
      | none => rw [he] at hp2; cases hp2
      | some enc =>
        have hlen := Encode_length _ _ he
        simp only [NewRecord] at hlen
        rw [he] at hp2
        simp only [Option.map_some', Option.some_bind, Option.some.injEq] at hp2
        have hspf : sp.file = s1.file ++ enc := by rw [← hp2]
        have htot : s1.file.length + (13 + key.length + value.length) ≤ s2.file.length := by
          rw [hf2, hspf, List.length_append, List.length_append, hlen]
          omega
        have hsize : 13 + key.length + value.length < 2 ^ 32 := by omega
        rw [Put_eq s1 key value (by omega), Option.some.injEq] at hp
        subst hp
        simp only at hf2 hm2 hi2
        have hidx : s2.index.Get key = .ok (Uint32ToBytes s1.file.length) := by
          rw [hi2, Nat.mod_eq_of_lt (by omega), Index.Get_Add_same]
        have hll := Record.layout_length ⟨0, key, value⟩
        simp only at hll
        refine ⟨hidx, ?_, ?_⟩
        · rw [hf2, List.append_assoc, List.drop_left' rfl, ← hll]
          exact List.take_left' rfl
        · exact Get_of_entry s2 key value s1.file e2 hidx hf2 (by omega)
            (by rw [hm2, hm0]; exact hM) hsize

/-- The theorem of C7 at a concrete input, with its hypotheses discharged. -/
theorem get_latest_put_witness :
    (∀ op ∈ [Op.Put [105] [3], Op.Delete [106]], op.key ≠ [104]) ∧
    ∃ s2, (NewKVStore [] 16).run
        ([Op.Put [104] [9]] ++ Op.Put [104] [1, 2] :: [Op.Put [105] [3], Op.Delete [106]])
        = some s2 ∧
      ∃ s1, (NewKVStore [] 16).run [Op.Put [104] [9]] = some s1 ∧
        s2.index.Get [104] = .ok (Uint32ToBytes s1.file.length) ∧
        (s2.file.drop s1.file.length).take (13 + [104].length + [1, 2].length)
          = Record.layout ⟨0, [104], [1, 2]⟩ ∧
        s2.Get [104] = some (.ok [1, 2]) := by
  have hk : ∀ op ∈ [Op.Put [105] [3], Op.Delete [106]], op.key ≠ [104] := by decide
  have hr : (NewKVStore [] 16).run
      ([Op.Put [104] [9]] ++ Op.Put [104] [1, 2] :: [Op.Put [105] [3], Op.Delete [106]])
      ≠ none := by decide!
  cases h : (NewKVStore [] 16).run
      ([Op.Put [104] [9]] ++ Op.Put [104] [1, 2] :: [Op.Put [105] [3], Op.Delete [106]]) with
  | none => exact absurd h hr
  | some s2 =>
    have hlen : s2.file.length < 2 ^ 32 := by
      have : ((NewKVStore [] 16).run
        ([Op.Put [104] [9]] ++ Op.Put [104] [1, 2] :: [Op.Put [105] [3], Op.Delete [106]])).all
          (fun s => decide (s.file.length < 2 ^ 32)) = true := by decide!
      rw [h] at this
      simpa using this
    exact ⟨hk, s2, rfl, get_latest_put (NewKVStore [] 16) s2 _ _ [104] [1, 2] h hk (by decide) hlen⟩

/-- C8: for every key, after `Delete(key)` succeeds and before any later Put
of that key (whatever other Puts and Deletes follow), `Get(key)` fails with
`ErrItemNotFound`. -/
theorem get_after_delete (s s1 s2 : KVStore) (key : List Nat) (ops : List Op)
    (hdel : s.Delete key = some s1)
    (hops : ∀ op ∈ ops, ∀ value, op ≠ Op.Put key value)
    (hrun : s1.run ops = some s2) :
    s2.Get key = some (.error Error.ErrItemNotFound) := by
  have h1 : s1.index.Get key = .error Error.ErrItemNotFound := by
    unfold KVStore.Delete KVStore.set at hdel
    simp only [if_true, IsTombstoned_delete, Record.Write] at hdel
    cases he : (NewRecord key [0] 0).Tombstone.Encode with
    | none => rw [he] at hdel; cases hdel
    | some enc =>
      rw [he] at hdel
      simp only [Option.map_some', Option.some_bind, Option.some.injEq] at hdel
      rw [← hdel]
      exact Index.Get_Delete_same _ _
  have h2 : s2.index.Get key = .error Error.ErrItemNotFound := by
    clear hdel
    induction ops generalizing s1 with
    | nil =>
      simp only [KVStore.run, Option.some.injEq] at hrun
      rw [← hrun]; exact h1
    | cons op ops ih =>
      simp only [KVStore.run] at hrun
      cases ha : s1.apply op with
      | none => rw [ha] at hrun; cases hrun
      | some s3 =>
        rw [ha, Option.some_bind] at hrun
        refine ih s3 (fun o ho => hops o (List.mem_cons_of_mem _ ho)) hrun ?_
        by_cases hk : op.key = key
        · cases op with
          | Put k v =>
            simp only [Op.key] at hk
            subst hk
            exact absurd rfl (hops _ (List.mem_cons_self _ _) v)
          | Delete k =>
            simp only [Op.key] at hk
            subst hk
            simp only [KVStore.apply, KVStore.Delete, KVStore.set, if_true,
              IsTombstoned_delete, Record.Write] at ha
            cases he : (NewRecord k [0] 0).Tombstone.Encode with
            | none => rw [he] at ha; cases ha
            | some enc =>
              rw [he] at ha
              simp only [Option.map_some', Option.some_bind, Option.some.injEq] at ha
              rw [← ha]
              exact Index.Get_Delete_same _ _
        · rw [(apply_frame s1 s3 op ha).2.2 key (fun hc => hk hc.symm)]
          exact h1
  unfold KVStore.Get
  rw [h2]

/-- The theorem of C8 at a concrete input, with its hypotheses discharged. -/
theorem get_after_delete_witness :
    ∃ s1 s2, (NewKVStore [] 16).Delete [104] = some s1 ∧
      (∀ op ∈ [Op.Put [105] [3], Op.Delete [104]], ∀ value, op ≠ Op.Put [104] value) ∧
      s1.run [Op.Put [105] [3], Op.Delete [104]] = some s2 ∧
      s2.Get [104] = some (.error Error.ErrItemNotFound) := by
  have hops : ∀ op ∈ [Op.Put [105] [3], Op.Delete [104]], ∀ value,
      op ≠ Op.Put [104] value := by
    intro op hop value
    simp only [List.mem_cons, List.mem_singleton, List.not_mem_nil, or_false] at hop
    rcases hop with rfl | rfl
    · intro hc; injection hc with h1 _; exact absurd h1 (by decide)
    · intro hc; cases hc
  have hd : (NewKVStore [] 16).Delete [104] ≠ none := by decide!
  cases h1 : (NewKVStore [] 16).Delete [104] with
  | none => exact absurd h1 hd
  | some s1 =>
    have hr : ((NewKVStore [] 16).Delete [104]).bind
        (fun s => s.run [Op.Put [105] [3], Op.Delete [104]]) ≠ none := by decide!
    rw [h1, Option.some_bind] at hr
    cases h2 : s1.run [Op.Put [105] [3], Op.Delete [104]] with
    | none => exact absurd h2 hr
    | some s2 => exact ⟨s1, s2, rfl, hops, h2, get_after_delete _ s1 s2 [104] _ h1 hops h2⟩

/-! ## Rebuilding the index -/

theorem scanBufferSize_pos (M : Nat) : 0 < scanBufferSize M := by
  unfold scanBufferSize
  omega

/-- With a record at the window of a loaded scanner, `Scan` returns `true`
with that record's bytes as the token. -/
theorem scanLoop_loaded_record (f : Nat) (front back : List Nat) (r : Record) (M : Nat)
    (token : Option (Nat × Nat)) (hr : r.Sound) :
    Scanner.scanLoop (f + 1) (Scanner.loaded (front ++ r.layout ++ back) M front.length token)
      = .ok (true, Scanner.loaded (front ++ r.layout ++ back) M
          (front.length + (13 + r.Key.length + r.Value.length))
          (some (front.length, 13 + r.Key.length + r.Value.length))) := by
  have hl := Record.layout_length r
  have hdrop : List.drop front.length ((front ++ r.layout ++ back)
      ++ List.replicate (scanBufferSize M - (front ++ r.layout ++ back).length) 0)
      = r.layout ++ (back
          ++ List.replicate (scanBufferSize M - (front ++ r.layout ++ back).length) 0) := by
    rw [List.append_assoc, List.append_assoc, List.drop_left' rfl, List.append_assoc]
  have hsplit : split (List.drop front.length ((front ++ r.layout ++ back)
      ++ List.replicate (scanBufferSize M - (front ++ r.layout ++ back).length) 0))
      ((front ++ r.layout ++ back).length - front.length) false
      = some (13 + r.Key.length + r.Value.length, some (13 + r.Key.length + r.Value.length),
          none) := by
    rw [hdrop]
    unfold split Record.DecodeWindow
    rw [if_neg (by simp), if_neg (by simp only [List.length_append]; omega),
      Decode_layout_append r _ hr.1 hr.2.1 hr.2.2]
    simp only [Option.some_bind, Record.RawSize, metaSize]
    rw [if_pos (by simp only [List.length_append]; omega)]
  rw [Scanner.scanLoop]
  simp only [Scanner.loaded, ne_eq, not_true_eq_false, decide_False, or_false]
  rw [if_pos (by simp only [List.length_append]; omega), hsplit]
  simp only [Option.map_some']
  rw [if_neg (by simp only [List.length_append]; omega)]

/-- The token of a loaded scanner decodes to the record it was cut from. -/
theorem Record_loaded (front back : List Nat) (r : Record) (M pos : Nat) (hr : r.Sound) :
    (Scanner.loaded (front ++ r.layout ++ back) M pos
      (some (front.length, 13 + r.Key.length + r.Value.length))).Record = some (r, none) := by
  unfold Scanner.Record Scanner.loaded Record.DecodeWindow
  simp only
  rw [if_neg (by omega), List.append_assoc, List.append_assoc, List.drop_left' rfl]
  exact Decode_layout_append r _ hr.1 hr.2.1 hr.2.2

/-- Making room and reading with nothing left to read and an empty window:
the scanner records the end of the file, and the window stays empty. -/
theorem fill_exhausted (s : Scanner) (hr : s.r = []) (herr : s.err = none)
    (hse : s.start = s.end_) (hle : s.end_ ≤ s.buf.length) (hpos : 0 < s.buf.length) :
    ∃ s2, s.fill = (false, s2) ∧ s2.err = some ScanError.EOF ∧ s2.start = s2.end_ := by
  have hshift : s.shift.r = [] ∧ s.shift.err = none ∧ s.shift.start = s.shift.end_ ∧
      s.shift.end_ < s.shift.buf.length := by
    unfold Scanner.shift
    split
    · rename_i hc
      refine ⟨hr, herr, ?_, ?_⟩
      · simp only; omega
      · simp only [copy_length]; omega
    · rename_i hc
      refine ⟨hr, herr, hse, ?_⟩
      by_contra hlt
      apply hc
      have : s.end_ = s.buf.length := by omega
      exact ⟨by omega, Or.inl this⟩
  obtain ⟨h1, h2, h3, h4⟩ := hshift
  unfold Scanner.fill
  simp only
  rw [if_neg (by omega), if_neg (by omega)]
  refine ⟨_, rfl, ?_, ?_⟩
  · unfold Scanner.read
    simp only
    rw [if_neg (by omega), if_pos (by rw [h1]; rfl)]
    unfold Scanner.setErr
    rw [if_pos (Or.inl h2)]
  · unfold Scanner.read
    simp only
    rw [if_neg (by omega), if_pos (by rw [h1]; rfl)]
    unfold Scanner.setErr
    rw [if_pos (Or.inl h2)]
    exact h3

/-- A scanner that has recorded the end of the file and has an empty window
stops: the split function gets no bytes and `Scan` returns `false`. -/
theorem scanLoop_at_EOF (f : Nat) (s : Scanner) (herr : s.err = some ScanError.EOF)
    (hse : s.start = s.end_) :
    ∃ s2, Scanner.scanLoop (f + 1) s = .ok (false, s2) := by
  rw [Scanner.scanLoop]
  simp only
  rw [if_pos (Or.inr (by rw [herr]; simp))]
  have hs : split (List.drop s.start s.buf) (s.end_ - s.start) (decide (s.err ≠ none))
      = some (0, none, none) := by
    unfold split
    rw [if_pos (by rw [herr, hse]; simp)]
  rw [hs]
  simp only [Option.map_none']
  rw [if_neg (by omega), if_pos (by rw [herr]; simp)]
  exact ⟨_, rfl⟩

/-- At the end of the file a loaded scanner stops: the read reports the end
of the file, the split function gets no bytes and `Scan` returns `false`. -/
theorem scanLoop_loaded_end (f : Nat) (file : List Nat) (M : Nat)
    (token : Option (Nat × Nat)) :
    ∃ s, Scanner.scanLoop (f + 2) (Scanner.loaded file M file.length token) = .ok (false, s) := by
  have hB := scanBufferSize_pos M
  have hlen : (Scanner.loaded file M file.length token).buf.length
      = file.length + (scanBufferSize M - file.length) := by
    simp only [Scanner.loaded, List.length_append, List.length_replicate]
  obtain ⟨s2, hfill, herr, hse⟩ := fill_exhausted (Scanner.loaded file M file.length token)
    rfl rfl rfl (by rw [hlen]; simp only [Scanner.loaded]; omega) (by rw [hlen]; omega)
  rw [Scanner.scanLoop]
  simp only
  rw [if_neg (by simp [Scanner.loaded]), if_neg (by simp [Scanner.loaded]), hfill]
  simp only [Bool.false_eq_true, if_false]
  exact scanLoop_at_EOF f s2 herr hse

theorem encodeAll_cons (r : Record) (rs : List Record) :
    encodeAll (r :: rs) = r.layout ++ encodeAll rs := by
  simp [encodeAll]

theorem encodeAll_append (rs1 rs2 : List Record) :
    encodeAll (rs1 ++ rs2) = encodeAll rs1 ++ encodeAll rs2 := by
  simp [encodeAll]

theorem length_le_encodeAll (rs : List Record) : rs.length ≤ (encodeAll rs).length := by
  induction rs with
  | nil => simp [encodeAll]
  | cons r rs ih =>
    rw [encodeAll_cons, List.length_append, Record.layout_length, List.length_cons]
    omega

/-- The loop of `RebuildIndex` on a loaded scanner: every record behind the
window is added to the index at the running offset, then the loop ends with
no error. -/
theorem rebuildLoop_loaded (rs : List Record) (hs : ∀ r ∈ rs, r.Sound) (front : List Nat)
    (M : Nat) (token : Option (Nat × Nat)) (index : Index) (offset fuel : Nat)
    (hfuel : rs.length < fuel) :
    KVStore.rebuildLoop fuel (Scanner.loaded (front ++ encodeAll rs) M front.length token)
      index offset = .ok (indexRecords rs index offset, none) := by
  induction rs generalizing front token index offset fuel with
  | nil =>
    obtain ⟨f, rfl⟩ : ∃ f, fuel = f + 1 := ⟨fuel - 1, by omega⟩
    have hend := scanLoop_loaded_end 1 front M token
    obtain ⟨s, hs2⟩ := hend
    rw [KVStore.rebuildLoop]
    unfold Scanner.Scan
    have e : front ++ encodeAll [] = front := by simp [encodeAll]
    rw [e, hs2]
    rfl
  | cons r rs ih =>
    obtain ⟨f, rfl⟩ : ∃ f, fuel = f + 1 := ⟨fuel - 1, by omega⟩
    have hr := hs r (List.mem_cons_self _ _)
    have e : front ++ encodeAll (r :: rs) = front ++ r.layout ++ encodeAll rs := by
      rw [encodeAll_cons, List.append_assoc]
    rw [KVStore.rebuildLoop]
    unfold Scanner.Scan
    rw [e, scanLoop_loaded_record 2 front (encodeAll rs) r M token hr]
    simp only
    rw [Record_loaded front (encodeAll rs) r M _ hr]
    simp only
    have hpos : front.length + (13 + r.Key.length + r.Value.length)
        = (front ++ r.layout).length := by
      rw [List.length_append, Record.layout_length]
    rw [hpos, indexRecords]
    exact ih (fun x hx => hs x (List.mem_cons_of_mem _ hx)) (front ++ r.layout) _ _ _ f
      (by simp only [List.length_cons] at hfuel; omega)

/-- The first read of a file that fits the buffer of the scanner loads the
whole file. -/
theorem fill_NewScanner_fits (file : List Nat) (M : Nat) (hne : file ≠ [])
    (h : file.length ≤ scanBufferSize M) :
    (NewScanner file M).fill = (false, Scanner.loaded file M 0 none) := by
  have hB := scanBufferSize_pos M
  unfold scanBufferSize at h hB
  have hlen : 0 < file.length := List.length_pos.mpr hne
  generalize hBdef : ((M + metaSize) % 4096 + 1) * 4096 = B at h hB
  have h0 : ¬ (0 = B) := by omega
  have h1 : ¬ (B = 0) := by omega
  have hmin : min B file.length = file.length := Nat.min_eq_right h
  simp [Scanner.fill, Scanner.shift, Scanner.read, NewScanner, Scanner.loaded, scanBufferSize,
    hBdef, h0, h1, hmin, hne]

theorem NewScanner_nil (M : Nat) : NewScanner [] M = Scanner.loaded [] M 0 none := by
  simp [NewScanner, Scanner.loaded, scanBufferSize]

/-- The first `Scan` of `RebuildIndex` on a file of encoded records that fits
the buffer gives what a `Scan` of the loaded scanner gives. -/
theorem Scan_NewScanner (rs : List Record) (hs : ∀ r ∈ rs, r.Sound) (M : Nat)
    (hfit : (encodeAll rs).length ≤ scanBufferSize M) :
    (NewScanner (encodeAll rs) M).Scan = (Scanner.loaded (encodeAll rs) M 0 none).Scan := by
  cases rs with
  | nil => rw [show encodeAll [] = [] from rfl, NewScanner_nil]
  | cons r rs =>
    have hr := hs r (List.mem_cons_self _ _)
    have hne : encodeAll (r :: rs) ≠ [] := by
      intro hc
      have := congrArg List.length hc
      rw [encodeAll_cons, List.length_append, Record.layout_length] at this
      simp at this
    have hfill := fill_NewScanner_fits _ M hne hfit
    have e : encodeAll (r :: rs) = [] ++ r.layout ++ encodeAll rs := by
      rw [encodeAll_cons, List.nil_append]
    have h2 := scanLoop_loaded_record 1 [] (encodeAll rs) r M none hr
    have h3 := scanLoop_loaded_record 2 [] (encodeAll rs) r M none hr
    rw [← e] at h2 h3
    simp only [List.length_nil] at h2 h3
    unfold Scanner.Scan
    rw [h3, Scanner.scanLoop]
    simp only
    rw [if_neg (by simp [NewScanner]), if_neg (by simp [NewScanner]), hfill]
    simp only [Bool.false_eq_true, if_false]
    exact h2

/-- Rebuild: `RebuildIndex` on a file that holds the encodings of a list of sound
records and fits the buffer of the scanner returns no error, and the index is
what adding every record at its offset produces. -/
theorem RebuildIndex_encodeAll (rs : List Record) (hs : ∀ r ∈ rs, r.Sound) (M : Nat)
    (index : Index) (hfit : (encodeAll rs).length ≤ scanBufferSize M) :
    KVStore.RebuildIndex { index := index, file := encodeAll rs, maxRecordSize := M }
      = .ok ({ index := indexRecords rs index 0, file := encodeAll rs, maxRecordSize := M },
          none) := by
  have hl := rebuildLoop_loaded rs hs [] M none index 0 ((encodeAll rs).length + 1)
    (by have := length_le_encodeAll rs; omega)
  simp only [List.nil_append, List.length_nil] at hl
  unfold KVStore.RebuildIndex
  simp only
  rw [KVStore.rebuildLoop, Scan_NewScanner rs hs M hfit, ← KVStore.rebuildLoop, hl]

theorem Op.record_Key (op : Op) : op.record.Key = op.key := by
  cases op <;> rfl

theorem Op.record_Flags (op : Op) : -128 ≤ op.record.Flags ∧ op.record.Flags < 128 := by
  cases op with
  | Put key value =>
    show -128 ≤ (0 : Int) ∧ (0 : Int) < 128
    exact ⟨by decide, by decide⟩
  | Delete key =>
    show -128 ≤ SetBit 0 Tombstoned ∧ SetBit 0 Tombstoned < 128
    exact ⟨by decide, by decide⟩

/-- A call that returns has appended what `Encode` made of its record. -/
theorem apply_file (kv kv2 : KVStore) (op : Op) (h : kv.apply op = some kv2) :
    ∃ enc, op.record.Encode = some enc ∧ kv2.file = kv.file ++ enc := by
  cases op with
  | Put key value =>
    simp only [KVStore.apply, KVStore.Put, KVStore.set, Bool.false_eq_true, if_false,
      IsTombstoned_put, Record.Write] at h
    cases he : (NewRecord key value 0).Encode with
    | none => rw [he] at h; cases h
    | some enc =>
      rw [he] at h
      simp only [Option.map_some', Option.some_bind, Option.some.injEq] at h
      subst h
      exact ⟨enc, he, rfl⟩
  | Delete key =>
    simp only [KVStore.apply, KVStore.Delete, KVStore.set, if_true,
      IsTombstoned_delete, Record.Write] at h
    cases he : (NewRecord key [0] 0).Tombstone.Encode with
    | none => rw [he] at h; cases h
    | some enc =>
      rw [he] at h
      simp only [Option.map_some', Option.some_bind, Option.some.injEq] at h
      subst h
      exact ⟨enc, he, rfl⟩

/-- The file after a sequence of calls that keeps it below `2^32` bytes is the
file before followed by the encodings of the records of the calls, in call
order, and each of these records is sound. -/
theorem run_file (ops : List Op) (kv kv2 : KVStore) (h : kv.run ops = some kv2)
    (hlen : kv2.file.length < 2 ^ 32) :
    kv2.file = kv.file ++ encodeAll (ops.map Op.record) ∧ ∀ op ∈ ops, op.record.Sound := by
  induction ops generalizing kv with
  | nil =>
    simp only [KVStore.run, Option.some.injEq] at h
    subst h
    exact ⟨by simp [encodeAll], fun _ hx => absurd hx (List.not_mem_nil _)⟩
  | cons op ops ih =>
    simp only [KVStore.run] at h
    cases ha : kv.apply op with
    | none => rw [ha] at h; cases h
    | some kv1 =>
      rw [ha, Option.some_bind] at h
      obtain ⟨enc, he, hf⟩ := apply_file kv kv1 op ha
      obtain ⟨⟨e2, hg⟩, _⟩ := run_grows ops kv1 kv2 h
      obtain ⟨ih1, ih2⟩ := ih kv1 h
      have hel := Encode_length _ _ he
      have hsz : 13 + op.record.Key.length + op.record.Value.length < 2 ^ 32 := by
        have : kv2.file.length = kv.file.length + enc.length + e2.length := by
          rw [hg, hf, List.length_append, List.length_append]
        omega
      have hlay : enc = op.record.layout := by
        have := Encode_eq_layout op.record (by omega)
        rw [he] at this
        exact Option.some.inj this
      refine ⟨?_, ?_⟩
      · rw [ih1, hf, hlay, List.map_cons, encodeAll_cons, List.append_assoc]
      · intro o ho
        rcases List.mem_cons.mp ho with rfl | ho
        · exact ⟨(Op.record_Flags o).1, (Op.record_Flags o).2, hsz⟩
        · exact ih2 o ho

theorem indexRecords_Get_other (rs : List Record) (index : Index) (offset : Nat)
    (k : List Nat) (h : ∀ r ∈ rs, r.Key ≠ k) :
    (indexRecords rs index offset).Get k = index.Get k := by
  induction rs generalizing index offset with
  | nil => rfl
  | cons r rs ih =>
    rw [indexRecords, ih _ _ (fun x hx => h x (List.mem_cons_of_mem _ hx)),
      Index.Get_Add_other _ _ _ _ (fun hc => h r (List.mem_cons_self _ _) hc.symm)]

theorem indexRecords_append (rs1 rs2 : List Record) (index : Index) (offset : Nat)
    (h : offset + (encodeAll rs1).length < 2 ^ 32) :
    indexRecords (rs1 ++ rs2) index offset
      = indexRecords rs2 (indexRecords rs1 index offset) (offset + (encodeAll rs1).length) := by
  induction rs1 generalizing index offset with
  | nil => simp [indexRecords, encodeAll]
  | cons r rs ih =>
    rw [encodeAll_cons, List.length_append, Record.layout_length] at h
    have e : (offset + r.RawSize % 2 ^ 32) % 2 ^ 32
        = offset + (13 + r.Key.length + r.Value.length) := by
      simp only [Record.RawSize, metaSize]
      omega
    rw [List.cons_append, indexRecords, indexRecords, e, ih _ _ (by omega), encodeAll_cons,
      List.length_append, Record.layout_length]
    congr 1
    omega

/-- After `RebuildIndex` on a file of sound records that fits the buffer, the
index entry of a key is the offset of the last record with that key. -/
theorem indexRecords_Get_last (rs1 rs2 : List Record) (r : Record) (index : Index)
    (hlen : (encodeAll rs1).length < 2 ^ 32) (hlast : ∀ x ∈ rs2, x.Key ≠ r.Key) :
    (indexRecords (rs1 ++ r :: rs2) index 0).Get r.Key
      = .ok (Uint32ToBytes (encodeAll rs1).length) := by
  rw [indexRecords_append rs1 (r :: rs2) index 0 (by omega), indexRecords,
    indexRecords_Get_other _ _ _ _ hlast, Index.Get_Add_same, Nat.zero_add]

theorem scanBufferSize_lt (M : Nat) : scanBufferSize M < 2 ^ 32 := by
  unfold scanBufferSize
  have := Nat.mod_lt (M + metaSize) (show 0 < 4096 by norm_num)
  omega

/-- C9 (amended): for every sequence of Put and Delete calls on a new KVStore
followed by Close, where the file is no longer than the buffer that
`RebuildIndex` scans with, `((M + 13) % 4096 + 1) * 4096` bytes, a new KVStore
opened on the same file with a fresh index satisfies after `RebuildIndex`
(which returns no error): for every key K whose last operation was
`Put(K, V)` with `len(K) + len(V)` at most the maximum record size M,
`Get(K)` returns V. Nothing is stated about longer files. -/
theorem rebuild_then_get (M : Nat) (ops1 ops2 : List Op) (key value : List Nat)
    (s : KVStore)
    (hrun : (NewKVStore [] M).run (ops1 ++ Op.Put key value :: ops2) = some s)
    (hlast : ∀ op ∈ ops2, op.key ≠ key)
    (hM : key.length + value.length ≤ M)
    (hfit : s.file.length ≤ scanBufferSize M) :
    ∃ s2, (NewKVStore s.Close M).RebuildIndex = .ok (s2, none) ∧
      s2.Get key = some (.ok value) := by
  have hB := scanBufferSize_lt M
  obtain ⟨hfile, hsound⟩ := run_file _ _ s hrun (by omega)
  simp only [NewKVStore, List.nil_append] at hfile
  have hs : ∀ r ∈ (ops1 ++ Op.Put key value :: ops2).map Op.record, r.Sound := by
    intro r hr
    obtain ⟨op, hop, rfl⟩ := List.mem_map.mp hr
    exact hsound op hop
  have hreb := RebuildIndex_encodeAll _ hs M NewIndex (by rw [← hfile]; exact hfit)
  rw [← hfile] at hreb
  refine ⟨_, hreb, ?_⟩
  have hsplit : (ops1 ++ Op.Put key value :: ops2).map Op.record
      = ops1.map Op.record ++ (⟨0, key, value⟩ : Record) :: ops2.map Op.record := by
    rw [List.map_append, List.map_cons]
    rfl
  have hfile2 : s.file = encodeAll (ops1.map Op.record) ++ Record.layout ⟨0, key, value⟩
      ++ encodeAll (ops2.map Op.record) := by
    rw [hfile, hsplit, encodeAll_append, encodeAll_cons, List.append_assoc]
  have hlen1 : (encodeAll (ops1.map Op.record)).length < 2 ^ 32 := by
    have := congrArg List.length hfile2
    rw [List.length_append, List.length_append] at this
    omega
  have hsz := (hsound (Op.Put key value) (by simp)).2.2
  apply Get_of_entry _ key value (encodeAll (ops1.map Op.record))
    (encodeAll (ops2.map Op.record))
  · rw [hsplit]
    exact indexRecords_Get_last _ _ ⟨0, key, value⟩ NewIndex hlen1 (by
      intro x hx
      obtain ⟨op, hop, rfl⟩ := List.mem_map.mp hx
      rw [Op.record_Key]
      exact hlast op hop)
  · exact hfile2
  · exact hlen1
  · exact hM
  · exact hsz

/-- C9, as stated, fails: on a store with maximum record size 4,
`Put("a", [1, 2, 3, 4])` succeeds and writes a record of 18 bytes. After
`Close`, a new store on the same file and `RebuildIndex` (which returns no
error and indexes the key), `Get("a")` reads only `4 + 13` bytes of the record
and the decoder panics instead of returning the value. -/
theorem rebuild_get_oversized_panics :
    ∃ s, (NewKVStore [] 4).run [Op.Put [97] [1, 2, 3, 4]] = some s ∧
      ∃ s2, (NewKVStore s.Close 4).RebuildIndex = .ok (s2, none) ∧ s2.Get [97] = none := by
  have hrun : (NewKVStore [] 4).run [Op.Put [97] [1, 2, 3, 4]]
      = some { index := NewIndex.Add [97] (Uint32ToBytes 0),
               file := encodeAll [⟨0, [97], [1, 2, 3, 4]⟩], maxRecordSize := 4 } := by
    show ((NewKVStore [] 4).Put [97] [1, 2, 3, 4]).bind (fun kv => some kv) = _
    rw [Put_eq _ _ _ (by decide)]
    simp [encodeAll, NewKVStore]
  have hreb := RebuildIndex_encodeAll [⟨0, [97], [1, 2, 3, 4]⟩]
    (by
      intro r hr
      rw [List.mem_singleton] at hr
      subst hr
      exact ⟨by decide, by decide, by decide⟩)
    4 NewIndex (by decide)
  refine ⟨_, hrun, _, hreb, ?_⟩
  decide!

/-- The theorem of C9 at a concrete input, with its hypotheses discharged. -/
theorem rebuild_then_get_witness :
    (∀ op ∈ [Op.Put [105] [3], Op.Delete [106]], op.key ≠ [104]) ∧
    [104].length + [1, 2].length ≤ 16 ∧
    ∃ s, (NewKVStore [] 16).run
        ([Op.Put [104] [9]] ++ Op.Put [104] [1, 2] :: [Op.Put [105] [3], Op.Delete [106]])
        = some s ∧ s.file.length ≤ scanBufferSize 16 ∧
      ∃ s2, (NewKVStore s.Close 16).RebuildIndex = .ok (s2, none) ∧
        s2.Get [104] = some (.ok [1, 2]) := by
  have hk : ∀ op ∈ [Op.Put [105] [3], Op.Delete [106]], op.key ≠ [104] := by decide
  have hall : ((NewKVStore [] 16).run
      ([Op.Put [104] [9]] ++ Op.Put [104] [1, 2] :: [Op.Put [105] [3], Op.Delete [106]])).any
        (fun s => decide (s.file.length ≤ scanBufferSize 16)) = true := by decide!
  cases h : (NewKVStore [] 16).run
      ([Op.Put [104] [9]] ++ Op.Put [104] [1, 2] :: [Op.Put [105] [3], Op.Delete [106]]) with
  | none => rw [h] at hall; cases hall
  | some s =>
    rw [h] at hall
    simp only [Option.any_some, decide_eq_true_eq] at hall
    exact ⟨hk, by decide, s, rfl, hall,
      rebuild_then_get 16 _ _ [104] [1, 2] s h hk (by decide) hall⟩

/-! ### Files longer than the buffer of the scanner -/

theorem headerKeyLen_take9 (a : List Nat) :
    headerKeyLen (a.take 9) = headerKeyLen a := by
  unfold headerKeyLen
  rw [List.drop_take, List.take_take]
  rfl

theorem headerValueLen_take9 (a : List Nat) :
    headerValueLen (a.take 9) = headerValueLen a := by
  unfold headerValueLen
  rw [List.drop_take, List.take_take]
  rfl

/-- The first `Scan` of a file that is longer than the buffer of the scanner
reads a buffer full of it. -/
theorem fill_NewScanner (file : List Nat) (M : Nat)
    (h : ((M + 13) % 4096 + 1) * 4096 < file.length) :
    (NewScanner file M).fill =
      (false, { r := file.drop (((M + 13) % 4096 + 1) * 4096),
                buf := file.take (((M + 13) % 4096 + 1) * 4096),
                start := 0, end_ := ((M + 13) % 4096 + 1) * 4096, token := none, err := none,
                maxTokenSize := M + 13 }) := by
  have hB : 0 < ((M + 13) % 4096 + 1) * 4096 := by omega
  generalize hBdef : ((M + 13) % 4096 + 1) * 4096 = B at h hB
  have h0 : ¬ (0 = B) := by omega
  have h1 : ¬ (B = 0) := by omega
  have hmin : min B file.length = B := Nat.min_eq_left (Nat.le_of_lt h)
  have hne : file ≠ [] := by
    intro hc
    rw [hc] at h
    simp at h
  simp [Scanner.fill, Scanner.shift, Scanner.read, NewScanner, metaSize, hBdef, h0, h1, hmin, hne]

/-- Panic of `Scanner.Scan`: the first call panics on a file that starts with a
record larger than the buffer of the scanner: the split function decodes the
buffer, which holds only the front of the record, and a slice expression runs
past its end. -/
theorem Scan_panics_of_large_record (M : Nat) (r : Record) (back : List Nat)
    (hsize : 13 + r.Key.length + r.Value.length < 2 ^ 32)
    (hbig : ((M + 13) % 4096 + 1) * 4096 < 13 + r.Key.length + r.Value.length) :
    (NewScanner (r.layout ++ back) M).Scan = .error Abort.panic := by
  have hl := Record.layout_length r
  have hlen : ((M + 13) % 4096 + 1) * 4096 < (r.layout ++ back).length := by
    rw [List.length_append]; omega
  have hB : 9 ≤ ((M + 13) % 4096 + 1) * 4096 := by omega
  have hfill := fill_NewScanner (r.layout ++ back) M hlen
  generalize ((M + 13) % 4096 + 1) * 4096 = B at hbig hlen hB hfill
  have hdec : Record.Decode ((r.layout ++ back).take B) = none := by
    apply Decode_of_short
    · rw [List.length_take]; omega
    · left
      have e9 : ((r.layout ++ back).take B).take 9 = (r.layout ++ back).take 9 := by
        rw [List.take_take, Nat.min_eq_left hB]
      rw [← headerKeyLen_take9, ← headerValueLen_take9, e9, headerKeyLen_take9,
        headerValueLen_take9, layout_headerKeyLen r back (by omega),
        layout_headerValueLen r back (by omega), List.length_take]
      omega
  unfold Scanner.Scan
  rw [Scanner.scanLoop]
  simp only
  rw [if_neg (by simp [NewScanner]), if_neg (by simp [NewScanner]), hfill]
  simp only [Bool.false_eq_true, if_false]
  rw [Scanner.scanLoop]
  simp only
  rw [if_pos (Or.inl (by omega))]
  have hs : split (List.drop 0 (List.take B (r.layout ++ back))) (B - 0)
      (decide ((none : Option ScanError) ≠ none)) = none := by
    unfold split Record.DecodeWindow
    simp only [ne_eq, not_true_eq_false, decide_False, Bool.false_and, Bool.false_eq_true,
      if_false, List.drop_zero, Nat.sub_zero]
    rw [if_neg (by omega), hdec]
    rfl
  rw [hs]

/-- Panic of `RebuildIndex`: it panics on a file that starts with a record larger
than the buffer of the scanner, in its first call of `Scan`. -/
theorem RebuildIndex_panics_of_large_record (M : Nat) (r : Record) (back : List Nat)
    (hsize : 13 + r.Key.length + r.Value.length < 2 ^ 32)
    (hbig : ((M + 13) % 4096 + 1) * 4096 < 13 + r.Key.length + r.Value.length) :
    (NewKVStore (r.layout ++ back) M).RebuildIndex = .error Abort.panic := by
  unfold KVStore.RebuildIndex
  simp only [NewKVStore]
  rw [KVStore.rebuildLoop, Scan_panics_of_large_record M r back hsize hbig]

theorem large_put_of_length (value : List Nat) (hv : value.length = 60000) :
    [104].length + value.length ≤ 1024 * 1024 ∧
    ∃ s, (NewKVStore [] (1024 * 1024)).run [Op.Put [104] value] = some s ∧
      (NewKVStore s.Close (1024 * 1024)).RebuildIndex = .error Abort.panic := by
  have hrun : (NewKVStore [] (1024 * 1024)).run [Op.Put [104] value]
      = some { index := NewIndex.Add [104] (Uint32ToBytes 0),
               file := Record.layout ⟨0, [104], value⟩, maxRecordSize := 1024 * 1024 } := by
    show ((NewKVStore [] (1024 * 1024)).Put [104] value).bind (fun kv => some kv) = _
    rw [Put_eq _ _ _ (by rw [hv]; decide)]
    rfl
  refine ⟨by rw [hv]; decide, _, hrun, ?_⟩
  have := RebuildIndex_panics_of_large_record (1024 * 1024) ⟨0, [104], value⟩ []
    (by simp only [hv]; decide) (by simp only [hv]; decide)
  rw [List.append_nil] at this
  exact this

/-- Files longer than the buffer of the scanner are not rebuilt. With the
maximum record size of 1 MiB that the repository's tests use, the scanner of
`RebuildIndex` gets a buffer of `(1048589 % 4096 + 1) * 4096 = 57344` bytes
and its split function never asks for more input: after a single `Put` of a
60000-byte value (well within the maximum record size) and `Close`,
`RebuildIndex` on the reopened store panics in `Record.Decode` (slice bounds
out of range) instead of indexing the key. -/
theorem rebuild_after_large_put_panics :
    [104].length + (List.replicate 60000 7).length ≤ 1024 * 1024 ∧
    ∃ s, (NewKVStore [] (1024 * 1024)).run [Op.Put [104] (List.replicate 60000 7)] = some s ∧
      (NewKVStore s.Close (1024 * 1024)).RebuildIndex = .error Abort.panic :=
  large_put_of_length _ (List.length_replicate _ _)

/-- C10 (the code falls short of it): after `Put("h", [1, 2])`, `Put("i", [3])`
and `Delete("h")` the key `"h"` is gone from the index; after `Close`, a new
store on the same file and `RebuildIndex` (which returns no error), the loop
has added the tombstone record to the index like any other record, and
`Get("h")` returns the tombstone's value `[0]` with no error instead of
`ErrItemNotFound`. -/
theorem rebuild_resurrects_deleted_key :
    ∃ s, (NewKVStore [] 4083).run [Op.Put [104] [1, 2], Op.Put [105] [3], Op.Delete [104]]
        = some s ∧
      s.Get [104] = some (.error Error.ErrItemNotFound) ∧
      ∃ s2, (NewKVStore s.Close 4083).RebuildIndex = .ok (s2, none) ∧
        s2.Get [104] = some (.ok [0]) ∧ s2.Get [105] = some (.ok [3]) := by
  have h : ((NewKVStore [] 4083).run
      [Op.Put [104] [1, 2], Op.Put [105] [3], Op.Delete [104]]).any (fun s =>
        decide (s.Get [104] = some (.error Error.ErrItemNotFound)) &&
        (match (NewKVStore s.Close 4083).RebuildIndex with
         | .ok (s2, none) =>
           decide (s2.Get [104] = some (.ok [0])) && decide (s2.Get [105] = some (.ok [3]))
         | _ => false)) = true := by decide!
  cases hr : (NewKVStore [] 4083).run
      [Op.Put [104] [1, 2], Op.Put [105] [3], Op.Delete [104]] with
  | none => rw [hr] at h; cases h
  | some s =>
    rw [hr] at h
    simp only [Option.any_some, Bool.and_eq_true, decide_eq_true_eq] at h
    refine ⟨s, rfl, h.1, ?_⟩
    have h2 := h.2
    cases hb : (NewKVStore s.Close 4083).RebuildIndex with
    | error a => rw [hb] at h2; cases h2
    | ok res =>
      obtain ⟨s2, e⟩ := res
      cases e with
      | some e => rw [hb] at h2; cases h2
      | none =>
        rw [hb] at h2
        simp only [Bool.and_eq_true, decide_eq_true_eq] at h2
        exact ⟨s2, rfl, h2.1, h2.2⟩

theorem bytesLess_trans (a b c : List Nat) (h1 : bytesLess a b = true)
    (h2 : bytesLess b c = true) : bytesLess a c = true := by
  induction a generalizing b c with
  | nil =>
    cases c with
    | nil =>
      cases b with
      | nil => simp [bytesLess] at h1
      | cons y ys => simp [bytesLess] at h2
    | cons z zs => simp [bytesLess]
  | cons x xs ih =>
    cases b with
    | nil => simp [bytesLess] at h1
    | cons y ys =>
      cases c with
      | nil => simp [bytesLess] at h2
      | cons z zs =>
        simp only [bytesLess] at h1 h2 ⊢
        by_cases hxy : x < y
        · by_cases hyz : y < z
          · simp [show x < z by omega]
          · by_cases hzy : z < y
            · simp [hyz, hzy] at h2
            · have : y = z := by omega
              subst this
              simp [hxy]
        · by_cases hyx : y < x
          · simp [hxy, hyx] at h1
          · have : x = y := by omega
            subst this
            simp only [hxy, if_false] at h1
            by_cases hxz : x < z
            · simp [hxz]
            · by_cases hzx : z < x
              · simp [hxz, hzx] at h2
              · simp only [hxz, hzx, if_false] at h2 ⊢
                exact ih ys zs h1 h2

theorem bytesLess_asymm (a b : List Nat) (h1 : bytesLess a b = true) :
    bytesLess b a = false := by
  cases h : bytesLess b a with
  | false => rfl
  | true =>
    have := bytesLess_trans a b a h1 h
    rw [bytesLess_irrefl] at this
    cases this

theorem mem_btreeSet (t : List Item) (item y : Item) (h : y ∈ btreeSet t item) :
    y = item ∨ y ∈ t := by
  induction t with
  | nil =>
    simp only [btreeSet, List.mem_singleton] at h
    exact Or.inl h
  | cons x xs ih =>
    unfold btreeSet at h
    split at h
    · rcases List.mem_cons.mp h with h | h
      · exact Or.inl h
      · exact Or.inr h
    · split at h
      · rcases List.mem_cons.mp h with h | h
        · exact Or.inr (h ▸ List.mem_cons_self _ _)
        · rcases ih h with h | h
          · exact Or.inl h
          · exact Or.inr (List.mem_cons_of_mem _ h)
      · rcases List.mem_cons.mp h with h | h
        · exact Or.inl h
        · exact Or.inr (List.mem_cons_of_mem _ h)

/-- Library `BTreeG.Set` keeps the items in strictly ascending order. -/
theorem btreeSet_sorted (t : List Item) (item : Item)
    (h : t.Pairwise fun a b => byKeys a b = true) :
    (btreeSet t item).Pairwise fun a b => byKeys a b = true := by
  induction t with
  | nil => simp [btreeSet]
  | cons x xs ih =>
    have hx := (List.pairwise_cons.mp h).1
    have hxs := (List.pairwise_cons.mp h).2
    unfold btreeSet
    split
    · rename_i h1
      refine List.pairwise_cons.mpr ⟨?_, h⟩
      intro y hy
      rcases List.mem_cons.mp hy with rfl | hy
      · exact h1
      · exact bytesLess_trans _ _ _ h1 (hx y hy)
    · rename_i h1
      split
      · rename_i h2
        refine List.pairwise_cons.mpr ⟨?_, ih hxs⟩
        intro y hy
        rcases mem_btreeSet xs item y hy with rfl | hy
        · exact h2
        · exact hx y hy
      · rename_i h2
        have hk : x.Key = item.Key := by
          apply (keysEquiv_iff x item).mp
          simp only [Bool.not_eq_true] at h1 h2
          simp [h1, h2]
        refine List.pairwise_cons.mpr ⟨?_, hxs⟩
        intro y hy
        have := hx y hy
        unfold byKeys at this ⊢
        rw [← hk]
        exact this

theorem btreeDelete_sorted (t : List Item) (item : Item)
    (h : t.Pairwise fun a b => byKeys a b = true) :
    (btreeDelete t item).Pairwise fun a b => byKeys a b = true :=
  List.Pairwise.filter _ h

/-- In a sorted index the lookup of the key of an item finds that item. -/
theorem btreeGet_of_mem (t : List Item) (item probe : Item)
    (h : t.Pairwise fun a b => byKeys a b = true) (hm : item ∈ t)
    (hk : probe.Key = item.Key) : btreeGet t probe = some item := by
  induction t with
  | nil => cases hm
  | cons x xs ih =>
    have hx := (List.pairwise_cons.mp h).1
    have hxs := (List.pairwise_cons.mp h).2
    unfold btreeGet at ih ⊢
    rw [List.find?_cons]
    rcases List.mem_cons.mp hm with rfl | hm
    · rw [(keysEquiv_iff item probe).mpr hk.symm]
    · have hne : (!byKeys x probe && !byKeys probe x) = false := by
        apply Bool.eq_false_iff.mpr
        intro hc
        have hxk := (keysEquiv_iff x probe).mp hc
        have hlt := hx item hm
        unfold byKeys at hlt
        rw [hxk, hk, bytesLess_irrefl] at hlt
        cases hlt
      rw [hne]
      exact ih hxs hm

theorem Index.Get_of_mem (i : Index) (item : Item) (h : i.Sorted) (hm : item ∈ i.t) :
    i.Get item.Key = .ok item.Val := by
  unfold Index.Get
  rw [btreeGet_of_mem i.t item ⟨item.Key, []⟩ h hm rfl]

/-- A key is in the index exactly when some item of the index has it. -/
theorem Index.Get_ok_iff (i : Index) (k : List Nat) :
    (∃ v, i.Get k = .ok v) ↔ ∃ item ∈ i.t, item.Key = k := by
  unfold Index.Get btreeGet
  constructor
  · rintro ⟨v, hv⟩
    cases hf : List.find? (fun x => !byKeys x ⟨k, []⟩ && !byKeys ⟨k, []⟩ x) i.t with
    | none => rw [hf] at hv; cases hv
    | some x =>
      refine ⟨x, List.mem_of_find?_eq_some hf, ?_⟩
      have := List.find?_some hf
      exact (keysEquiv_iff x ⟨k, []⟩).mp this
  · rintro ⟨item, hm, hk⟩
    cases hf : List.find? (fun x => !byKeys x ⟨k, []⟩ && !byKeys ⟨k, []⟩ x) i.t with
    | none =>
      rw [List.find?_eq_none] at hf
      have := hf item hm
      exact absurd ((keysEquiv_iff item ⟨k, []⟩).mpr hk) this
    | some x => exact ⟨x.Val, rfl⟩

/-- What a `Put` that returns has done. -/
theorem Put_some (kv kv2 : KVStore) (key value : List Nat) (h : kv.Put key value = some kv2) :
    ∃ enc, Record.Encode ⟨0, key, value⟩ = some enc ∧
      kv2 = { index := kv.index.Add key (Uint32ToBytes (kv.file.length % 2 ^ 32)),
              file := kv.file ++ enc, maxRecordSize := kv.maxRecordSize } := by
  simp only [KVStore.Put, KVStore.set, Bool.false_eq_true, if_false,
    IsTombstoned_put, Record.Write] at h
  cases he : (NewRecord key value 0).Encode with
  | none => rw [he] at h; cases h
  | some enc =>
    rw [he] at h
    simp only [Option.map_some', Option.some_bind, Option.some.injEq] at h
    exact ⟨enc, he, h.symm⟩

theorem SetBit_zero_Tombstoned : SetBit 0 Tombstoned = 2 := by decide

/-- The record `Delete` writes: flags `0x02`, the key, the value `[0]`. -/
theorem Tombstone_NewRecord (key : List Nat) :
    (NewRecord key [0] 0).Tombstone = ⟨2, key, [0]⟩ := by
  show (⟨SetBit 0 Tombstoned, key, [0]⟩ : Record) = ⟨2, key, [0]⟩
  rw [SetBit_zero_Tombstoned]

/-- What a `Delete` that returns has done. -/
theorem Delete_some (kv kv2 : KVStore) (key : List Nat) (h : kv.Delete key = some kv2) :
    ∃ enc, Record.Encode ⟨2, key, [0]⟩ = some enc ∧
      kv2 = { index := kv.index.Delete key, file := kv.file ++ enc,
              maxRecordSize := kv.maxRecordSize } := by
  simp only [KVStore.Delete, KVStore.set, if_true, IsTombstoned_delete, Record.Write] at h
  rw [Tombstone_NewRecord] at h
  cases he : Record.Encode ⟨2, key, [0]⟩ with
  | none => rw [he] at h; cases h
  | some enc =>
    rw [he] at h
    simp only [Option.map_some', Option.some_bind, Option.some.injEq] at h
    exact ⟨enc, rfl, h.symm⟩

/-- One call keeps the index sorted and its entries sound, as long as the file
stays below `2^32` bytes. -/
theorem apply_inv (P : List Nat → List Nat → Prop) (kv kv2 : KVStore) (op : Op)
    (h : kv.apply op = some kv2) (hlen : kv2.file.length < 2 ^ 32)
    (hs : kv.index.Sorted) (he : kv.EntriesSat P)
    (hP : ∀ k v, op = Op.Put k v → P k v) :
    kv2.index.Sorted ∧ kv2.EntriesSat P := by
  cases op with
  | Put key value =>
    obtain ⟨enc, henc, rfl⟩ := Put_some kv kv2 key value h
    simp only [List.length_append] at hlen
    have hel := Encode_length _ _ henc
    simp only at hel
    have hlay : enc = Record.layout ⟨0, key, value⟩ := by
      have := Encode_eq_layout ⟨0, key, value⟩ (by simp only; omega)
      rw [henc] at this
      exact Option.some.inj this
    refine ⟨btreeSet_sorted _ _ hs, ?_⟩
    intro item hitem
    rcases mem_btreeSet _ _ _ hitem with rfl | hm
    · refine ⟨kv.file, [], value, ?_, ?_, by omega, ?_, hP key value rfl⟩
      · simp only [List.append_nil, hlay]
      · simp only [Nat.mod_eq_of_lt (show kv.file.length < 2 ^ 32 by omega)]
      · show 13 + key.length + value.length < 2 ^ 32
        omega
    · obtain ⟨front, back, v, hf, hv, h1, h2, h3⟩ := he item hm
      exact ⟨front, back ++ enc, v, by simp only [hf, List.append_assoc], hv, h1, h2, h3⟩
  | Delete key =>
    obtain ⟨enc, henc, rfl⟩ := Delete_some kv kv2 key h
    refine ⟨btreeDelete_sorted _ _ hs, ?_⟩
    intro item hitem
    have hm : item ∈ kv.index.t := (List.mem_filter.mp hitem).1
    obtain ⟨front, back, v, hf, hv, h1, h2, h3⟩ := he item hm
    exact ⟨front, back ++ enc, v, by simp only [hf, List.append_assoc], hv, h1, h2, h3⟩

/-- A sequence of calls keeps the index sorted and its entries sound, as long
as the file stays below `2^32` bytes. -/
theorem run_inv (P : List Nat → List Nat → Prop) (ops : List Op) (kv kv2 : KVStore)
    (h : kv.run ops = some kv2) (hlen : kv2.file.length < 2 ^ 32)
    (hs : kv.index.Sorted) (he : kv.EntriesSat P)
    (hP : ∀ op ∈ ops, ∀ k v, op = Op.Put k v → P k v) :
    kv2.index.Sorted ∧ kv2.EntriesSat P := by
  induction ops generalizing kv with
  | nil =>
    simp only [KVStore.run, Option.some.injEq] at h
    subst h
    exact ⟨hs, he⟩
  | cons op ops ih =>
    simp only [KVStore.run] at h
    cases ha : kv.apply op with
    | none => rw [ha] at h; cases h
    | some kv1 =>
      rw [ha, Option.some_bind] at h
      obtain ⟨⟨e, hg⟩, _⟩ := run_grows ops kv1 kv2 h
      have hl1 : kv1.file.length < 2 ^ 32 := by
        have := congrArg List.length hg
        rw [List.length_append] at this
        omega
      obtain ⟨hs1, he1⟩ := apply_inv P kv kv1 op ha hl1 hs he
        (hP op (List.mem_cons_self _ _))
      exact ih kv1 h hs1 he1 (fun o ho => hP o (List.mem_cons_of_mem _ ho))

/-- The states a new store reaches by calls that fit its maximum record size,
with a file below `2^32` bytes: the index is sorted and every entry points to
a record that `Get` can read. -/
theorem run_new_inv (M : Nat) (ops : List Op) (s : KVStore)
    (hrun : (NewKVStore [] M).run ops = some s) (hfit : ∀ op ∈ ops, op.Fits M)
    (hfile : s.file.length < 2 ^ 32) :
    s.index.Sorted ∧ s.EntriesFit := by
  obtain ⟨_, hm⟩ := run_grows ops _ s hrun
  have := run_inv (fun key value => key.length + value.length ≤ M) ops _ s hrun hfile
    List.Pairwise.nil (fun item hi => absurd hi (List.not_mem_nil _))
    (fun op hop k v hk => by
      have := hfit op hop
      rw [hk] at this
      exact this)
  refine ⟨this.1, ?_⟩
  unfold KVStore.EntriesFit
  rw [hm]
  exact this.2

/-- An entry that fits is read back by `recordAt` as the record it points to. -/
theorem recordAt_of_entry (kv : KVStore) (key value front back : List Nat)
    (hfile : kv.file = front ++ Record.layout ⟨0, key, value⟩ ++ back)
    (hoff : front.length < 2 ^ 32)
    (hM : key.length + value.length ≤ kv.maxRecordSize)
    (hsize : 13 + key.length + value.length < 2 ^ 32) :
    kv.recordAt (BytesToUint32 (Uint32ToBytes front.length)) = some (⟨0, key, value⟩, none) := by
  rw [BytesToUint32_Uint32ToBytes _ hoff]
  unfold KVStore.recordAt
  rw [hfile]
  exact Read_at_record front back ⟨0, key, value⟩ _ (by norm_num) (by norm_num) hM hsize

/-- The loop of `Search` over items of a sorted index with fitting entries
returns one record per item, in the order of the items, each with the item's
key and the value `Get` returns for it. -/
theorem searchLoop_of_fit (kv : KVStore) (hs : kv.index.Sorted) (he : kv.EntriesFit)
    (items : List Item) (hsub : ∀ item ∈ items, item ∈ kv.index.t) :
    ∃ recs, kv.searchLoop items = some (.ok recs) ∧
      recs.map Record.Key = items.map Item.Key ∧
      ∀ r ∈ recs, kv.Get r.Key = some (.ok r.Value) := by
  induction items with
  | nil => exact ⟨[], rfl, rfl, fun r hr => absurd hr (List.not_mem_nil _)⟩
  | cons item items ih =>
    obtain ⟨recs, h1, h2, h3⟩ := ih (fun x hx => hsub x (List.mem_cons_of_mem _ hx))
    have hm := hsub item (List.mem_cons_self _ _)
    obtain ⟨front, back, value, hf, hv, ho, hz, hM⟩ := he item hm
    have hrec := recordAt_of_entry kv item.Key value front back hf ho hM hz
    refine ⟨⟨0, item.Key, value⟩ :: recs, ?_, ?_, ?_⟩
    · unfold KVStore.searchLoop
      simp only [hv, hrec, Option.some_bind, h1]
    · simp only [List.map_cons, h2]
    · intro r hr
      rcases List.mem_cons.mp hr with rfl | hr
      · exact Get_of_entry kv item.Key value front back
          (by rw [Index.Get_of_mem kv.index item hs hm, hv]) hf ho hM hz
      · exact h3 r hr

/-- On a sorted list the ascending iteration from a pivot visits exactly the
items that are not less than the pivot. -/
theorem mem_btreeAscend (t : List Item) (pivot x : Item)
    (h : t.Pairwise fun a b => byKeys a b = true) :
    x ∈ btreeAscend t pivot ↔ x ∈ t ∧ byKeys x pivot = false := by
  unfold btreeAscend
  induction t with
  | nil => simp
  | cons a t ih =>
    have ha := (List.pairwise_cons.mp h).1
    have ht := (List.pairwise_cons.mp h).2
    by_cases hp : byKeys a pivot = true
    · have hd : List.dropWhile (fun x => byKeys x pivot) (a :: t) =
          List.dropWhile (fun x => byKeys x pivot) t := by
        simp only [List.dropWhile_cons, hp, if_true]
      rw [hd, ih ht]
      constructor
      · rintro ⟨h1, h2⟩
        exact ⟨List.mem_cons_of_mem _ h1, h2⟩
      · rintro ⟨h1, h2⟩
        rcases List.mem_cons.mp h1 with rfl | h1
        · rw [hp] at h2; cases h2
        · exact ⟨h1, h2⟩
    · have hd : List.dropWhile (fun x => byKeys x pivot) (a :: t) = a :: t := by
        simp [List.dropWhile_cons, hp]
      rw [hd]
      constructor
      · intro h1
        refine ⟨h1, ?_⟩
        rcases List.mem_cons.mp h1 with rfl | h1
        · simpa using hp
        · cases hx : byKeys x pivot with
          | false => rfl
          | true => exact absurd (bytesLess_trans _ _ _ (ha x h1) hx) hp
      · exact fun h1 => h1.1

theorem btreeAscend_sorted (t : List Item) (pivot : Item)
    (h : t.Pairwise fun a b => byKeys a b = true) :
    (btreeAscend t pivot).Pairwise fun a b => byKeys a b = true :=
  List.Pairwise.sublist (List.dropWhile_sublist _) h

/-- On a sorted list the descending iteration from a pivot visits exactly the
items that are not greater than the pivot. -/
theorem mem_btreeDescend (t : List Item) (pivot x : Item)
    (h : t.Pairwise fun a b => byKeys a b = true) :
    x ∈ btreeDescend t pivot ↔ x ∈ t ∧ byKeys pivot x = false := by
  unfold btreeDescend
  rw [List.mem_reverse]
  induction t with
  | nil => simp
  | cons a t ih =>
    have ha := (List.pairwise_cons.mp h).1
    have ht := (List.pairwise_cons.mp h).2
    by_cases hp : byKeys pivot a = true
    · have hd : List.takeWhile (fun x => !byKeys pivot x) (a :: t) = [] := by
        simp [List.takeWhile_cons, hp]
      rw [hd]
      constructor
      · intro h1; cases h1
      · rintro ⟨h1, h2⟩
        rcases List.mem_cons.mp h1 with rfl | h1
        · rw [hp] at h2; cases h2
        · have := bytesLess_trans _ _ _ hp (ha x h1)
          unfold byKeys at h2
          rw [this] at h2
          cases h2
    · have hd : List.takeWhile (fun x => !byKeys pivot x) (a :: t) =
          a :: List.takeWhile (fun x => !byKeys pivot x) t := by
        simp [List.takeWhile_cons, hp]
      rw [hd, List.mem_cons, ih ht]
      constructor
      · rintro (rfl | ⟨h1, h2⟩)
        · exact ⟨List.mem_cons_self _ _, by simpa using hp⟩
        · exact ⟨List.mem_cons_of_mem _ h1, h2⟩
      · rintro ⟨h1, h2⟩
        rcases List.mem_cons.mp h1 with rfl | h1
        · exact Or.inl rfl
        · exact Or.inr ⟨h1, h2⟩

theorem btreeDescend_sorted (t : List Item) (pivot : Item)
    (h : t.Pairwise fun a b => byKeys a b = true) :
    (btreeDescend t pivot).Pairwise fun a b => byKeys b a = true := by
  unfold btreeDescend
  rw [List.pairwise_reverse]
  exact List.Pairwise.sublist (List.takeWhile_sublist _) h

theorem pairwise_keys_of_map (recs : List Record) (items : List Item)
    (R : List Nat → List Nat → Prop)
    (h : recs.map Record.Key = items.map Item.Key)
    (hp : items.Pairwise fun a b => R a.Key b.Key) :
    recs.Pairwise fun a b => R a.Key b.Key := by
  have h1 : (items.map Item.Key).Pairwise R := List.pairwise_map.mpr hp
  rw [← h] at h1
  exact List.pairwise_map.mp h1

/-- The range scan on a store whose index is sorted and whose entries fit. -/
theorem Search_of_inv (kv : KVStore) (hs : kv.index.Sorted) (he : kv.EntriesFit)
    (q : List Nat) (revert : Bool) :
    ∃ recs, kv.Search q revert = some (.ok recs) ∧
      recs.map Record.Key = (kv.index.Search q revert).map Item.Key ∧
      ∀ r ∈ recs, kv.Get r.Key = some (.ok r.Value) := by
  unfold KVStore.Search
  apply searchLoop_of_fit kv hs he
  intro item hitem
  unfold Index.Search at hitem
  cases revert with
  | true =>
    simp only [if_true] at hitem
    exact ((mem_btreeDescend _ _ _ hs).mp hitem).1
  | false =>
    simp only [Bool.false_eq_true, if_false] at hitem
    exact ((mem_btreeAscend _ _ _ hs).mp hitem).1

theorem Index.Has_iff (i : Index) (k : List Nat) :
    i.Has k = true ↔ ∃ v, i.Get k = .ok v := by
  unfold Index.Has
  cases i.Get k with
  | ok v => simp
  | error e => simp

theorem liveAfter_put (k key value : List Nat) (b : Bool) (ops : List Op) :
    liveAfter k b (Op.Put key value :: ops) = liveAfter k (if key = k then true else b) ops :=
  rfl

theorem liveAfter_delete (k key : List Nat) (b : Bool) (ops : List Op) :
    liveAfter k b (Op.Delete key :: ops) = liveAfter k (if key = k then false else b) ops :=
  rfl

/-- The index holds exactly the live keys. -/
theorem run_live (ops : List Op) (kv s : KVStore) (k : List Nat)
    (h : kv.run ops = some s) :
    s.index.Has k = liveAfter k (kv.index.Has k) ops := by
  induction ops generalizing kv with
  | nil =>
    simp only [KVStore.run, Option.some.injEq] at h
    subst h
    rfl
  | cons op ops ih =>
    simp only [KVStore.run] at h
    cases h1 : kv.apply op with
    | none => rw [h1] at h; cases h
    | some kv1 =>
      rw [h1] at h
      rw [ih kv1 h]
      cases op with
      | Put key value =>
        obtain ⟨enc, _, rfl⟩ := Put_some kv kv1 key value h1
        rw [liveAfter_put]
        by_cases hk : key = k
        · subst hk
          rw [if_pos rfl]
          simp only [Index.Has, Index.Get_Add_same]
        · rw [if_neg hk]
          simp only [Index.Has, Index.Get_Add_other _ _ _ _ (Ne.symm hk)]
      | Delete key =>
        obtain ⟨enc, _, rfl⟩ := Delete_some kv kv1 key h1
        rw [liveAfter_delete]
        by_cases hk : key = k
        · subst hk
          rw [if_pos rfl]
          simp only [Index.Has, Index.Get_Delete_same]
        · rw [if_neg hk]
          simp only [Index.Has, Index.Get_Delete_other _ _ _ (Ne.symm hk)]

theorem run_new_live (M : Nat) (ops : List Op) (s : KVStore) (k : List Nat)
    (h : (NewKVStore [] M).run ops = some s) :
    (∃ item ∈ s.index.t, item.Key = k) ↔ liveAfter k false ops = true := by
  rw [← Index.Get_ok_iff, ← Index.Has_iff, run_live ops _ s k h]
  rfl

/-! ### Range scans (C11, C12) -/

/-- C11, as stated, fails: on a store with maximum record size 4,
`Put("a", [1, 2, 3, 4])` succeeds, so "a" is a live key that is not below the
empty query key, but `Search("", false)` reads only `4 + 13` of the 18 bytes of
its record and the decoder panics: no record is returned. -/
theorem ascending_scan_oversized_panics :
    ∃ s, (NewKVStore [] 4).run [Op.Put [97] [1, 2, 3, 4]] = some s ∧
      liveAfter [97] false [Op.Put [97] [1, 2, 3, 4]] = true ∧
      bytesLess [97] [] = false ∧ s.Search [] false = none := by
  have h : ((NewKVStore [] 4).run [Op.Put [97] [1, 2, 3, 4]]).any (fun s =>
      decide (s.Search [] false = none)) = true := by decide!
  cases hr : (NewKVStore [] 4).run [Op.Put [97] [1, 2, 3, 4]] with
  | none => rw [hr] at h; cases h
  | some s =>
    rw [hr] at h
    simp only [Option.any_some, decide_eq_true_eq] at h
    exact ⟨s, rfl, by decide, by decide, h⟩

/-- C11 (amended): on a new KVStore with maximum record size M, after every
sequence of Put and Delete calls in which each Put has `len(key) + len(value)`
at most M and which leaves the file below `2^32` bytes, `Search(q, false)`
returns without error a list of records whose keys are in strictly ascending
byte order (so no key occurs twice), whose keys are exactly the live keys (last
call on the key is a Put) that are not below q, and each of which holds the
value that `Get` returns for its key. -/
theorem search_ascending (M : Nat) (ops : List Op) (s : KVStore) (q : List Nat)
    (hrun : (NewKVStore [] M).run ops = some s)
    (hfit : ∀ op ∈ ops, op.Fits M)
    (hfile : s.file.length < 2 ^ 32) :
    ∃ recs, s.Search q false = some (.ok recs) ∧
      recs.Pairwise (fun a b => bytesLess a.Key b.Key = true) ∧
      (∀ k, k ∈ recs.map Record.Key ↔ liveAfter k false ops = true ∧ bytesLess k q = false) ∧
      ∀ r ∈ recs, s.Get r.Key = some (.ok r.Value) := by
  obtain ⟨hs, he⟩ := run_new_inv M ops s hrun hfit hfile
  obtain ⟨recs, h1, h2, h3⟩ := Search_of_inv s hs he q false
  have hsearch : s.index.Search q false = btreeAscend s.index.t ⟨q, []⟩ := by
    simp [Index.Search]
  rw [hsearch] at h2
  refine ⟨recs, h1, ?_, ?_, h3⟩
  · exact pairwise_keys_of_map recs _ (fun a b => bytesLess a b = true) h2
      (btreeAscend_sorted _ _ hs)
  · intro k
    rw [h2, List.mem_map, ← run_new_live M ops s k hrun]
    constructor
    · rintro ⟨item, hi, rfl⟩
      obtain ⟨hm, hb⟩ := (mem_btreeAscend _ _ _ hs).mp hi
      exact ⟨⟨item, hm, rfl⟩, hb⟩
    · rintro ⟨⟨item, hm, rfl⟩, hb⟩
      exact ⟨item, (mem_btreeAscend _ _ _ hs).mpr ⟨hm, hb⟩, rfl⟩

/-- The theorem of C11 at a concrete input, with its hypotheses discharged. -/
theorem search_ascending_witness :
    (∀ op ∈ [Op.Put [1] [10], Op.Put [3] [30], Op.Put [2] [20], Op.Delete [3], Op.Put [4] [40]],
      op.Fits 16) ∧
    ∃ s, (NewKVStore [] 16).run
        [Op.Put [1] [10], Op.Put [3] [30], Op.Put [2] [20], Op.Delete [3], Op.Put [4] [40]]
        = some s ∧ s.file.length < 2 ^ 32 ∧
      ∃ recs, s.Search [2] false = some (.ok recs) ∧
        recs.Pairwise (fun a b => bytesLess a.Key b.Key = true) ∧
        (∀ k, k ∈ recs.map Record.Key ↔
          liveAfter k false
            [Op.Put [1] [10], Op.Put [3] [30], Op.Put [2] [20], Op.Delete [3], Op.Put [4] [40]]
            = true ∧ bytesLess k [2] = false) ∧
        ∀ r ∈ recs, s.Get r.Key = some (.ok r.Value) := by
  have hfit : ∀ op ∈ [Op.Put [1] [10], Op.Put [3] [30], Op.Put [2] [20], Op.Delete [3],
      Op.Put [4] [40]], op.Fits 16 := by
    intro op hop
    simp only [List.mem_cons, List.mem_singleton, List.not_mem_nil, or_false] at hop
    rcases hop with rfl | rfl | rfl | rfl | rfl <;> simp [Op.Fits]
  have hall : ((NewKVStore [] 16).run
      [Op.Put [1] [10], Op.Put [3] [30], Op.Put [2] [20], Op.Delete [3], Op.Put [4] [40]]).any
        (fun s => decide (s.file.length < 2 ^ 32)) = true := by decide!
  cases h : (NewKVStore [] 16).run
      [Op.Put [1] [10], Op.Put [3] [30], Op.Put [2] [20], Op.Delete [3], Op.Put [4] [40]] with
  | none => rw [h] at hall; cases hall
  | some s =>
    rw [h] at hall
    simp only [Option.any_some, decide_eq_true_eq] at hall
    exact ⟨hfit, s, rfl, hall, search_ascending 16 _ s [2] h hfit hall⟩

/-- C12, as stated, fails: on a store with maximum record size 4,
`Put("b", [9, 9, 9, 9, 9])` succeeds, so "b" is a live key that is not above
the query key `[255]`, but `Search([255], true)` reads only `4 + 13` of the 19
bytes of its record and the decoder panics: no record is returned. -/
theorem descending_scan_oversized_panics :
    ∃ s, (NewKVStore [] 4).run [Op.Put [98] [9, 9, 9, 9, 9]] = some s ∧
      liveAfter [98] false [Op.Put [98] [9, 9, 9, 9, 9]] = true ∧
      bytesLess [255] [98] = false ∧ s.Search [255] true = none := by
  have h : ((NewKVStore [] 4).run [Op.Put [98] [9, 9, 9, 9, 9]]).any (fun s =>
      decide (s.Search [255] true = none)) = true := by decide!
  cases hr : (NewKVStore [] 4).run [Op.Put [98] [9, 9, 9, 9, 9]] with
  | none => rw [hr] at h; cases h
  | some s =>
    rw [hr] at h
    simp only [Option.any_some, decide_eq_true_eq] at h
    exact ⟨s, rfl, by decide, by decide, h⟩

/-- C12 (amended): on a new KVStore with maximum record size M, after every
sequence of Put and Delete calls in which each Put has `len(key) + len(value)`
at most M and which leaves the file below `2^32` bytes, `Search(q, true)`
returns without error a list of records whose keys are in strictly descending
byte order (so no key occurs twice), whose keys are exactly the live keys (last
call on the key is a Put) that are not above q, and each of which holds the
value that `Get` returns for its key. -/
theorem search_descending (M : Nat) (ops : List Op) (s : KVStore) (q : List Nat)
    (hrun : (NewKVStore [] M).run ops = some s)
    (hfit : ∀ op ∈ ops, op.Fits M)
    (hfile : s.file.length < 2 ^ 32) :
    ∃ recs, s.Search q true = some (.ok recs) ∧
      recs.Pairwise (fun a b => bytesLess b.Key a.Key = true) ∧
      (∀ k, k ∈ recs.map Record.Key ↔ liveAfter k false ops = true ∧ bytesLess q k = false) ∧
      ∀ r ∈ recs, s.Get r.Key = some (.ok r.Value) := by
  obtain ⟨hs, he⟩ := run_new_inv M ops s hrun hfit hfile
  obtain ⟨recs, h1, h2, h3⟩ := Search_of_inv s hs he q true
  have hsearch : s.index.Search q true = btreeDescend s.index.t ⟨q, []⟩ := by
    simp [Index.Search]
  rw [hsearch] at h2
  refine ⟨recs, h1, ?_, ?_, h3⟩
  · exact pairwise_keys_of_map recs _ (fun a b => bytesLess b a = true) h2
      (btreeDescend_sorted _ _ hs)
  · intro k
    rw [h2, List.mem_map, ← run_new_live M ops s k hrun]
    constructor
    · rintro ⟨item, hi, rfl⟩
      obtain ⟨hm, hb⟩ := (mem_btreeDescend _ _ _ hs).mp hi
      exact ⟨⟨item, hm, rfl⟩, hb⟩
    · rintro ⟨⟨item, hm, rfl⟩, hb⟩
      exact ⟨item, (mem_btreeDescend _ _ _ hs).mpr ⟨hm, hb⟩, rfl⟩

/-- The theorem of C12 at a concrete input, with its hypotheses discharged. -/
theorem search_descending_witness :
    (∀ op ∈ [Op.Put [5] [50], Op.Put [7] [70], Op.Delete [5], Op.Put [6] [60], Op.Put [9] [90]],
      op.Fits 32) ∧
    ∃ s, (NewKVStore [] 32).run
        [Op.Put [5] [50], Op.Put [7] [70], Op.Delete [5], Op.Put [6] [60], Op.Put [9] [90]]
        = some s ∧ s.file.length < 2 ^ 32 ∧
      ∃ recs, s.Search [8] true = some (.ok recs) ∧
        recs.Pairwise (fun a b => bytesLess b.Key a.Key = true) ∧
        (∀ k, k ∈ recs.map Record.Key ↔
          liveAfter k false
            [Op.Put [5] [50], Op.Put [7] [70], Op.Delete [5], Op.Put [6] [60], Op.Put [9] [90]]
            = true ∧ bytesLess [8] k = false) ∧
        ∀ r ∈ recs, s.Get r.Key = some (.ok r.Value) := by
  have hfit : ∀ op ∈ [Op.Put [5] [50], Op.Put [7] [70], Op.Delete [5], Op.Put [6] [60],
      Op.Put [9] [90]], op.Fits 32 := by
    intro op hop
    simp only [List.mem_cons, List.mem_singleton, List.not_mem_nil, or_false] at hop
    rcases hop with rfl | rfl | rfl | rfl | rfl <;> simp [Op.Fits]
  have hall : ((NewKVStore [] 32).run
      [Op.Put [5] [50], Op.Put [7] [70], Op.Delete [5], Op.Put [6] [60], Op.Put [9] [90]]).any
        (fun s => decide (s.file.length < 2 ^ 32)) = true := by decide!
  cases h : (NewKVStore [] 32).run
      [Op.Put [5] [50], Op.Put [7] [70], Op.Delete [5], Op.Put [6] [60], Op.Put [9] [90]] with
  | none => rw [h] at hall; cases hall
  | some s =>
    rw [h] at hall
    simp only [Option.any_some, decide_eq_true_eq] at hall
    exact ⟨hfit, s, rfl, hall, search_descending 32 _ s [8] h hfit hall⟩

/-! ### The size of indexed records (C13) -/

/-- C13, as stated, fails: on a store with maximum record size 4,
`Put("c", [5, 6, 7, 8])` is accepted (`set` never compares a record with the
maximum record size); the index then points to offset 0, where the file holds
a record of raw size 18, more than `4 + 13`, and reading it there panics. -/
theorem put_accepts_oversized_record :
    ∃ s, (NewKVStore [] 4).run [Op.Put [99] [5, 6, 7, 8]] = some s ∧
      s.index.Get [99] = .ok (Uint32ToBytes 0) ∧
      Record.Encode ⟨0, [99], [5, 6, 7, 8]⟩ = some s.file ∧
      ¬ (Record.RawSize ⟨0, [99], [5, 6, 7, 8]⟩ ≤ 4 + 13) ∧
      s.recordAt (BytesToUint32 (Uint32ToBytes 0)) = none := by
  have h : ((NewKVStore [] 4).run [Op.Put [99] [5, 6, 7, 8]]).any (fun s =>
      decide (s.index.Get [99] = .ok (Uint32ToBytes 0)) &&
      decide (Record.Encode ⟨0, [99], [5, 6, 7, 8]⟩ = some s.file) &&
      (s.recordAt (BytesToUint32 (Uint32ToBytes 0))).isNone) = true := by decide!
  cases hr : (NewKVStore [] 4).run [Op.Put [99] [5, 6, 7, 8]] with
  | none => rw [hr] at h; cases h
  | some s =>
    rw [hr] at h
    simp only [Option.any_some, Bool.and_eq_true, decide_eq_true_eq,
      Option.isNone_iff_eq_none] at h
    exact ⟨s, rfl, h.1.1, h.1.2, by decide, h.2⟩

/-- C13 (amended): in every state reached from a new KVStore with maximum record
size M by Put and Delete calls in which each Put has `len(key) + len(value)` at
most M, the file staying below `2^32` bytes, every index entry points to the
encoding of a record with the entry's key whose raw size is at most `M + 13`,
and reading at that offset (from the `M + 13` bytes that `Get` reads) decodes
that record without error. -/
theorem indexed_records_within_limit (M : Nat) (ops : List Op) (s : KVStore)
    (hrun : (NewKVStore [] M).run ops = some s)
    (hfit : ∀ op ∈ ops, op.Fits M)
    (hfile : s.file.length < 2 ^ 32) :
    ∀ item ∈ s.index.t, ∃ r : Record,
      r.Key = item.Key ∧ r.RawSize ≤ M + 13 ∧
      r.Encode = some ((s.file.drop (BytesToUint32 item.Val)).take r.RawSize) ∧
      s.recordAt (BytesToUint32 item.Val) = some (r, none) := by
  obtain ⟨hs, he⟩ := run_new_inv M ops s hrun hfit hfile
  obtain ⟨_, hm⟩ := run_grows ops _ s hrun
  have hM : s.maxRecordSize = M := hm
  intro item hi
  obtain ⟨front, back, value, hf, hv, hlt, hsize, hle⟩ := he item hi
  rw [hM] at hle
  refine ⟨⟨0, item.Key, value⟩, rfl, ?_, ?_, ?_⟩
  · show metaSize + item.Key.length + value.length ≤ M + 13
    simp only [metaSize]
    omega
  · rw [hv, BytesToUint32_Uint32ToBytes _ hlt, hf, List.append_assoc, List.drop_left' rfl]
    have hl : (Record.layout ⟨0, item.Key, value⟩).length = Record.RawSize ⟨0, item.Key, value⟩ := by
      rw [Record.layout_length]
      simp only [Record.RawSize, metaSize]
    rw [List.take_left' hl]
    exact Encode_eq_layout _ (by show 9 + item.Key.length + value.length < 2 ^ 32; omega)
  · rw [hv]
    exact recordAt_of_entry s item.Key value front back hf hlt (by rw [hM]; exact hle) hsize

/-- The theorem of C13 at a concrete input, with its hypotheses discharged. -/
theorem indexed_records_within_limit_witness :
    (∀ op ∈ [Op.Put [1, 2] [10], Op.Delete [7], Op.Put [3] [30, 31]], op.Fits 8) ∧
    ∃ s, (NewKVStore [] 8).run [Op.Put [1, 2] [10], Op.Delete [7], Op.Put [3] [30, 31]]
        = some s ∧ s.file.length < 2 ^ 32 ∧
      ∀ item ∈ s.index.t, ∃ r : Record,
        r.Key = item.Key ∧ r.RawSize ≤ 8 + 13 ∧
        r.Encode = some ((s.file.drop (BytesToUint32 item.Val)).take r.RawSize) ∧
        s.recordAt (BytesToUint32 item.Val) = some (r, none) := by
  have hfit : ∀ op ∈ [Op.Put [1, 2] [10], Op.Delete [7], Op.Put [3] [30, 31]],
      op.Fits 8 := by
    intro op hop
    simp only [List.mem_cons, List.mem_singleton, List.not_mem_nil, or_false] at hop
    rcases hop with rfl | rfl | rfl <;> simp [Op.Fits]
  have hall : ((NewKVStore [] 8).run
      [Op.Put [1, 2] [10], Op.Delete [7], Op.Put [3] [30, 31]]).any
        (fun s => decide (s.file.length < 2 ^ 32)) = true := by decide!
  cases h : (NewKVStore [] 8).run [Op.Put [1, 2] [10], Op.Delete [7], Op.Put [3] [30, 31]] with
  | none => rw [h] at hall; cases hall
  | some s =>
    rw [h] at hall
    simp only [Option.any_some, decide_eq_true_eq] at hall
    exact ⟨hfit, s, rfl, hall, indexed_records_within_limit 8 _ s h hfit hall⟩

/-! ### The log and the scanner (C14) -/

theorem large_put_scan_of_length (value : List Nat) (hv : value.length = 60000) :
    ∃ s, (NewKVStore [] (1024 * 1024)).run [Op.Put [107] value] = some s ∧
      s.file = encodeAll [Op.record (Op.Put [107] value)] ∧
      (NewScanner s.file (1024 * 1024)).Scan = .error Abort.panic := by
  have hrun : (NewKVStore [] (1024 * 1024)).run [Op.Put [107] value]
      = some { index := NewIndex.Add [107] (Uint32ToBytes 0),
               file := Record.layout ⟨0, [107], value⟩, maxRecordSize := 1024 * 1024 } := by
    show ((NewKVStore [] (1024 * 1024)).Put [107] value).bind (fun kv => some kv) = _
    rw [Put_eq _ _ _ (by rw [hv]; decide)]
    rfl
  refine ⟨_, hrun, ?_, ?_⟩
  · show Record.layout ⟨0, [107], value⟩ = encodeAll [NewRecord [107] value 0]
    rw [encodeAll_cons]
    show _ = Record.layout ⟨0, [107], value⟩ ++ []
    rw [List.append_nil]
  · have := Scan_panics_of_large_record (1024 * 1024) ⟨0, [107], value⟩ []
      (by simp only [hv]; decide) (by simp only [hv]; decide)
    rw [List.append_nil] at this
    exact this

/-- C14 (the code falls short of it): with the maximum record size of 1 MiB
that the repository's tests use, after the single call
`Put("k", 60000 bytes)` on an empty file the file is the encoding of that
call's record, as the claim says, but scanning it from offset 0 yields no
record: the scanner's buffer is `(1048589 % 4096 + 1) * 4096 = 57344` bytes,
the split function decodes what the buffer holds without asking for more
input, and the first `Scan` panics in `Record.Decode`. -/
theorem scanner_panics_on_written_log :
    ∃ s, (NewKVStore [] (1024 * 1024)).run [Op.Put [107] (List.replicate 60000 1)] = some s ∧
      s.file = encodeAll [Op.record (Op.Put [107] (List.replicate 60000 1))] ∧
      (NewScanner s.file (1024 * 1024)).Scan = .error Abort.panic :=
  large_put_scan_of_length _ (List.length_replicate _ _)

/-! ### Delete (C15) -/

theorem Delete_none_of_length (kv : KVStore) (key : List Nat)
    (hk : key.length = 2 ^ 32 - 10) : kv.Delete key = none := by
  have he : Record.Encode ⟨2, key, [0]⟩ = none := by
    apply Encode_none_of_wrap
    · simp only; omega
    · simp only [List.length_singleton]; norm_num
    · simp only [List.length_singleton]; omega
  simp only [KVStore.Delete, KVStore.set, if_true, Record.Write]
  rw [Tombstone_NewRecord, he]
  rfl

/-- C15, as stated, fails: for a key of `2^32 - 10` bytes the tombstone record
(value `[0]`) has `valEndPos = 9 + keyLen + 1 = 2^32`, which wraps to 0 in
`uint32`; `Record.Encode` panics in a slice expression, so `Delete` neither
appends a record nor changes the index. -/
theorem delete_long_key_panics :
    (NewKVStore [] 16).Delete (List.replicate (2 ^ 32 - 10) 0) = none :=
  Delete_none_of_length _ _ (List.length_replicate _ _)

/-- C15 (amended): for every store state and every key with
`len(key) + 10 < 2^32`, `Delete(key)` returns and the file afterwards is the
file before followed by the encoding of exactly one record, whose key is key,
whose value is `[0]` and whose flags are `0x02` (the tombstone bit, mask
`0x02`, is set); the bytes that were in the file stay in place; the index no
longer holds key, and its entries for other keys are unchanged. -/
theorem delete_appends_tombstone (kv : KVStore) (key : List Nat)
    (hk : key.length + 10 < 2 ^ 32) :
    ∃ kv2, kv.Delete key = some kv2 ∧
      Record.Encode ⟨2, key, [0]⟩ = some (kv2.file.drop kv.file.length) ∧
      kv2.file.take kv.file.length = kv.file ∧
      kv2.file.length = kv.file.length + Record.RawSize ⟨2, key, [0]⟩ ∧
      Record.IsTombstoned ⟨2, key, [0]⟩ = true ∧ byte 2 &&& 0x02 = 0x02 ∧
      kv2.index.Get key = .error Error.ErrItemNotFound ∧
      ∀ k, k ≠ key → kv2.index.Get k = kv.index.Get k := by
  have he : Record.Encode ⟨2, key, [0]⟩ = some (Record.layout ⟨2, key, [0]⟩) :=
    Encode_eq_layout _ (by simp only [List.length_singleton]; omega)
  have hd : kv.Delete key =
      some { index := kv.index.Delete key, file := kv.file ++ Record.layout ⟨2, key, [0]⟩,
             maxRecordSize := kv.maxRecordSize } := by
    simp only [KVStore.Delete, KVStore.set, if_true, IsTombstoned_delete, Record.Write]
    rw [Tombstone_NewRecord, he]
    rfl
  refine ⟨_, hd, ?_, ?_, ?_, ?_, ?_, ?_, ?_⟩
  · simp only [List.drop_left' rfl]
    exact he
  · simp only [List.take_left' rfl]
  · simp only [List.length_append, Record.layout_length, Record.RawSize, metaSize]
  · show HasBit 2 Tombstoned = true
    decide
  · decide
  · exact Index.Get_Delete_same _ _
  · intro k hne
    exact Index.Get_Delete_other _ _ _ hne

/-- The theorem of C15 at a concrete input, with its hypothesis discharged. -/
theorem delete_appends_tombstone_witness :
    [104, 105].length + 10 < 2 ^ 32 ∧
    ∃ kv2, (NewKVStore [7, 7, 7] 16).Delete [104, 105] = some kv2 ∧
      Record.Encode ⟨2, [104, 105], [0]⟩
        = some (kv2.file.drop (NewKVStore [7, 7, 7] 16).file.length) ∧
      kv2.file.take (NewKVStore [7, 7, 7] 16).file.length = (NewKVStore [7, 7, 7] 16).file ∧
      kv2.file.length
        = (NewKVStore [7, 7, 7] 16).file.length + Record.RawSize ⟨2, [104, 105], [0]⟩ ∧
      Record.IsTombstoned ⟨2, [104, 105], [0]⟩ = true ∧ byte 2 &&& 0x02 = 0x02 ∧
      kv2.index.Get [104, 105] = .error Error.ErrItemNotFound ∧
      ∀ k, k ≠ [104, 105] → kv2.index.Get k = (NewKVStore [7, 7, 7] 16).index.Get k :=
  ⟨by decide, delete_appends_tombstone (NewKVStore [7, 7, 7] 16) [104, 105] (by decide)⟩

/-! ### A corrupt tail (C16) -/

/-- When `Record.Decode` returns, the buffer holds all the bytes its header announces. -/
theorem Decode_some_fits (data : List Nat) (x : Record × Option Error)
    (h : Record.Decode data = some x) :
    9 ≤ data.length ∧ 13 + headerKeyLen data + headerValueLen data ≤ data.length ∧
      13 + headerKeyLen data + headerValueLen data < 2 ^ 32 := by
  by_cases h9 : 9 ≤ data.length
  · refine ⟨h9, ?_⟩
    by_contra hc
    rw [Decode_of_short data h9 (by omega)] at h
    cases h
  · exfalso
    unfold Record.Decode at h
    cases h0 : data.get? 0 with
    | none => rw [h0] at h; cases h
    | some b0 =>
      rw [h0] at h
      simp only [Option.some_bind] at h
      cases h1 : slice data 1 5 with
      | none => rw [h1] at h; cases h
      | some kl =>
        rw [h1] at h
        simp only [Option.some_bind] at h
        rw [slice_eq_none (Or.inr (by omega))] at h
        cases h

theorem headerKeyLen_append (data t : List Nat) (h9 : 9 ≤ data.length) :
    headerKeyLen (data ++ t) = headerKeyLen data := by
  unfold headerKeyLen
  rw [List.drop_append_of_le_length (by omega),
    List.take_append_of_le_length (by rw [List.length_drop]; omega)]

theorem headerValueLen_append (data t : List Nat) (h9 : 9 ≤ data.length) :
    headerValueLen (data ++ t) = headerValueLen data := by
  unfold headerValueLen
  rw [List.drop_append_of_le_length (by omega),
    List.take_append_of_le_length (by rw [List.length_drop]; omega)]

/-- What `Record.Decode` returns does not depend on the bytes behind the record. -/
theorem Decode_append_of_some (data t : List Nat) (x : Record × Option Error)
    (h : Record.Decode data = some x) : Record.Decode (data ++ t) = some x := by
  obtain ⟨h9, hfit, hwrap⟩ := Decode_some_fits data x h
  have hK := headerKeyLen_append data t h9
  have hV := headerValueLen_append data t h9
  rw [← h, Decode_of_fits data h9 hfit hwrap,
    Decode_of_fits (data ++ t) (by rw [List.length_append]; omega)
      (by rw [hK, hV, List.length_append]; omega) (by rw [hK, hV]; exact hwrap)]
  simp only [hK, hV]
  generalize headerKeyLen data = K at hfit hwrap
  generalize headerValueLen data = V at hfit hwrap
  have e0 : (data ++ t).getD 0 0 = data.getD 0 0 := by
    cases data with
    | nil => simp at h9
    | cons b rest => rfl
  have e1 : ((data ++ t).drop 9).take K = (data.drop 9).take K := by
    rw [List.drop_append_of_le_length (by omega),
      List.take_append_of_le_length (by rw [List.length_drop]; omega)]
  have e2 : ((data ++ t).drop (9 + K)).take V = (data.drop (9 + K)).take V := by
    rw [List.drop_append_of_le_length (by omega),
      List.take_append_of_le_length (by rw [List.length_drop]; omega)]
  have e3 : (data ++ t).take (9 + K + V) = data.take (9 + K + V) :=
    List.take_append_of_le_length (by omega)
  have e4 : ((data ++ t).drop (9 + K + V)).take 4 = (data.drop (9 + K + V)).take 4 := by
    rw [List.drop_append_of_le_length (by omega),
      List.take_append_of_le_length (by rw [List.length_drop]; omega)]
  rw [e0, e1, e2, e3, e4]

/-- With bytes that fail the CRC check at the window of a loaded scanner,
`Scan` records the error of the split function and returns `false`. -/
theorem scanLoop_loaded_bad_eq (f : Nat) (front tail : List Nat) (M : Nat)
    (token : Option (Nat × Nat)) (rec : Record) (err : Error)
    (hbad : Record.Decode tail = some (rec, some err)) :
    Scanner.scanLoop (f + 1) (Scanner.loaded (front ++ tail) M front.length token)
      = .ok (false, (Scanner.loaded (front ++ tail) M front.length token).setErr
          (ScanError.Split err)) := by
  obtain ⟨h9, _, _⟩ := Decode_some_fits tail _ hbad
  have hsplit : split (List.drop front.length ((front ++ tail)
      ++ List.replicate (scanBufferSize M - (front ++ tail).length) 0))
      ((front ++ tail).length - front.length) false = some (0, none, some err) := by
    rw [List.append_assoc, List.drop_left' rfl]
    unfold split Record.DecodeWindow
    rw [if_neg (by simp), if_neg (by simp only [List.length_append]; omega),
      Decode_append_of_some tail _ _ hbad]
    rfl
  rw [Scanner.scanLoop]
  simp only [Scanner.loaded, ne_eq, not_true_eq_false, decide_False, or_false]
  rw [if_pos (by simp only [List.length_append]; omega), hsplit]

/-- The loop of `RebuildIndex` on a loaded scanner whose window holds encoded
records followed by bytes that fail the CRC check: the records are added to
the index at the running offset, and the loop ends at the bad bytes with no
error returned. -/
theorem rebuildLoop_loaded_bad (rs : List Record) (hs : ∀ r ∈ rs, r.Sound)
    (front tail : List Nat) (rec : Record) (err : Error)
    (hbad : Record.Decode tail = some (rec, some err))
    (M : Nat) (token : Option (Nat × Nat)) (index : Index) (offset fuel : Nat)
    (hfuel : rs.length < fuel) :
    KVStore.rebuildLoop fuel
      (Scanner.loaded (front ++ encodeAll rs ++ tail) M front.length token)
      index offset = .ok (indexRecords rs index offset, none) := by
  induction rs generalizing front token index offset fuel with
  | nil =>
    obtain ⟨f, rfl⟩ : ∃ f, fuel = f + 1 := ⟨fuel - 1, by omega⟩
    have hs2 := scanLoop_loaded_bad_eq 2 front tail M token rec err hbad
    rw [KVStore.rebuildLoop]
    unfold Scanner.Scan
    have e : front ++ encodeAll [] ++ tail = front ++ tail := by simp [encodeAll]
    rw [e, hs2]
    rfl
  | cons r rs ih =>
    obtain ⟨f, rfl⟩ : ∃ f, fuel = f + 1 := ⟨fuel - 1, by omega⟩
    have hr := hs r (List.mem_cons_self _ _)
    have e : front ++ encodeAll (r :: rs) ++ tail
        = front ++ r.layout ++ (encodeAll rs ++ tail) := by
      rw [encodeAll_cons]
      simp only [List.append_assoc]
    have e2 : front ++ r.layout ++ (encodeAll rs ++ tail)
        = (front ++ r.layout) ++ encodeAll rs ++ tail := by
      simp only [List.append_assoc]
    rw [KVStore.rebuildLoop]
    unfold Scanner.Scan
    rw [e, scanLoop_loaded_record 2 front (encodeAll rs ++ tail) r M token hr]
    simp only
    rw [Record_loaded front (encodeAll rs ++ tail) r M _ hr]
    simp only
    have hpos : front.length + (13 + r.Key.length + r.Value.length)
        = (front ++ r.layout).length := by
      rw [List.length_append, Record.layout_length]
    rw [hpos, indexRecords, e2]
    exact ih (fun x hx => hs x (List.mem_cons_of_mem _ hx)) (front ++ r.layout) _ _ _ f
      (by simp only [List.length_cons] at hfuel; omega)

/-- The first `Scan` of `RebuildIndex` on a non-empty file that fits the buffer
loads the file and then does what a `Scan` of the loaded scanner does. -/
theorem Scan_NewScanner_of_loaded (file : List Nat) (M : Nat) (hne : file ≠ [])
    (hfit : file.length ≤ scanBufferSize M) :
    (NewScanner file M).Scan = Scanner.scanLoop 2 (Scanner.loaded file M 0 none) := by
  have hfill := fill_NewScanner_fits file M hne hfit
  unfold Scanner.Scan
  rw [Scanner.scanLoop]
  simp only
  rw [if_neg (by simp [NewScanner]), if_neg (by simp [NewScanner]), hfill]
  simp only [Bool.false_eq_true, if_false]

/-- On a file that fits the buffer of the scanner and holds the encodings of
sound records followed by bytes that fail the CRC check, `RebuildIndex`
returns no error; the index is what adding every record before the bad bytes
at its offset produces. -/
theorem RebuildIndex_stops_at_bad_tail (rs : List Record) (hs : ∀ r ∈ rs, r.Sound)
    (tail : List Nat) (rec : Record) (err : Error)
    (hbad : Record.Decode tail = some (rec, some err)) (M : Nat) (index : Index)
    (hfit : (encodeAll rs ++ tail).length ≤ scanBufferSize M) :
    KVStore.RebuildIndex { index := index, file := encodeAll rs ++ tail, maxRecordSize := M }
      = .ok ({ index := indexRecords rs index 0, file := encodeAll rs ++ tail,
               maxRecordSize := M }, none) := by
  obtain ⟨h9, _, _⟩ := Decode_some_fits tail _ hbad
  have hne : encodeAll rs ++ tail ≠ [] := by
    intro hc
    have := congrArg List.length hc
    rw [List.length_append] at this
    simp only [List.length_nil] at this
    omega
  have hlen : rs.length < (encodeAll rs ++ tail).length + 1 := by
    have := length_le_encodeAll rs
    rw [List.length_append]
    omega
  have hl := rebuildLoop_loaded_bad rs hs [] tail rec err hbad M none index 0
    ((encodeAll rs ++ tail).length + 1) hlen
  simp only [List.nil_append, List.length_nil] at hl
  have hscan : (NewScanner (encodeAll rs ++ tail) M).Scan
      = (Scanner.loaded (encodeAll rs ++ tail) M 0 none).Scan := by
    rw [Scan_NewScanner_of_loaded _ M hne hfit]
    unfold Scanner.Scan
    cases rs with
    | nil =>
      have e : encodeAll [] ++ tail = tail := by simp [encodeAll]
      rw [e]
      have h2 := scanLoop_loaded_bad_eq 1 [] tail M none rec err hbad
      have h3 := scanLoop_loaded_bad_eq 2 [] tail M none rec err hbad
      simp only [List.nil_append, List.length_nil] at h2 h3
      rw [h2, h3]
    | cons r rs =>
      have hr := hs r (List.mem_cons_self _ _)
      have e : encodeAll (r :: rs) ++ tail = [] ++ r.layout ++ (encodeAll rs ++ tail) := by
        rw [encodeAll_cons]
        simp only [List.nil_append, List.append_assoc]
      have h2 := scanLoop_loaded_record 1 [] (encodeAll rs ++ tail) r M none hr
      have h3 := scanLoop_loaded_record 2 [] (encodeAll rs ++ tail) r M none hr
      rw [← e] at h2 h3
      simp only [List.length_nil] at h2 h3
      rw [h2, h3]
  unfold KVStore.RebuildIndex
  simp only
  rw [KVStore.rebuildLoop, hscan, ← KVStore.rebuildLoop, hl]

theorem corrupt_tail_of_length (value : List Nat) (hv : value.length = 60000) :
    Record.Sound ⟨0, [104], value⟩ ∧
    (∃ rec err, Record.Decode [0, 1, 0, 0, 0, 0, 0, 0, 0, 97, 0, 0, 0, 0]
      = some (rec, some err)) ∧
    (NewKVStore (encodeAll [⟨0, [104], value⟩] ++ [0, 1, 0, 0, 0, 0, 0, 0, 0, 97, 0, 0, 0, 0])
      (1024 * 1024)).RebuildIndex = .error Abort.panic := by
  refine ⟨⟨show (-128 : Int) ≤ 0 by decide, show (0 : Int) < 128 by decide,
    by simp only [hv]; decide⟩, ?_, ?_⟩
  · have h : (Record.Decode [0, 1, 0, 0, 0, 0, 0, 0, 0, 97, 0, 0, 0, 0]).any
        (fun x => x.2.isSome) = true := by decide!
    cases hd : Record.Decode [0, 1, 0, 0, 0, 0, 0, 0, 0, 97, 0, 0, 0, 0] with
    | none => rw [hd] at h; cases h
    | some x =>
      obtain ⟨rec, e⟩ := x
      rw [hd] at h
      cases e with
      | none => cases h
      | some err => exact ⟨rec, err, rfl⟩
  · rw [encodeAll_cons, show encodeAll [] = [] from rfl, List.append_nil]
    exact RebuildIndex_panics_of_large_record (1024 * 1024) ⟨0, [104], value⟩ _
      (by simp only [hv]; decide) (by simp only [hv]; decide)

/-- C16 (the code falls short of it): with the maximum record size of 1 MiB
that the repository's tests use, on a file made of one valid record (key "h",
a value of 60000 bytes) followed by 14 bytes that fail the CRC check,
`RebuildIndex` on a fresh index does not stop at the bad record and return:
the valid record is longer than the scanner's buffer of
`(1048589 % 4096 + 1) * 4096 = 57344` bytes, the split function decodes what
the buffer holds, and `RebuildIndex` panics in `Record.Decode`. -/
theorem rebuild_corrupt_tail_panics :
    Record.Sound ⟨0, [104], List.replicate 60000 3⟩ ∧
    (∃ rec err, Record.Decode [0, 1, 0, 0, 0, 0, 0, 0, 0, 97, 0, 0, 0, 0]
      = some (rec, some err)) ∧
    (NewKVStore (encodeAll [⟨0, [104], List.replicate 60000 3⟩]
        ++ [0, 1, 0, 0, 0, 0, 0, 0, 0, 97, 0, 0, 0, 0])
      (1024 * 1024)).RebuildIndex = .error Abort.panic :=
  corrupt_tail_of_length _ (List.length_replicate _ _)

/-- An entry the index returns is one of its items. -/
theorem Index.Get_ok_mem (i : Index) (k v : List Nat) (h : i.Get k = .ok v) :
    ∃ item ∈ i.t, item.Key = k ∧ item.Val = v := by
  unfold Index.Get btreeGet at h
  cases hf : List.find? (fun x => !byKeys x ⟨k, []⟩ && !byKeys ⟨k, []⟩ x) i.t with
  | none => rw [hf] at h; cases h
  | some x =>
    rw [hf] at h
    refine ⟨x, List.mem_of_find?_eq_some hf, ?_, ?_⟩
    · have := List.find?_some hf
      exact (keysEquiv_iff x ⟨k, []⟩).mp this
    · exact Except.ok.inj h

/-- Reading at the offset of an encoded record gives the same result after
bytes have been appended to the file, whether or not the record fits the
read buffer. -/
theorem Read_append_of_layout (front back enc : List Nat) (r : Record) (M : Nat)
    (hf1 : -128 ≤ r.Flags) (hf2 : r.Flags < 128)
    (hsize : 13 + r.Key.length + r.Value.length < 2 ^ 32) :
    Record.Read (front ++ r.layout ++ back ++ enc) front.length M
      = Record.Read (front ++ r.layout ++ back) front.length M := by
  by_cases hM : r.Key.length + r.Value.length ≤ M
  · rw [Read_at_record front back r M hf1 hf2 hM hsize, List.append_assoc _ back enc,
      Read_at_record front (back ++ enc) r M hf1 hf2 hM hsize]
  · have hl := Record.layout_length r
    unfold Record.Read
    simp only [metaSize, List.length_replicate]
    have e1 : List.take (M + 13) (List.drop front.length (front ++ r.layout ++ back ++ enc))
        = r.layout.take (M + 13) := by
      rw [List.append_assoc, List.append_assoc, List.drop_left' rfl,
        List.take_append_of_le_length (by omega)]
    have e2 : List.take (M + 13) (List.drop front.length (front ++ r.layout ++ back))
        = r.layout.take (M + 13) := by
      rw [List.append_assoc, List.drop_left' rfl, List.take_append_of_le_length (by omega)]
    rw [e1, e2]

/-- Appending to the file does not change what `Get` returns for a key whose
index entry stays as it was, as long as every index entry points to an
encoded record. -/
theorem Get_append_frame (kv : KVStore) (he : kv.EntriesSat fun _ _ => True)
    (enc : List Nat) (index2 : Index) (k : List Nat)
    (hidx : index2.Get k = kv.index.Get k) :
    KVStore.Get { index := index2, file := kv.file ++ enc,
                  maxRecordSize := kv.maxRecordSize } k = kv.Get k := by
  unfold KVStore.Get
  simp only [hidx]
  cases hg : kv.index.Get k with
  | error e => rfl
  | ok v =>
    obtain ⟨item, hm, hk, hv⟩ := Index.Get_ok_mem kv.index k v hg
    obtain ⟨front, back, value, hfile, hval, hlt, hsize, _⟩ := he item hm
    simp only [KVStore.recordAt]
    rw [← hv, hval, BytesToUint32_Uint32ToBytes _ hlt, hfile,
      Read_append_of_layout front back enc ⟨0, item.Key, value⟩ kv.maxRecordSize
        (by norm_num) (by norm_num) hsize]

theorem Decode_zeros_8205 :
    Record.Decode (List.replicate (4096 * 2 + 13) 0)
      = some (⟨0, [], []⟩, some (Error.CRCCheckFailed 3859354798 0)) := by decide!

/-! ### Bit helpers of the flags byte (C40) -/

set_option maxRecDepth 1000000 in
/-- Below the sign bit, `HasBit` sees the bit that `SetBit` has set. -/
theorem HasBit_SetBit_below_sign :
    ∀ i : Fin 256, ∀ pos : Fin 7,
      HasBit (SetBit ((i.val : Int) - 128) pos.val) pos.val = true := by
  decide!

set_option maxRecDepth 1000000 in
/-- At every position, `HasBit` is false after `ClearBit`. -/
theorem HasBit_ClearBit :
    ∀ i : Fin 256, ∀ pos : Fin 8,
      HasBit (ClearBit ((i.val : Int) - 128) pos.val) pos.val = false := by
  decide!

set_option maxRecDepth 1000000 in
/-- At every position, `SetBit` and `ClearBit` change no other bit of the byte. -/
theorem SetBit_ClearBit_frame :
    ∀ i : Fin 256, ∀ pos : Fin 8, ∀ q : Fin 8, q ≠ pos →
      (byte (SetBit ((i.val : Int) - 128) pos.val)).testBit q.val
          = (byte ((i.val : Int) - 128)).testBit q.val ∧
      (byte (ClearBit ((i.val : Int) - 128) pos.val)).testBit q.val
          = (byte ((i.val : Int) - 128)).testBit q.val := by
  decide!

set_option maxRecDepth 1000000 in
/-- The bit at the position is set in the result of `SetBit` and clear in the
result of `ClearBit`, the sign bit included. -/
theorem SetBit_ClearBit_bit :
    ∀ i : Fin 256, ∀ pos : Fin 8,
      (byte (SetBit ((i.val : Int) - 128) pos.val)).testBit pos.val = true ∧
      (byte (ClearBit ((i.val : Int) - 128) pos.val)).testBit pos.val = false := by
  decide!

set_option maxRecDepth 1000000 in
/-- `HasBit` never sees the sign bit: `n & (1 << 7)` is `-128` or `0`, and
neither is greater than `0`. -/
theorem HasBit_sign_false : ∀ i : Fin 256, HasBit ((i.val : Int) - 128) 7 = false := by
  decide!

/-- C40 (the code falls short of it): at position 7, `SetBit(0, 7)` is `-128`,
the value of type `int8` whose bit 7 is set and whose other bits are clear,
and `HasBit(SetBit(0, 7), 7)` is false: `HasBit` compares `n & (1 << pos)`
with `> 0`, and at the sign bit that value is `-128`. -/
theorem has_bit_misses_sign_bit :
    SetBit 0 7 = -128 ∧ (byte (SetBit 0 7)).testBit 7 = true ∧
    HasBit (SetBit 0 7) 7 = false := by
  decide

/-! ### The buffer of the scanner (C33) -/

/-- The buffer that `NewScanner` allocates has `scanBufferSize` bytes. -/
theorem NewScanner_buf_length (r : List Nat) (M : Nat) :
    (NewScanner r M).buf.length = scanBufferSize M := by
  simp only [NewScanner, scanBufferSize, List.length_replicate]

/-- The buffer holds one record plus metadata when they take less than 4096
bytes. -/
theorem scanBufferSize_ge_of_small (M : Nat) (h : M + 13 < 4096) :
    M + 13 ≤ scanBufferSize M := by
  unfold scanBufferSize
  simp only [metaSize]
  rw [Nat.mod_eq_of_lt h]
  omega

/-- C33 (the code falls short of it): with the maximum record size of 1 MiB
that the repository's tests use, the buffer that `NewScanner` allocates has
`((1048576 + 13) % 4096 + 1) * 4096 = 57344` bytes, fewer than the
`1048576 + 13` bytes of one record plus metadata. -/
theorem scanner_buffer_below_record_size :
    (NewScanner [] (1024 * 1024)).buf.length = 57344 ∧
    57344 < 1024 * 1024 + metaSize := by
  refine ⟨?_, by decide⟩
  rw [NewScanner_buf_length]
  decide

/-! ### Offsets of `RebuildIndex` (C34) -/

/-- The length of a file of encoded records is the sum of their raw sizes. -/
theorem encodeAll_length (rs : List Record) :
    (encodeAll rs).length = (rs.map fun r => 13 + r.Key.length + r.Value.length).sum := by
  induction rs with
  | nil => rfl
  | cons r rs ih =>
    rw [encodeAll_cons, List.length_append, Record.layout_length, ih, List.map_cons,
      List.sum_cons]

/-- On a file of sound records that fits the buffer of the scanner,
`RebuildIndex` on any index returns no error and maps the key of a record
that no later record shares to the offset at which that record starts. -/
theorem RebuildIndex_offset_of_fit (rs1 rs2 : List Record) (r : Record) (M : Nat)
    (index : Index) (hs : ∀ x ∈ rs1 ++ r :: rs2, x.Sound)
    (hfit : (encodeAll (rs1 ++ r :: rs2)).length ≤ scanBufferSize M)
    (hlast : ∀ x ∈ rs2, x.Key ≠ r.Key) :
    ∃ kv2, KVStore.RebuildIndex
        { index := index, file := encodeAll (rs1 ++ r :: rs2), maxRecordSize := M }
        = .ok (kv2, none) ∧
      kv2.index.Get r.Key = .ok (Uint32ToBytes (encodeAll rs1).length) ∧
      BytesToUint32 (Uint32ToBytes (encodeAll rs1).length)
        = (rs1.map fun x => 13 + x.Key.length + x.Value.length).sum := by
  have hlen : (encodeAll rs1).length < 2 ^ 32 := by
    have h1 := scanBufferSize_lt M
    rw [encodeAll_append, List.length_append] at hfit
    omega
  refine ⟨_, RebuildIndex_encodeAll _ hs M index hfit, ?_, ?_⟩
  · exact indexRecords_Get_last rs1 rs2 r index hlen hlast
  · rw [BytesToUint32_Uint32ToBytes _ hlen, encodeAll_length]

theorem long_file_of_length (value : List Nat) (hv : value.length = 60000) :
    Record.Sound ⟨0, [104], value⟩ ∧ Record.Sound ⟨0, [105], [1]⟩ ∧
    (encodeAll [⟨0, [104], value⟩, ⟨0, [105], [1]⟩]).length < 2 ^ 32 ∧
    (NewKVStore (encodeAll [⟨0, [104], value⟩, ⟨0, [105], [1]⟩])
      (1024 * 1024)).RebuildIndex = .error Abort.panic := by
  refine ⟨⟨show (-128 : Int) ≤ 0 by decide, show (0 : Int) < 128 by decide,
    by simp only [hv]; decide⟩, ⟨by decide, by decide, by decide⟩, ?_, ?_⟩
  · rw [encodeAll_length]
    simp only [List.map_cons, List.map_nil, List.sum_cons, List.sum_nil, hv]
    decide
  · rw [encodeAll_cons]
    exact RebuildIndex_panics_of_large_record (1024 * 1024) ⟨0, [104], value⟩ _
      (by simp only [hv]; decide) (by simp only [hv]; decide)

/-- C34 (the code falls short of it): with the maximum record size of 1 MiB
that the repository's tests use, on the file made of two valid records (key
"h" with a value of 60000 bytes, then key "i" with a one-byte value, 60029
bytes in all) `RebuildIndex` on a fresh index maps no key to an offset: the
first record is longer than the scanner's buffer of 57344 bytes and
`RebuildIndex` panics in `Record.Decode`. -/
theorem rebuild_long_file_panics :
    Record.Sound ⟨0, [104], List.replicate 60000 5⟩ ∧ Record.Sound ⟨0, [105], [1]⟩ ∧
    (encodeAll [⟨0, [104], List.replicate 60000 5⟩, ⟨0, [105], [1]⟩]).length < 2 ^ 32 ∧
    (NewKVStore (encodeAll [⟨0, [104], List.replicate 60000 5⟩, ⟨0, [105], [1]⟩])
      (1024 * 1024)).RebuildIndex = .error Abort.panic :=
  long_file_of_length _ (List.length_replicate _ _)

/-! ### Decoding a record followed by other bytes (C36) -/

theorem decode_tail_of_length (key : List Nat) (hk : key.length = 2 ^ 32 - 13) :
    (∃ enc, Record.Encode ⟨0, key, []⟩ = some enc ∧ Record.Decode (enc ++ [7]) = none) ∧
    (∃ enc, Record.Encode ⟨0, [97], [1, 2, 3, 4, 5]⟩ = some enc ∧
      Record.Read (enc ++ [9]) 0 4 = none) := by
  constructor
  · refine ⟨_, Encode_eq_layout _ (by simp only [List.length_nil]; omega), ?_⟩
    have hK := layout_headerKeyLen ⟨0, key, []⟩ [7] (by simp only; omega)
    have hV := layout_headerValueLen ⟨0, key, []⟩ [7] (by simp only [List.length_nil]; omega)
    apply Decode_of_short
    · rw [List.length_append, Record.layout_length]; omega
    · right
      rw [hK, hV]
      simp only [List.length_nil]
      omega
  · refine ⟨_, Encode_eq_layout _ (by decide), ?_⟩
    decide!

/-- C36, as stated, fails: for the record with a key of `2^32 - 13` bytes and
an empty value the encoder returns and `Record.Decode` applied to its output
followed by one byte panics, because the end of the CRC field wraps to `0` in
`uint32`; and with maximum record size 4, the fixed-size read of `4 + 13`
bytes at the offset of the encoded record with key "a" and value
`[1, 2, 3, 4, 5]`, followed by one byte, holds only 17 of the record's 19
bytes and the decoder panics. -/
theorem decode_with_tail_panics :
    (∃ enc, Record.Encode ⟨0, List.replicate (2 ^ 32 - 13) 0, []⟩ = some enc ∧
      Record.Decode (enc ++ [7]) = none) ∧
    (∃ enc, Record.Encode ⟨0, [97], [1, 2, 3, 4, 5]⟩ = some enc ∧
      Record.Read (enc ++ [9]) 0 4 = none) :=
  decode_tail_of_length _ (List.length_replicate _ _)

/-- C36 (amended): for every record r with flags of type `int8` and
`13 + len(key) + len(value) < 2^32`, and every byte sequence t, the encoder
returns `RawSize(r)` bytes and `Record.Decode` applied to them followed by t
returns no error and yields r; and when `len(key) + len(value)` is at most
the maximum record size M, the fixed-size read of `M + 13` bytes done by
`recordAt` at the offset of the encoded record returns r with no error,
whatever precedes and follows it in the file. -/
theorem decode_ignores_tail (r : Record) (t : List Nat) (hs : r.Sound) :
    ∃ enc, r.Encode = some enc ∧ enc.length = r.RawSize ∧
      Record.Decode (enc ++ t) = some (r, none) ∧
      ∀ (front : List Nat) (index : Index) (M : Nat), r.Key.length + r.Value.length ≤ M →
        KVStore.recordAt { index := index, file := front ++ enc ++ t, maxRecordSize := M }
          front.length = some (r, none) := by
  refine ⟨_, Encode_eq_layout r (by have := hs.2.2; omega), ?_,
    Decode_layout_append r t hs.1 hs.2.1 hs.2.2, ?_⟩
  · rw [Record.layout_length]
    simp only [Record.RawSize, metaSize]
  · intro front index M hM
    exact Read_at_record front t r M hs.1 hs.2.1 hM hs.2.2

theorem decode_ignores_tail_witness :
    Record.Sound ⟨0, [97], [98]⟩ ∧
    ∃ enc, Record.Encode ⟨0, [97], [98]⟩ = some enc ∧
      enc.length = Record.RawSize ⟨0, [97], [98]⟩ ∧
      Record.Decode (enc ++ [1, 2]) = some (⟨0, [97], [98]⟩, none) ∧
      ∀ (front : List Nat) (index : Index) (M : Nat),
        (Record.Key ⟨0, [97], [98]⟩).length + (Record.Value ⟨0, [97], [98]⟩).length ≤ M →
        KVStore.recordAt { index := index, file := front ++ enc ++ [1, 2], maxRecordSize := M }
          front.length = some (⟨0, [97], [98]⟩, none) :=
  ⟨⟨by decide, by decide, by decide⟩,
   decode_ignores_tail ⟨0, [97], [98]⟩ [1, 2] ⟨by decide, by decide, by decide⟩⟩

/-! ### The offset that `Put` stores (C37) -/

theorem put_offset_of_length (file : List Nat) (h : file.length = 2 ^ 32 + 5) :
    ∃ kv2, (NewKVStore file 2).Put [97] [98] = some kv2 ∧
      ∃ v, kv2.index.Get [97] = .ok v ∧ BytesToUint32 v = 5 ∧
        BytesToUint32 v ≠ (NewKVStore file 2).file.length := by
  refine ⟨_, Put_eq _ _ _ (by decide), Uint32ToBytes ((NewKVStore file 2).file.length % 2 ^ 32),
    Index.Get_Add_same _ _ _, ?_, ?_⟩
  · show BytesToUint32 (Uint32ToBytes (file.length % 2 ^ 32)) = 5
    rw [h]
    decide
  · show BytesToUint32 (Uint32ToBytes (file.length % 2 ^ 32)) ≠ file.length
    rw [h]
    decide

/-- C37, as stated, fails: on a store whose file has `2^32 + 5` bytes,
`Put("a", "b")` succeeds and the offset stored in the index for the key
decodes to `5`, not to the length `2^32 + 5` of the file before the call:
the offset is stored as a `uint32`. -/
theorem put_offset_decodes_modulo :
    ∃ kv2, (NewKVStore (List.replicate (2 ^ 32 + 5) 0) 2).Put [97] [98] = some kv2 ∧
      ∃ v, kv2.index.Get [97] = .ok v ∧ BytesToUint32 v = 5 ∧
        BytesToUint32 v ≠ (NewKVStore (List.replicate (2 ^ 32 + 5) 0) 2).file.length :=
  put_offset_of_length _ (List.length_replicate _ _)

/-- C37 (amended): for every `Put(key, value)` that returns, on a KVStore
whose file has length L before the call, the offset stored in the index for
key decodes to `L mod 2^32`; it is exactly L, the byte position at which the
new record starts, for every `L < 2^32`. -/
theorem put_stores_offset (kv kv2 : KVStore) (key value : List Nat)
    (h : kv.Put key value = some kv2) :
    ∃ v, kv2.index.Get key = .ok v ∧ BytesToUint32 v = kv.file.length % 2 ^ 32 ∧
      (kv.file.length < 2 ^ 32 → BytesToUint32 v = kv.file.length) ∧
      ∃ enc, Record.Encode ⟨0, key, value⟩ = some enc ∧ kv2.file = kv.file ++ enc := by
  obtain ⟨enc, he, hkv⟩ := Put_some kv kv2 key value h
  subst hkv
  have hb := BytesToUint32_Uint32ToBytes (kv.file.length % 2 ^ 32)
    (Nat.mod_lt _ (by norm_num))
  refine ⟨_, Index.Get_Add_same _ _ _, hb, ?_, enc, he, rfl⟩
  intro hl
  rw [hb, Nat.mod_eq_of_lt hl]

theorem put_stores_offset_witness :
    (NewKVStore [1, 2, 3] 8).Put [97] [98]
      = some { index := NewIndex.Add [97] (Uint32ToBytes 3),
               file := [1, 2, 3] ++ Record.layout ⟨0, [97], [98]⟩, maxRecordSize := 8 } ∧
    ∃ v, (NewIndex.Add [97] (Uint32ToBytes 3)).Get [97] = .ok v ∧
      BytesToUint32 v = [1, 2, 3].length % 2 ^ 32 ∧
      ([1, 2, 3].length < 2 ^ 32 → BytesToUint32 v = [1, 2, 3].length) ∧
      ∃ enc, Record.Encode ⟨0, [97], [98]⟩ = some enc ∧
        [1, 2, 3] ++ Record.layout ⟨0, [97], [98]⟩ = [1, 2, 3] ++ enc :=
  ⟨Put_eq _ _ _ (by decide),
   put_stores_offset (NewKVStore [1, 2, 3] 8) _ [97] [98] (Put_eq _ _ _ (by decide))⟩

/-! ### Buffers shorter than their record (C5) -/

/-- C5, as stated, fails: the 9-byte buffer `[0, 1, 0, 0, 0, 0, 0, 0, 0]` (length
equal to capacity) holds a full header that announces a key of one byte, so
it is shorter than the 14 bytes of the record; `Decode` returns no error on
it, the slice expression `data[headerSize:keyEndPos]` panics. And on the
first 10 bytes of a backing array that holds the whole 15-byte encoding of
the record with key "h" and value `[1]`, a buffer shorter than the record it
announces, `Decode` reads past the length of the buffer and returns the
record with no error at all. -/
theorem decode_short_buffer_no_error :
    (9 ≤ [0, 1, 0, 0, 0, 0, 0, 0, 0].length ∧
      [0, 1, 0, 0, 0, 0, 0, 0, 0].length
        < 13 + headerKeyLen [0, 1, 0, 0, 0, 0, 0, 0, 0]
            + headerValueLen [0, 1, 0, 0, 0, 0, 0, 0, 0] ∧
      ¬ ∃ r e, Record.Decode [0, 1, 0, 0, 0, 0, 0, 0, 0] = some (r, some e)) ∧
    (9 ≤ ([0, 1, 0, 0, 0, 1, 0, 0, 0, 104, 1, 78, 216, 58, 149].take 10).length ∧
      ([0, 1, 0, 0, 0, 1, 0, 0, 0, 104, 1, 78, 216, 58, 149].take 10).length
        < 13 + headerKeyLen ([0, 1, 0, 0, 0, 1, 0, 0, 0, 104, 1, 78, 216, 58, 149].take 10)
            + headerValueLen ([0, 1, 0, 0, 0, 1, 0, 0, 0, 104, 1, 78, 216, 58, 149].take 10) ∧
      Record.DecodeWindow [0, 1, 0, 0, 0, 1, 0, 0, 0, 104, 1, 78, 216, 58, 149] 10
        = some (⟨0, [104], [1]⟩, none)) := by
  refine ⟨⟨by decide, by decide, ?_⟩, by decide, by decide, by decide!⟩
  have h : Record.Decode [0, 1, 0, 0, 0, 0, 0, 0, 0] = none := by decide
  rw [h]
  rintro ⟨r, e, h2⟩
  cases h2

/-- C5 (amended): for every buffer `data` that holds at least the 9-byte header
but is shorter than `13 + key_len + value_len` (lengths read from the
header), `Record.Decode` makes no length check. With length equal to
capacity it panics. With the bytes `spare` between its length and its
capacity: when the capacity is also below `13 + key_len + value_len`, or
that size does not fit 32 bits, a slice expression runs out of range and the
call panics; otherwise the slice expressions read past the length of the
buffer, the call returns, and the error is the CRC error exactly when the
u32 at bytes `9+K+V..13+K+V` of the backing array differs from the CRC32 of
its bytes `0..9+K+V`, and nil when they agree. -/
theorem decode_short_buffer (data spare : List Nat) (h9 : 9 ≤ data.length)
    (hshort : data.length < 13 + headerKeyLen data + headerValueLen data) :
    Record.Decode data = none ∧
    ((data ++ spare).length < 13 + headerKeyLen data + headerValueLen data ∨
        2 ^ 32 ≤ 13 + headerKeyLen data + headerValueLen data →
      Record.DecodeWindow (data ++ spare) data.length = none) ∧
    (13 + headerKeyLen data + headerValueLen data ≤ (data ++ spare).length →
      13 + headerKeyLen data + headerValueLen data < 2 ^ 32 →
      ∃ r, Record.DecodeWindow (data ++ spare) data.length
        = some (r,
            if ChecksumIEEE ((data ++ spare).take (9 + headerKeyLen data + headerValueLen data))
              ≠ BytesToUint32
                  (((data ++ spare).drop (9 + headerKeyLen data + headerValueLen data)).take 4)
            then some (Error.CRCCheckFailed
              (ChecksumIEEE ((data ++ spare).take (9 + headerKeyLen data + headerValueLen data)))
              (BytesToUint32
                (((data ++ spare).drop (9 + headerKeyLen data + headerValueLen data)).take 4)))
            else none)) := by
  have hK := headerKeyLen_append data spare h9
  have hV := headerValueLen_append data spare h9
  have hD : Record.DecodeWindow (data ++ spare) data.length = Record.Decode (data ++ spare) := by
    unfold Record.DecodeWindow
    rw [if_neg (by omega)]
  refine ⟨Decode_of_short data h9 (Or.inl hshort), ?_, ?_⟩
  · intro h
    rw [hD]
    apply Decode_of_short
    · rw [List.length_append]; omega
    · rw [hK, hV]; exact h
  · intro hfit hwrap
    rw [hD, Decode_of_fits (data ++ spare) (by rw [List.length_append]; omega)
      (by rw [hK, hV]; exact hfit) (by rw [hK, hV]; exact hwrap)]
    simp only [hK, hV]
    split
    · exact ⟨_, rfl⟩
    · exact ⟨_, rfl⟩

/-- The theorem of C5 at a concrete input, with its hypotheses discharged: a
10-byte buffer that announces a record of 15 bytes, with 6 more bytes up to
its capacity. -/
theorem decode_short_buffer_witness :
    9 ≤ [0, 1, 0, 0, 0, 1, 0, 0, 0, 104].length ∧
    [0, 1, 0, 0, 0, 1, 0, 0, 0, 104].length
      < 13 + headerKeyLen [0, 1, 0, 0, 0, 1, 0, 0, 0, 104]
          + headerValueLen [0, 1, 0, 0, 0, 1, 0, 0, 0, 104] ∧
    Record.Decode [0, 1, 0, 0, 0, 1, 0, 0, 0, 104] = none ∧
    (([0, 1, 0, 0, 0, 1, 0, 0, 0, 104] ++ [1, 0, 0, 0, 0, 5]).length
        < 13 + headerKeyLen [0, 1, 0, 0, 0, 1, 0, 0, 0, 104]
            + headerValueLen [0, 1, 0, 0, 0, 1, 0, 0, 0, 104] ∨
        2 ^ 32 ≤ 13 + headerKeyLen [0, 1, 0, 0, 0, 1, 0, 0, 0, 104]
            + headerValueLen [0, 1, 0, 0, 0, 1, 0, 0, 0, 104] →
      Record.DecodeWindow ([0, 1, 0, 0, 0, 1, 0, 0, 0, 104] ++ [1, 0, 0, 0, 0, 5]) [0, 1, 0, 0, 0, 1, 0, 0, 0, 104].length = none) ∧
    (13 + headerKeyLen [0, 1, 0, 0, 0, 1, 0, 0, 0, 104]
        + headerValueLen [0, 1, 0, 0, 0, 1, 0, 0, 0, 104] ≤ ([0, 1, 0, 0, 0, 1, 0, 0, 0, 104] ++ [1, 0, 0, 0, 0, 5]).length →
      13 + headerKeyLen [0, 1, 0, 0, 0, 1, 0, 0, 0, 104]
          + headerValueLen [0, 1, 0, 0, 0, 1, 0, 0, 0, 104] < 2 ^ 32 →
      ∃ r, Record.DecodeWindow ([0, 1, 0, 0, 0, 1, 0, 0, 0, 104] ++ [1, 0, 0, 0, 0, 5]) [0, 1, 0, 0, 0, 1, 0, 0, 0, 104].length
        = some (r,
            if ChecksumIEEE (([0, 1, 0, 0, 0, 1, 0, 0, 0, 104] ++ [1, 0, 0, 0, 0, 5]).take
                (9 + headerKeyLen [0, 1, 0, 0, 0, 1, 0, 0, 0, 104]
                  + headerValueLen [0, 1, 0, 0, 0, 1, 0, 0, 0, 104]))
              ≠ BytesToUint32 ((([0, 1, 0, 0, 0, 1, 0, 0, 0, 104] ++ [1, 0, 0, 0, 0, 5]).drop
                  (9 + headerKeyLen [0, 1, 0, 0, 0, 1, 0, 0, 0, 104]
                    + headerValueLen [0, 1, 0, 0, 0, 1, 0, 0, 0, 104])).take 4)
            then some (Error.CRCCheckFailed
              (ChecksumIEEE (([0, 1, 0, 0, 0, 1, 0, 0, 0, 104] ++ [1, 0, 0, 0, 0, 5]).take
                  (9 + headerKeyLen [0, 1, 0, 0, 0, 1, 0, 0, 0, 104]
                    + headerValueLen [0, 1, 0, 0, 0, 1, 0, 0, 0, 104])))
              (BytesToUint32 ((([0, 1, 0, 0, 0, 1, 0, 0, 0, 104] ++ [1, 0, 0, 0, 0, 5]).drop
                  (9 + headerKeyLen [0, 1, 0, 0, 0, 1, 0, 0, 0, 104]
                    + headerValueLen [0, 1, 0, 0, 0, 1, 0, 0, 0, 104])).take 4)))
            else none)) :=
  ⟨by decide, by decide,
    decode_short_buffer [0, 1, 0, 0, 0, 1, 0, 0, 0, 104] [1, 0, 0, 0, 0, 5] (by decide) (by decide)⟩

/-- The buffer of the witness of C5 decodes to the CRC error: the bytes past its
length do not carry the CRC of the record. -/
theorem decode_short_window_example :
    Record.DecodeWindow ([0, 1, 0, 0, 0, 1, 0, 0, 0, 104] ++ [1, 0, 0, 0, 0, 5]) 10
      = some (⟨0, [104], [1]⟩, some (Error.CRCCheckFailed 2503661646 0)) := by
  decide!

end kvstore

namespace file

/-! ## `fileEngine.go`: the blocks of a byte range (C17, C18) -/

theorem PickBlocks_ok (offset dataLen : Nat) (h : ¬ dataLen < offset) :
    PickBlocks offset dataLen = .ok [offset / 4096, (offset + dataLen) % 2 ^ 64 / 4096] := by
  unfold PickBlocks
  rw [if_neg h]
  rfl

/-- C17, as stated, fails: for the range `[0, 12288)` (`dataLen > 0`, no
overflow) `PickBlocks` succeeds and returns the two indexes 0 and 3; block 1
is touched by the range and is not returned, and block 3 is returned
although the range ends before it. -/
theorem pick_blocks_skips_middle_blocks :
    0 < 12288 ∧ 0 + 12288 < 2 ^ 64 ∧ PickBlocks 0 12288 = .ok [0, 3] ∧
      touched 0 12288 1 ∧ 1 ∉ [0, 3] ∧ 3 ∈ [0, 3] ∧ ¬ touched 0 12288 3 := by
  refine ⟨by decide, by decide, rfl, by decide, by decide, by decide, by decide⟩

/-- C17 (amended): for every offset and data length on which `PickBlocks`
succeeds, with `dataLen > 0` and no 64-bit overflow, it returns exactly two
block indexes: `offset / 4096`, the block of the first byte of the range, and
`(offset + dataLen) / 4096`, the block of the byte that follows the range.
Every block touched by the range lies between these two, and the returned
indexes are exactly the touched blocks if and only if the range does not end
on a block boundary and spans at most two blocks. -/
theorem pick_blocks_first_and_end (offset dataLen : Nat) (blocks : List Nat)
    (hp : PickBlocks offset dataLen = .ok blocks) (hpos : 0 < dataLen)
    (hov : offset + dataLen < 2 ^ 64) :
    blocks = [offset / 4096, (offset + dataLen) / 4096] ∧
      (∀ b, touched offset dataLen b →
        offset / 4096 ≤ b ∧ b ≤ (offset + dataLen) / 4096) ∧
      ((∀ b, b ∈ blocks ↔ touched offset dataLen b) ↔
        ((offset + dataLen) % 4096 ≠ 0 ∧ (offset + dataLen) / 4096 ≤ offset / 4096 + 1)) := by
  have hle : ¬ dataLen < offset := by
    intro hc
    unfold PickBlocks at hp
    rw [if_pos hc] at hp
    cases hp
  rw [PickBlocks_ok offset dataLen hle, Nat.mod_eq_of_lt hov] at hp
  have hb : blocks = [offset / 4096, (offset + dataLen) / 4096] := (Except.ok.inj hp).symm
  refine ⟨hb, ?_, ?_⟩
  · intro b hb
    unfold touched at hb
    refine ⟨hb.1, ?_⟩
    have : (offset + dataLen - 1) / 4096 ≤ (offset + dataLen) / 4096 :=
      Nat.div_le_div_right (Nat.sub_le _ _)
    omega
  · rw [hb]
    unfold touched
    simp only [List.mem_cons, List.mem_singleton, List.not_mem_nil, or_false]
    constructor
    · intro h
      have h1 := (h ((offset + dataLen) / 4096)).mp (Or.inr rfl)
      constructor
      · omega
      · by_contra hc
        have h2 := (h (offset / 4096 + 1)).mpr (by omega)
        omega
    · rintro ⟨h1, h2⟩ b
      constructor
      · rintro (rfl | rfl) <;> omega
      · intro h3
        omega

/-- The theorem of C17 at a concrete input, with its hypotheses discharged. -/
theorem pick_blocks_first_and_end_witness :
    PickBlocks 100 5000 = .ok [0, 1] ∧ 0 < 5000 ∧ 100 + 5000 < 2 ^ 64 ∧
    ([0, 1] = [100 / 4096, (100 + 5000) / 4096] ∧
      (∀ b, touched 100 5000 b → 100 / 4096 ≤ b ∧ b ≤ (100 + 5000) / 4096) ∧
      ((∀ b, b ∈ [0, 1] ↔ touched 100 5000 b) ↔
        ((100 + 5000) % 4096 ≠ 0 ∧ (100 + 5000) / 4096 ≤ 100 / 4096 + 1))) :=
  ⟨rfl, by decide, by decide,
    pick_blocks_first_and_end 100 5000 [0, 1] rfl (by decide) (by decide)⟩

/-- C18: for every offset and dataLen, `PickBlocks` returns an error if and
only if `dataLen < offset`, and it returns a block list (and no error) if
and only if `dataLen < offset` does not hold. -/
theorem pick_blocks_error_iff (offset dataLen : Nat) :
    ((∃ err, PickBlocks offset dataLen = .error err) ↔ dataLen < offset) ∧
      ((∃ blocks, PickBlocks offset dataLen = .ok blocks) ↔ ¬ dataLen < offset) := by
  by_cases h : dataLen < offset
  · have he : PickBlocks offset dataLen = .error EngineError.OffsetBiggerThanDataLength := by
      unfold PickBlocks
      rw [if_pos h]
    rw [he]
    refine ⟨⟨fun _ => h, fun _ => ⟨_, rfl⟩⟩, ⟨?_, fun hc => absurd h hc⟩⟩
    rintro ⟨blocks, hb⟩
    cases hb
  · rw [PickBlocks_ok offset dataLen h]
    refine ⟨⟨?_, fun hc => absurd hc h⟩, ⟨fun _ => h, fun _ => ⟨_, rfl⟩⟩⟩
    rintro ⟨err, hb⟩
    cases hb

/-! ## `fileEngine.go`: `AllocateBlocks` (C19) -/

theorem mapGet_mapSet_same (m : List (Nat × List Nat)) (k : Nat) (v : List Nat) :
    mapGet (mapSet m k v) k = some v := by
  induction m with
  | nil => simp [mapSet, mapGet]
  | cons p m ih =>
    obtain ⟨k0, v0⟩ := p
    by_cases h : k0 = k
    · simp [mapSet, mapGet, h]
    · simp [mapSet, mapGet, h, ih]

theorem mapGet_mapSet_other (m : List (Nat × List Nat)) (k k2 : Nat) (v : List Nat)
    (hne : k2 ≠ k) : mapGet (mapSet m k v) k2 = mapGet m k2 := by
  induction m with
  | nil => simp [mapSet, mapGet, Ne.symm hne]
  | cons p m ih =>
    obtain ⟨k0, v0⟩ := p
    by_cases h : k0 = k
    · subst h
      simp [mapSet, mapGet, Ne.symm hne]
    · by_cases h2 : k0 = k2
      · subst h2
        simp [mapSet, mapGet, h]
      · simp [mapSet, mapGet, h, h2, ih]

theorem mem_keys_mapSet (m : List (Nat × List Nat)) (k b : Nat) (v : List Nat) :
    b ∈ (mapSet m k v).map Prod.fst ↔ b = k ∨ b ∈ m.map Prod.fst := by
  induction m with
  | nil => simp [mapSet]
  | cons p m ih =>
    obtain ⟨k0, v0⟩ := p
    by_cases h : k0 = k
    · subst h
      simp [mapSet]
    · simp only [mapSet, if_neg h, List.map_cons, List.mem_cons, ih]
      constructor
      · rintro (h1 | h1 | h1)
        · exact Or.inr (Or.inl h1)
        · exact Or.inl h1
        · exact Or.inr (Or.inr h1)
      · rintro (h1 | h1 | h1)
        · exact Or.inr (Or.inl h1)
        · exact Or.inl h1
        · exact Or.inr (Or.inr h1)

theorem nodup_keys_mapSet (m : List (Nat × List Nat)) (k : Nat) (v : List Nat)
    (h : (m.map Prod.fst).Nodup) : ((mapSet m k v).map Prod.fst).Nodup := by
  induction m with
  | nil => simp [mapSet]
  | cons p m ih =>
    obtain ⟨k0, v0⟩ := p
    simp only [List.map_cons, List.nodup_cons] at h
    by_cases hk : k0 = k
    · subst hk
      simp only [mapSet, if_true, List.map_cons, List.nodup_cons]
      exact h
    · simp only [mapSet, if_neg hk, List.map_cons, List.nodup_cons, mem_keys_mapSet]
      refine ⟨?_, ih h.2⟩
      rintro (h1 | h1)
      · exact hk h1
      · exact h.1 h1

theorem copy_zeros (data : List Nat) :
    kvstore.copy (List.replicate 4096 0) data
      = data.take 4096 ++ List.replicate (4096 - data.length) 0 := by
  unfold kvstore.copy
  rw [List.length_replicate, List.drop_replicate]

/-- The loop of `AllocateBlocks` when the store answers every picked block with
a value or with `ErrItemNotFound`: it returns no error, adds the picked blocks
to the keys of the map, maps each of them to its 4 KiB buffer and leaves the
other entries alone. -/
theorem allocateLoop_spec (fs : FsFileEngine) (blocks : List Nat) (m0 : List (Nat × List Nat))
    (hget : ∀ b ∈ blocks, fs.ReadBlock b = some (.error kvstore.Error.ErrItemNotFound) ∨
      ∃ data, fs.ReadBlock b = some (.ok data)) :
    ∃ m, fs.allocateLoop blocks m0 = some (.ok m) ∧
      (∀ b, b ∈ m.map Prod.fst ↔ b ∈ blocks ∨ b ∈ m0.map Prod.fst) ∧
      ((m0.map Prod.fst).Nodup → (m.map Prod.fst).Nodup) ∧
      (∀ b ∈ blocks, mapGet m b = some (fs.blockBuffer b)) ∧
      ∀ b, b ∉ blocks → mapGet m b = mapGet m0 b := by
  induction blocks generalizing m0 with
  | nil =>
    refine ⟨m0, rfl, ?_, id, ?_, fun _ _ => rfl⟩
    · intro b
      simp
    · intro b hb
      cases hb
  | cons block blocks ih =>
    have hrest : ∀ b ∈ blocks, fs.ReadBlock b = some (.error kvstore.Error.ErrItemNotFound) ∨
        ∃ data, fs.ReadBlock b = some (.ok data) :=
      fun b hb => hget b (List.mem_cons_of_mem _ hb)
    have key : ∃ m1, fs.allocateLoop (block :: blocks) m0 = fs.allocateLoop blocks m1 ∧
        (∀ b, b ∈ m1.map Prod.fst ↔ b = block ∨ b ∈ m0.map Prod.fst) ∧
        ((m0.map Prod.fst).Nodup → (m1.map Prod.fst).Nodup) ∧
        mapGet m1 block = some (fs.blockBuffer block) ∧
        ∀ b, b ≠ block → mapGet m1 b = mapGet m0 b := by
      rcases hget block (List.mem_cons_self _ _) with hnf | ⟨data, hd⟩
      · refine ⟨mapSet m0 block (List.replicate 4096 0), ?_,
          fun b => mem_keys_mapSet _ _ b _, nodup_keys_mapSet _ _ _, ?_,
          fun b hb => mapGet_mapSet_other _ _ _ _ hb⟩
        · have hg : fs.kvs.Get (Uint64ToBytes block)
              = some (.error kvstore.Error.ErrItemNotFound) := hnf
          rw [FsFileEngine.allocateLoop]
          simp only [hg, Option.some_bind, ne_eq, not_true_eq_false, if_false]
        · rw [mapGet_mapSet_same]
          unfold FsFileEngine.blockBuffer
          rw [hnf]
      · refine ⟨mapSet (mapSet m0 block (List.replicate 4096 0)) block
            (data.take 4096 ++ List.replicate (4096 - data.length) 0), ?_, ?_, ?_, ?_, ?_⟩
        · have hg : fs.kvs.Get (Uint64ToBytes block) = some (.ok data) := hd
          rw [FsFileEngine.allocateLoop]
          simp only [hg, Option.some_bind, mapGet_mapSet_same, Option.getD_some, copy_zeros]
        · intro b
          rw [mem_keys_mapSet, mem_keys_mapSet]
          constructor
          · rintro (h1 | h1 | h1)
            · exact Or.inl h1
            · exact Or.inl h1
            · exact Or.inr h1
          · rintro (h1 | h1)
            · exact Or.inl h1
            · exact Or.inr (Or.inr h1)
        · intro hn
          exact nodup_keys_mapSet _ _ _ (nodup_keys_mapSet _ _ _ hn)
        · rw [mapGet_mapSet_same]
          unfold FsFileEngine.blockBuffer
          rw [hd]
        · intro b hb
          rw [mapGet_mapSet_other _ _ _ _ hb, mapGet_mapSet_other _ _ _ _ hb]
    obtain ⟨m1, hstep, hk1, hn1, hv1, ho1⟩ := key
    obtain ⟨m, hm, hk, hn, hv, ho⟩ := ih m1 hrest
    refine ⟨m, hstep.trans hm, ?_, fun h0 => hn (hn1 h0), ?_, ?_⟩
    · intro b
      rw [hk b, hk1 b, List.mem_cons]
      constructor
      · rintro (h1 | h1 | h1)
        · exact Or.inl (Or.inr h1)
        · exact Or.inl (Or.inl h1)
        · exact Or.inr h1
      · rintro ((h1 | h1) | h1)
        · exact Or.inr (Or.inl h1)
        · exact Or.inl h1
        · exact Or.inr (Or.inr h1)
    · intro b hb
      by_cases hin : b ∈ blocks
      · exact hv b hin
      · rcases List.mem_cons.mp hb with rfl | hb
        · rw [ho b hin, hv1]
        · exact absurd hb hin
    · intro b hb
      have h1 : b ∉ blocks := fun hc => hb (List.mem_cons_of_mem _ hc)
      have h2 : b ≠ block := fun hc => hb (hc ▸ List.mem_cons_self _ _)
      rw [ho b h1, ho1 b h2]

theorem Uint64ToBytes_length (n : Nat) : (Uint64ToBytes n).length = 8 := rfl

/-- What a `WriteBlock` of a block shorter than `2^32 - 17` bytes does. -/
theorem WriteBlock_eq (fs : FsFileEngine) (b : Nat) (data : List Nat)
    (h : data.length + 17 < 2 ^ 32) :
    fs.WriteBlock b data = some
      { fs with kvs :=
          { fs.kvs with
              file := fs.kvs.file ++ kvstore.Record.layout ⟨0, Uint64ToBytes b, data⟩,
              index := fs.kvs.index.Add (Uint64ToBytes b)
                (kvstore.Uint32ToBytes (fs.kvs.file.length % 2 ^ 32)) } } := by
  unfold FsFileEngine.WriteBlock
  rw [kvstore.Put_eq fs.kvs (Uint64ToBytes b) data
    (by rw [Uint64ToBytes_length]; omega)]
  rfl

/-- Reading back the block just written, when its record fits the maximum
record size and the file was shorter than `2^32` bytes. -/
theorem ReadBlock_WriteBlock_same (fs fs2 : FsFileEngine) (b : Nat) (data : List Nat)
    (hw : fs.WriteBlock b data = some fs2)
    (hM : 8 + data.length ≤ fs.kvs.maxRecordSize)
    (hoff : fs.kvs.file.length < 2 ^ 32) (hsize : data.length + 21 < 2 ^ 32) :
    fs2.ReadBlock b = some (.ok data) := by
  rw [WriteBlock_eq fs b data (by omega), Option.some.injEq] at hw
  subst hw
  unfold FsFileEngine.ReadBlock
  apply kvstore.Get_of_entry _ (Uint64ToBytes b) data fs.kvs.file []
  · simp only [Nat.mod_eq_of_lt hoff, kvstore.Index.Get_Add_same]
  · simp only [List.append_nil]
  · exact hoff
  · rw [Uint64ToBytes_length]
    exact hM
  · rw [Uint64ToBytes_length]
    omega

theorem allocate_long_block_of_length (data : List Nat) (hd : data.length = 4097) :
    ∃ fs m, (NewFsFileEngine 1 "d" "h" []).WriteBlock 0 data = some fs ∧
      fs.ReadBlock 0 = some (.ok data) ∧ PickBlocks 0 0 = .ok [0, 0] ∧
      fs.AllocateBlocks 0 0 = some (.ok m) ∧ mapGet m 0 = some (data.take 4096) ∧
      data.take 4096 ≠ data ++ List.replicate (4096 - data.length) 0 := by
  have hw := WriteBlock_eq (NewFsFileEngine 1 "d" "h" []) 0 data (by rw [hd]; decide)
  have hr := ReadBlock_WriteBlock_same (NewFsFileEngine 1 "d" "h" []) _ 0 data hw
    (by show 8 + data.length ≤ 4096 * 2; rw [hd]; decide) (by decide) (by rw [hd]; decide)
  obtain ⟨m, hm, _, _, hv, _⟩ := allocateLoop_spec _ [0, 0] []
    (fun b hb => by
      have hb0 : b = 0 := by
        simp only [List.mem_cons, List.mem_singleton, List.not_mem_nil, or_false, or_self] at hb
        exact hb
      rw [hb0]
      exact Or.inr ⟨data, hr⟩)
  refine ⟨_, m, hw, hr, rfl, hm, ?_, ?_⟩
  · rw [hv 0 (List.mem_cons_self _ _)]
    unfold FsFileEngine.blockBuffer
    rw [hr]
    simp only [hd, Nat.reduceSub, List.replicate_zero, List.append_nil]
  · intro hc
    have := congrArg List.length hc
    rw [List.length_take, List.length_append, List.length_replicate, hd] at this
    simp at this

/-- C19, as stated, fails: `WriteBlock` stores blocks of any length; after
`WriteBlock(0, 4097 bytes)` on a new engine `ReadBlock(0)` returns the 4097
stored bytes, and `AllocateBlocks(0, 0)` (accepted by `PickBlocks`, which
picks block 0 twice) maps block 0 to the first 4096 of them: `copy` into the
4096-byte buffer cuts the stored block, so the value is not the stored bytes
followed by zero padding. -/
theorem allocate_blocks_cuts_long_block :
    ∃ fs m, (NewFsFileEngine 1 "d" "h" []).WriteBlock 0 (List.replicate 4097 1) = some fs ∧
      fs.ReadBlock 0 = some (.ok (List.replicate 4097 1)) ∧ PickBlocks 0 0 = .ok [0, 0] ∧
      fs.AllocateBlocks 0 0 = some (.ok m) ∧
      mapGet m 0 = some ((List.replicate 4097 1).take 4096) ∧
      (List.replicate 4097 1).take 4096
        ≠ List.replicate 4097 1 ++ List.replicate (4096 - (List.replicate 4097 1).length) 0 :=
  allocate_long_block_of_length _ (List.length_replicate _ _)

/-- C19 (amended): for every offset and dataLen accepted by `PickBlocks`, on an
engine whose store answers `Get` for each picked block with a value or with
`ErrItemNotFound`, `AllocateBlocks` returns no error and a map whose keys are
exactly the blocks `PickBlocks` returns (each once) and whose every value has
length exactly 4096: all zero bytes when the block is absent from the store,
otherwise the first 4096 bytes of the stored block followed by zero padding
up to 4096. -/
theorem allocate_blocks_buffers (fs : FsFileEngine) (offset dataLen : Nat) (blocks : List Nat)
    (hp : PickBlocks offset dataLen = .ok blocks)
    (hget : ∀ b ∈ blocks, fs.ReadBlock b = some (.error kvstore.Error.ErrItemNotFound) ∨
      ∃ data, fs.ReadBlock b = some (.ok data)) :
    ∃ m, fs.AllocateBlocks offset dataLen = some (.ok m) ∧
      (∀ b, b ∈ m.map Prod.fst ↔ b ∈ blocks) ∧ (m.map Prod.fst).Nodup ∧
      ∀ b ∈ blocks, ∃ v, mapGet m b = some v ∧ v.length = 4096 ∧
        ((fs.ReadBlock b = some (.error kvstore.Error.ErrItemNotFound) ∧
            v = List.replicate 4096 0) ∨
          ∃ data, fs.ReadBlock b = some (.ok data) ∧
            v = data.take 4096 ++ List.replicate (4096 - data.length) 0) := by
  obtain ⟨m, hm, hk, hn, hv, _⟩ := allocateLoop_spec fs blocks [] hget
  refine ⟨m, ?_, ?_, hn List.nodup_nil, ?_⟩
  · unfold FsFileEngine.AllocateBlocks
    rw [hp]
    exact hm
  · intro b
    rw [hk b]
    simp
  · intro b hb
    refine ⟨fs.blockBuffer b, hv b hb, ?_, ?_⟩
    · unfold FsFileEngine.blockBuffer
      rcases hget b hb with h1 | ⟨data, h1⟩
      · rw [h1, List.length_replicate]
      · rw [h1]
        simp only [List.length_append, List.length_take, List.length_replicate]
        omega
    · unfold FsFileEngine.blockBuffer
      rcases hget b hb with h1 | ⟨data, h1⟩
      · rw [h1]
        exact Or.inl ⟨rfl, rfl⟩
      · rw [h1]
        exact Or.inr ⟨data, rfl, rfl⟩

/-- The theorem of C19 at a concrete input, with its hypotheses discharged. -/
theorem allocate_blocks_buffers_witness :
    ∃ fs, (NewFsFileEngine 1 "d" "h" []).WriteBlock 1 [7, 8] = some fs ∧
      PickBlocks 0 5000 = .ok [0, 1] ∧
      (∀ b ∈ [0, 1], fs.ReadBlock b = some (.error kvstore.Error.ErrItemNotFound) ∨
        ∃ data, fs.ReadBlock b = some (.ok data)) ∧
      ∃ m, fs.AllocateBlocks 0 5000 = some (.ok m) ∧
        (∀ b, b ∈ m.map Prod.fst ↔ b ∈ [0, 1]) ∧ (m.map Prod.fst).Nodup ∧
        ∀ b ∈ [0, 1], ∃ v, mapGet m b = some v ∧ v.length = 4096 ∧
          ((fs.ReadBlock b = some (.error kvstore.Error.ErrItemNotFound) ∧
              v = List.replicate 4096 0) ∨
            ∃ data, fs.ReadBlock b = some (.ok data) ∧
              v = data.take 4096 ++ List.replicate (4096 - data.length) 0) := by
  have hall : ((NewFsFileEngine 1 "d" "h" []).WriteBlock 1 [7, 8]).any (fun fs =>
      decide (fs.ReadBlock 0 = some (.error kvstore.Error.ErrItemNotFound)) &&
      decide (fs.ReadBlock 1 = some (.ok [7, 8]))) = true := by decide!
  cases h : (NewFsFileEngine 1 "d" "h" []).WriteBlock 1 [7, 8] with
  | none => rw [h] at hall; cases hall
  | some fs =>
    rw [h] at hall
    simp only [Option.any_some, Bool.and_eq_true, decide_eq_true_eq] at hall
    have hget : ∀ b ∈ [0, 1],
        fs.ReadBlock b = some (.error kvstore.Error.ErrItemNotFound) ∨
          ∃ data, fs.ReadBlock b = some (.ok data) := by
      intro b hb
      simp only [List.mem_cons, List.mem_singleton, List.not_mem_nil, or_false] at hb
      rcases hb with rfl | rfl
      · exact Or.inl hall.1
      · exact Or.inr ⟨_, hall.2⟩
    exact ⟨fs, rfl, rfl, hget, allocate_blocks_buffers fs 0 5000 [0, 1] rfl hget⟩

/-! ## `fileEngine.go`: `WriteBlock` and `ReadBlock` (C20) -/

/-- Different block indexes have different keys in the store. -/
theorem Uint64ToBytes_injective (a b : Nat) (ha : a < 2 ^ 64) (hb : b < 2 ^ 64)
    (h : Uint64ToBytes a = Uint64ToBytes b) : a = b := by
  simp only [Uint64ToBytes, List.cons.injEq, and_true] at h
  norm_num at h ha hb
  omega

/-- A `WriteBlock` that returns is a `Put` on the store that returns. -/
theorem WriteBlock_some (fs fs2 : FsFileEngine) (b : Nat) (data : List Nat)
    (h : fs.WriteBlock b data = some fs2) :
    fs.kvs.Put (Uint64ToBytes b) data = some fs2.kvs := by
  unfold FsFileEngine.WriteBlock at h
  cases hp : fs.kvs.Put (Uint64ToBytes b) data with
  | none => rw [hp] at h; cases h
  | some kvs =>
    rw [hp] at h
    simp only [Option.map_some', Option.some.injEq] at h
    rw [← h]

/-- A sequence of `WriteBlock` calls is a sequence of `Put` calls on the store. -/
theorem writeAll_run (ws : List (Nat × List Nat)) (fs fs2 : FsFileEngine)
    (h : fs.writeAll ws = some fs2) :
    fs.kvs.run (ws.map fun w => kvstore.Op.Put (Uint64ToBytes w.1) w.2) = some fs2.kvs := by
  induction ws generalizing fs with
  | nil =>
    simp only [FsFileEngine.writeAll, Option.some.injEq] at h
    subst h
    rfl
  | cons w ws ih =>
    obtain ⟨block, data⟩ := w
    simp only [FsFileEngine.writeAll] at h
    cases hw : fs.WriteBlock block data with
    | none => rw [hw] at h; cases h
    | some fs1 =>
      rw [hw, Option.some_bind] at h
      simp only [List.map_cons, kvstore.KVStore.run, kvstore.KVStore.apply]
      rw [WriteBlock_some fs fs1 block data hw, Option.some_bind]
      exact ih fs1 h

theorem wrapped_read_of_length (head rest : List Nat) (rec : kvstore.Record)
    (err : kvstore.Error) (hh : head.length = 4096 * 2 + 13)
    (hd : kvstore.Record.Decode head = some (rec, some err))
    (h : rest.length = 2 ^ 32 - 8205) :
    ∃ fs2, (NewFsFileEngine 1 "d" "h" (head ++ rest)).WriteBlock 0 [1] = some fs2 ∧
      fs2.ReadBlock 0 = some (.error err) := by
  refine ⟨_, WriteBlock_eq _ 0 [1] (by decide), ?_⟩
  have hlen : (NewFsFileEngine 1 "d" "h" (head ++ rest)).kvs.file.length % 2 ^ 32 = 0 := by
    show (head ++ rest).length % 2 ^ 32 = 0
    rw [List.length_append, hh, h]
    norm_num
  unfold FsFileEngine.ReadBlock kvstore.KVStore.Get
  simp only [hlen, kvstore.Index.Get_Add_same]
  have hoff : kvstore.BytesToUint32 (kvstore.Uint32ToBytes 0) = 0 := by decide
  rw [hoff]
  unfold kvstore.KVStore.recordAt kvstore.Record.Read
  simp only [NewFsFileEngine, kvstore.NewKVStore, kvstore.metaSize, List.length_replicate,
    List.drop_zero]
  rw [List.append_assoc, List.take_left' hh]
  rw [if_neg (by rw [hh]; decide),
    kvstore.copy_of_length_eq (by rw [List.length_replicate, hh]), hd]
  rfl

/-- C20, as stated, fails: on an engine whose file already holds `2^32` bytes
(here zeros), `WriteBlock(0, [1])` succeeds; the store keeps the offset of the
new record as `uint32(2^32) = 0`, and `ReadBlock(0)` decodes the bytes at
offset 0 and returns the CRC error instead of the data. -/
theorem write_block_offset_wraps :
    ∃ fs2, (NewFsFileEngine 1 "d" "h"
          (List.replicate (4096 * 2 + 13) 0 ++ List.replicate (2 ^ 32 - 8205) 0)).WriteBlock 0 [1]
        = some fs2 ∧
      fs2.ReadBlock 0 = some (.error (kvstore.Error.CRCCheckFailed 3859354798 0)) :=
  wrapped_read_of_length _ _ _ _ (List.length_replicate _ _) kvstore.Decode_zeros_8205
    (List.length_replicate _ _)

/-- C20 (amended): in every engine state reached from `NewFsFileEngine` by
`WriteBlock` calls, for every block index b (a `uint64`) and every byte array
data of at most 4096 bytes, after `WriteBlock(b, data)` succeeds and leaves
the file of the store shorter than `2^32` bytes, `ReadBlock(b)` returns
exactly data, and `ReadBlock` of any other block index returns what it
returned before. -/
theorem read_block_after_write (inode : Nat) (path hash : String) (content : List Nat)
    (ws : List (Nat × List Nat)) (fs fs2 : FsFileEngine) (b : Nat) (data : List Nat)
    (hrun : (NewFsFileEngine inode path hash content).writeAll ws = some fs)
    (hw : fs.WriteBlock b data = some fs2) (hdata : data.length ≤ 4096)
    (hfile : fs2.kvs.file.length < 2 ^ 32) (hb : b < 2 ^ 64) :
    fs2.ReadBlock b = some (.ok data) ∧
      ∀ b2, b2 < 2 ^ 64 → b2 ≠ b → fs2.ReadBlock b2 = fs.ReadBlock b2 := by
  have hkv := writeAll_run ws _ fs hrun
  obtain ⟨_, hM⟩ := kvstore.run_grows _ _ _ hkv
  have hM2 : fs.kvs.maxRecordSize = 4096 * 2 := hM
  have hweq := WriteBlock_eq fs b data (by omega)
  rw [hw, Option.some.injEq] at hweq
  have hlen : fs.kvs.file.length < 2 ^ 32 := by
    rw [hweq] at hfile
    simp only [List.length_append] at hfile
    omega
  refine ⟨ReadBlock_WriteBlock_same fs fs2 b data hw (by rw [hM2]; omega) hlen (by omega), ?_⟩
  intro b2 hb2 hne
  have hinv := kvstore.run_inv (fun _ _ => True) _ _ fs.kvs hkv hlen
    List.Pairwise.nil (fun item hi => absurd hi (List.not_mem_nil _))
    (fun _ _ _ _ _ => trivial)
  have hkey : Uint64ToBytes b2 ≠ Uint64ToBytes b :=
    fun hc => hne (Uint64ToBytes_injective b2 b hb2 hb hc)
  rw [hweq]
  exact kvstore.Get_append_frame fs.kvs hinv.2 _ _ (Uint64ToBytes b2)
    (kvstore.Index.Get_Add_other _ _ _ _ hkey)

/-- The theorem of C20 at a concrete input, with its hypotheses discharged. -/
theorem read_block_after_write_witness :
    ∃ fs fs2, (NewFsFileEngine 1 "d" "h" []).writeAll [(0, [1, 2]), (5, [9])] = some fs ∧
      fs.WriteBlock 5 [3, 4] = some fs2 ∧ [3, 4].length ≤ 4096 ∧
      fs2.kvs.file.length < 2 ^ 32 ∧ 5 < 2 ^ 64 ∧
      (fs2.ReadBlock 5 = some (.ok [3, 4]) ∧
        ∀ b2, b2 < 2 ^ 64 → b2 ≠ 5 → fs2.ReadBlock b2 = fs.ReadBlock b2) := by
  have hall : (((NewFsFileEngine 1 "d" "h" []).writeAll [(0, [1, 2]), (5, [9])]).bind
      fun fs => fs.WriteBlock 5 [3, 4]).any
        (fun fs2 => decide (fs2.kvs.file.length < 2 ^ 32)) = true := by decide!
  cases h1 : (NewFsFileEngine 1 "d" "h" []).writeAll [(0, [1, 2]), (5, [9])] with
  | none => rw [h1] at hall; cases hall
  | some fs =>
    rw [h1, Option.some_bind] at hall
    cases h2 : fs.WriteBlock 5 [3, 4] with
    | none => rw [h2] at hall; cases hall
    | some fs2 =>
      rw [h2] at hall
      simp only [Option.any_some, decide_eq_true_eq] at hall
      exact ⟨fs, fs2, rfl, h2, by decide, hall, by decide,
        read_block_after_write 1 "d" "h" [] _ fs fs2 5 [3, 4] h1 h2 (by decide) hall
          (by decide)⟩

/-! ## `file.go`: the in-memory content (C35) -/

theorem uint64_natCast (n : Nat) (h : n < 2 ^ 64) : uint64 (n : Int) = n := by
  unfold uint64
  rw [Int.emod_eq_of_lt (by omega) (by omega)]
  exact Int.toNat_ofNat n

/-- What `FsFile.WriteAt` does for arguments in the ranges of their Go types:
the content is extended with zeros up to `off + len(b)` when it is shorter,
and `b` replaces the bytes from `off` on. -/
theorem WriteAt_eq (f : FsFile) (b : List Nat) (o : Nat)
    (ho : o < 2 ^ 63) (hb : b.length < 2 ^ 63) (hd : f.data.length < 2 ^ 63) :
    f.WriteAt b (o : Int) = some
      ({ f with data :=
          (f.data ++ List.replicate (o + b.length - f.data.length) 0).take o ++ b
            ++ f.data.drop (o + b.length) }, b.length, none) := by
  have hext : f.extended b (o : Int)
      = f.data ++ List.replicate (o + b.length - f.data.length) 0 := by
    unfold FsFile.extended
    simp only
    rw [uint64_natCast o (by omega), uint64_natCast b.length (by omega),
      uint64_natCast f.data.length (by omega), Nat.mod_eq_of_lt (show o + b.length < 2 ^ 64 by omega)]
    by_cases hlt : f.data.length < o + b.length
    · rw [if_pos hlt]
      have e : (o + b.length + 2 ^ 64 - f.data.length) % 2 ^ 64 = o + b.length - f.data.length := by
        omega
      rw [e]
    · rw [if_neg hlt, show o + b.length - f.data.length = 0 by omega]
      simp
  unfold FsFile.WriteAt
  simp only [hext, Int.toNat_ofNat]
  have hlen : (f.data ++ List.replicate (o + b.length - f.data.length) 0).length
      = max f.data.length (o + b.length) := by
    simp only [List.length_append, List.length_replicate]
    omega
  rw [if_neg (by rw [hlen]; omega)]
  have hdrop : List.drop (o + b.length)
      (f.data ++ List.replicate (o + b.length - f.data.length) 0)
      = f.data.drop (o + b.length) := by
    by_cases hlt : f.data.length < o + b.length
    · rw [List.drop_of_length_le (by rw [hlen]; omega), List.drop_of_length_le (by omega)]
    · rw [show o + b.length - f.data.length = 0 by omega]
      simp
  have hcopy : kvstore.copy (List.drop o (f.data ++ List.replicate (o + b.length - f.data.length) 0)) b
      = b ++ f.data.drop (o + b.length) := by
    unfold kvstore.copy
    rw [List.take_of_length_le (by rw [List.length_drop, hlen]; omega), List.drop_drop, hdrop]
  rw [hcopy, List.length_drop, hlen, Nat.min_eq_right (by omega), List.append_assoc]

/-- The content that `WriteAt_eq` describes, position by position. -/
theorem written_content (d b : List Nat) (o : Nat) :
    ((d ++ List.replicate (o + b.length - d.length) 0).take o ++ b
        ++ d.drop (o + b.length)).length = max d.length (o + b.length) ∧
    (∀ i, i < b.length →
      ((d ++ List.replicate (o + b.length - d.length) 0).take o ++ b
        ++ d.drop (o + b.length))[o + i]? = b[i]?) ∧
    (∀ i, i < d.length → i < o ∨ o + b.length ≤ i →
      ((d ++ List.replicate (o + b.length - d.length) 0).take o ++ b
        ++ d.drop (o + b.length))[i]? = d[i]?) ∧
    (∀ i, d.length ≤ i → i < o →
      ((d ++ List.replicate (o + b.length - d.length) 0).take o ++ b
        ++ d.drop (o + b.length))[i]? = some 0) := by
  have hlen : (d ++ List.replicate (o + b.length - d.length) 0).length
      = max d.length (o + b.length) := by
    simp only [List.length_append, List.length_replicate]
    omega
  have htake : ((d ++ List.replicate (o + b.length - d.length) 0).take o).length = o := by
    rw [List.length_take, hlen]
    omega
  refine ⟨?_, ?_, ?_, ?_⟩
  · simp only [List.length_append, htake, List.length_drop]
    omega
  · intro i hi
    rw [List.append_assoc, List.getElem?_append_right (by rw [htake]; omega), htake,
      Nat.add_sub_cancel_left, List.getElem?_append_left hi]
  · intro i hi hor
    rcases hor with h | h
    · rw [List.append_assoc, List.getElem?_append_left (by rw [htake]; exact h),
        List.getElem?_take, if_pos h, List.getElem?_append_left hi]
    · rw [List.getElem?_append_right (by rw [List.length_append, htake]; omega),
        List.length_append, htake, List.getElem?_drop]
      congr 1
      omega
  · intro i hi ho
    rw [List.append_assoc, List.getElem?_append_left (by rw [htake]; exact ho),
      List.getElem?_take, if_pos ho, List.getElem?_append_right hi, List.getElem?_replicate]
    rw [if_pos (by omega)]

/-- C35: for every in-memory content d, offset `off >= 0` and byte array b (an
offset of type `int64`, lengths of type `int`, the allocation of the
extension taken to succeed), `FsFile.WriteAt(b, off)` returns `n = len(b)`
and no error and leaves content of length `max(len(d), off + len(b))` that
equals b on `[off, off + len(b))`, equals d at every other position below
`len(d)`, and is zero at every position in `[len(d), off)`; nothing else of
the file object changes. -/
theorem write_at_content (f : FsFile) (b : List Nat) (off : Int)
    (hoff : 0 ≤ off) (ho : off < 2 ^ 63) (hb : b.length < 2 ^ 63)
    (hd : f.data.length < 2 ^ 63) :
    ∃ f2, f.WriteAt b off = some (f2, b.length, none) ∧
      f2.data.length = max f.data.length (off.toNat + b.length) ∧
      (∀ i, i < b.length → f2.data[off.toNat + i]? = b[i]?) ∧
      (∀ i, i < f.data.length → i < off.toNat ∨ off.toNat + b.length ≤ i →
        f2.data[i]? = f.data[i]?) ∧
      (∀ i, f.data.length ≤ i → i < off.toNat → f2.data[i]? = some 0) ∧
      f2.fsEngine = f.fsEngine ∧ f2.inode = f.inode ∧ f2.hash = f.hash := by
  obtain ⟨o, rfl⟩ := Int.eq_ofNat_of_zero_le hoff
  have ho2 : o < 2 ^ 63 := by omega
  obtain ⟨h1, h2, h3, h4⟩ := written_content f.data b o
  exact ⟨_, WriteAt_eq f b o ho2 hb hd, h1, h2, h3, h4, rfl, rfl, rfl⟩

theorem write_at_content_witness :
    (0 : Int) ≤ 5 ∧ (5 : Int) < 2 ^ 63 ∧ [7, 8].length < 2 ^ 63 ∧
    ({ New "test" 2 "h.head" "/data" [] with data := [1, 2, 3] } : FsFile).data.length < 2 ^ 63 ∧
    ∃ f2, ({ New "test" 2 "h.head" "/data" [] with data := [1, 2, 3] } : FsFile).WriteAt [7, 8] 5
        = some (f2, [7, 8].length, none) ∧
      f2.data.length
        = max ({ New "test" 2 "h.head" "/data" [] with data := [1, 2, 3] } : FsFile).data.length
            ((5 : Int).toNat + [7, 8].length) ∧
      (∀ i, i < [7, 8].length → f2.data[(5 : Int).toNat + i]? = [7, 8][i]?) ∧
      (∀ i, i < ({ New "test" 2 "h.head" "/data" [] with data := [1, 2, 3] } : FsFile).data.length →
        i < (5 : Int).toNat ∨ (5 : Int).toNat + [7, 8].length ≤ i →
        f2.data[i]?
          = ({ New "test" 2 "h.head" "/data" [] with data := [1, 2, 3] } : FsFile).data[i]?) ∧
      (∀ i, ({ New "test" 2 "h.head" "/data" [] with data := [1, 2, 3] } : FsFile).data.length ≤ i →
        i < (5 : Int).toNat → f2.data[i]? = some 0) ∧
      f2.fsEngine
        = ({ New "test" 2 "h.head" "/data" [] with data := [1, 2, 3] } : FsFile).fsEngine ∧
      f2.inode = ({ New "test" 2 "h.head" "/data" [] with data := [1, 2, 3] } : FsFile).inode ∧
      f2.hash = ({ New "test" 2 "h.head" "/data" [] with data := [1, 2, 3] } : FsFile).hash :=
  ⟨by decide, by decide, by decide, by decide,
   write_at_content _ [7, 8] 5 (by decide) (by decide) (by decide) (by decide)⟩

/-- The content after the write of the witness of C35: the three old bytes,
two zeros, then the data. -/
theorem write_at_example :
    (({ New "test" 2 "h.head" "/data" [] with data := [1, 2, 3] } : FsFile).WriteAt [7, 8] 5).map
      (fun r => (r.1.data, r.2)) = some ([1, 2, 3, 0, 0, 7, 8], 2, none) := by
  decide

/-- The sibling `FsFile.Write` leaves the same file as `FsFile.WriteAt`. -/
theorem Write_eq_WriteAt (f : FsFile) (op : fuseops.WriteFileOp) :
    (f.Write op).map (fun r => r.1) = (f.WriteAt op.Data op.Offset).map (fun r => r.1) := by
  unfold FsFile.Write FsFile.WriteAt
  simp only
  split <;> rfl

/-- The sibling `FsFile.Read` returns what `FsFile.WriteAt` has written: after a
write of b at `off`, a read at `off` into a buffer of `len(b)` bytes fills it
with b and reports `len(b)` bytes. -/
theorem Read_after_WriteAt (f : FsFile) (b dst : List Nat) (off : Int) (h : Nat)
    (hoff : 0 ≤ off) (ho : off < 2 ^ 63) (hb : b.length < 2 ^ 63)
    (hd : f.data.length < 2 ^ 63) (hdst : dst.length = b.length) :
    ∃ f2, f.WriteAt b off = some (f2, b.length, none) ∧
      f2.Read { Handle := h, Offset := off, Size := b.length, Dst := dst, BytesRead := 0 }
        = some ({ Handle := h, Offset := off, Size := b.length, Dst := b,
                  BytesRead := b.length }, none) := by
  obtain ⟨o, rfl⟩ := Int.eq_ofNat_of_zero_le hoff
  have ho2 : o < 2 ^ 63 := by omega
  refine ⟨_, WriteAt_eq f b o ho2 hb hd, ?_⟩
  have hlen : (f.data ++ List.replicate (o + b.length - f.data.length) 0).length
      = max f.data.length (o + b.length) := by
    simp only [List.length_append, List.length_replicate]
    omega
  have htake : ((f.data ++ List.replicate (o + b.length - f.data.length) 0).take o).length
      = o := by
    rw [List.length_take, hlen]
    omega
  unfold FsFile.Read
  simp only [Int.toNat_ofNat]
  rw [if_neg (by simp only [List.length_append, htake, List.length_drop]; omega)]
  have hdrop : List.drop o
      ((f.data ++ List.replicate (o + b.length - f.data.length) 0).take o ++ b
        ++ f.data.drop (o + b.length)) = b ++ f.data.drop (o + b.length) := by
    rw [List.append_assoc, List.drop_left' htake]
  rw [hdrop]
  have hc : kvstore.copy dst (b ++ f.data.drop (o + b.length)) = b := by
    unfold kvstore.copy
    rw [hdst, List.take_left' rfl, List.drop_of_length_le (by rw [List.length_append]; omega),
      List.append_nil]
  rw [hc, hdst, List.length_append, Nat.min_eq_left (by omega)]

end file

namespace fsdb

/-! ## The rows of the metadata DB -/

theorem rowGet_rowSet_same {κ ν : Type} [DecidableEq κ] (m : List (κ × ν)) (k : κ) (v : ν) :
    rowGet (rowSet m k v) k = some v := by
  induction m with
  | nil => simp [rowSet, rowGet]
  | cons p m ih =>
    obtain ⟨k0, v0⟩ := p
    by_cases h : k0 = k
    · simp [rowSet, rowGet, h]
    · simp [rowSet, rowGet, h, ih]

theorem rowGet_rowSet_other {κ ν : Type} [DecidableEq κ] (m : List (κ × ν)) (k k2 : κ) (v : ν)
    (hne : k2 ≠ k) : rowGet (rowSet m k v) k2 = rowGet m k2 := by
  induction m with
  | nil => simp [rowSet, rowGet, Ne.symm hne]
  | cons p m ih =>
    obtain ⟨k0, v0⟩ := p
    by_cases h : k0 = k
    · subst h
      simp [rowSet, rowGet, Ne.symm hne]
    · by_cases h2 : k0 = k2
      · subst h2
        simp [rowSet, rowGet, h]
      · simp [rowSet, rowGet, h, h2, ih]

theorem rowGet_rowDelete_same {κ ν : Type} [DecidableEq κ] (m : List (κ × ν)) (k : κ) :
    rowGet (rowDelete m k) k = none := by
  induction m with
  | nil => simp [rowDelete, rowGet]
  | cons p m ih =>
    obtain ⟨k0, v0⟩ := p
    by_cases h : k0 = k
    · simp [rowDelete, h, ih]
    · simp [rowDelete, rowGet, h, ih]

theorem rowGet_rowDelete_other {κ ν : Type} [DecidableEq κ] (m : List (κ × ν)) (k k2 : κ)
    (hne : k2 ≠ k) : rowGet (rowDelete m k) k2 = rowGet m k2 := by
  induction m with
  | nil => simp [rowDelete, rowGet]
  | cons p m ih =>
    obtain ⟨k0, v0⟩ := p
    by_cases h : k0 = k
    · subst h
      simp [rowDelete, rowGet, Ne.symm hne, ih]
    · by_cases h2 : k0 = k2
      · subst h2
        simp [rowDelete, rowGet, h]
      · simp [rowDelete, rowGet, h, h2, ih]

/-- What a successful lookup says about the DB. -/
theorem GetInode_ok (db : Fsdb) (parent : Nat) (name : String) (inode : Inode)
    (h : db.GetInode parent name = .ok inode) :
    db.failing = false ∧ rowGet db.dentries (parent, name) = some inode.InodeID ∧
      rowGet db.attrs inode.InodeID = some inode.Attrs ∧
      inode.ParentID = parent ∧ inode.Name = name := by
  unfold Fsdb.GetInode at h
  cases hf : db.failing with
  | true => rw [hf] at h; simp at h
  | false =>
    rw [hf] at h
    simp only [Bool.false_eq_true, if_false] at h
    cases hd : rowGet db.dentries (parent, name) with
    | none => rw [hd] at h; cases h
    | some child =>
      rw [hd] at h
      simp only at h
      cases ha : rowGet db.attrs child with
      | none => rw [ha] at h; cases h
      | some a =>
        rw [ha] at h
        simp only [Except.ok.injEq] at h
        subst h
        exact ⟨rfl, rfl, ha, rfl, rfl⟩

theorem GetFsdbInodeAttributes_ok (db : Fsdb) (id : Nat) (a : InodeAttributes)
    (h : db.GetFsdbInodeAttributes id = .ok a) :
    db.failing = false ∧ rowGet db.attrs id = some a := by
  unfold Fsdb.GetFsdbInodeAttributes at h
  cases hf : db.failing with
  | true => rw [hf] at h; simp at h
  | false =>
    rw [hf] at h
    simp only [Bool.false_eq_true, if_false] at h
    cases ha : rowGet db.attrs id with
    | none => rw [ha] at h; cases h
    | some a2 =>
      rw [ha] at h
      simp only [Except.ok.injEq] at h
      subst h
      exact ⟨rfl, rfl⟩

end fsdb

namespace monofs

/-! ## The parent lock -/

theorem Lock_free (fs : Monofs) (key : Nat) (h : key ∉ fs.fsHashLock.held) :
    fs.Lock key = some { fs with fsHashLock := { held := key :: fs.fsHashLock.held },
                                 history := fs.history ++ [Event.Lock key] } := by
  unfold Monofs.Lock HashLock.Lock
  rw [if_neg h]
  rfl

theorem Lock_held (fs : Monofs) (key : Nat) (h : key ∈ fs.fsHashLock.held) :
    fs.Lock key = none := by
  unfold Monofs.Lock HashLock.Lock
  rw [if_pos h]
  rfl

theorem Lock_some (fs fs1 : Monofs) (key : Nat) (h : fs.Lock key = some fs1) :
    key ∉ fs.fsHashLock.held ∧
      fs1 = { fs with fsHashLock := { held := key :: fs.fsHashLock.held },
                      history := fs.history ++ [Event.Lock key] } := by
  by_cases hk : key ∈ fs.fsHashLock.held
  · rw [Lock_held fs key hk] at h
    cases h
  · rw [Lock_free fs key hk] at h
    exact ⟨hk, (Option.some.inj h).symm⟩

/-! ## `Unlink` (C21, C22, C23) -/

/-- The state in which the body of a handler runs after it has taken the lock
of `key`. -/
theorem GetInode_locked (fs : Monofs) (key parent : Nat) (name : String) (b : Bool) :
    Monofs.GetInode { fs with fsHashLock := { held := key :: fs.fsHashLock.held },
                              history := fs.history ++ [Event.Lock key] } parent name b
      = fs.GetInode parent name b := rfl

/-- C22: for every state in which the lock of the parent is free and
`(parent, name)` resolves to an inode with the directory bit in its mode,
`Unlink(parent, name)` returns `EISDIR` and leaves the metadata DB unchanged:
no mutation of the DB appears in the record of the call, which only takes
and releases the lock of the parent. -/
theorem unlink_directory_eisdir (fs : Monofs) (op : fuseops.UnlinkOp) (inode : fsdb.Inode)
    (hfree : op.Parent ∉ fs.fsHashLock.held)
    (hget : fs.GetInode op.Parent op.Name true = .ok inode)
    (hdir : inode.Attrs.InodeAttributes.Mode &&& fsdb.ModeDir = fsdb.ModeDir) :
    ∃ fs2, fs.Unlink op = .returned fs2 op (some (Error.errno Errno.EISDIR)) ∧
      fs2.metadb = fs.metadb ∧ fs2.fsHashLock = fs.fsHashLock ∧
      fs2.history = fs.history ++ [Event.Lock op.Parent, Event.Unlock op.Parent] := by
  unfold Monofs.Unlink
  rw [Lock_free fs op.Parent hfree]
  simp only [GetInode_locked, hget, hdir, if_true]
  refine ⟨_, rfl, rfl, ?_, ?_⟩
  · simp [Monofs.Unlock, HashLock.Unlock]
  · simp [Monofs.Unlock]

/-- On a symlink `Unlink` does nothing to the metadata DB: the branch that
decrements or deletes is guarded by "not a symlink" and has no else. -/
theorem Unlink_symlink (fs : Monofs) (op : fuseops.UnlinkOp) (inode : fsdb.Inode)
    (hfree : op.Parent ∉ fs.fsHashLock.held)
    (hget : fs.GetInode op.Parent op.Name true = .ok inode)
    (hndir : inode.Attrs.InodeAttributes.Mode &&& fsdb.ModeDir ≠ fsdb.ModeDir)
    (hsym : inode.Attrs.InodeAttributes.Mode &&& fsdb.ModeSymlink = fsdb.ModeSymlink) :
    ∃ fs2, fs.Unlink op = .returned fs2 op none ∧ fs2.metadb = fs.metadb ∧
      fs2.GetInode op.Parent op.Name true = .ok inode := by
  unfold Monofs.Unlink
  rw [Lock_free fs op.Parent hfree]
  simp only [GetInode_locked, hget, hndir, hsym, if_false, ne_eq, not_true_eq_false]
  exact ⟨_, rfl, rfl, hget⟩

/-- C21 (the code falls short of it): on a new filesystem,
`CreateSymlink(1, "l", "/foo")` succeeds and makes `(1, "l")` resolve to a
symlink inode; `Unlink(1, "l")` then returns no error, but it has removed
nothing: `(1, "l")` still resolves to the same symlink inode in the metadata
DB, instead of failing with `NoSuchInode`. -/
theorem unlink_leaves_symlink :
    ∃ fs1 op1 fs2 inode,
      (NewMonoFS "test" 0 0 100).CreateSymlink
          { Parent := 1, Name := "l", Target := "/foo",
            Entry := { Child := 0, Attributes := ⟨0, 0, 0, 0, 0, 0, 0, 0, 0⟩ } }
        = .returned fs1 op1 none ∧
      fs1.GetInode 1 "l" true = .ok inode ∧ inode.InodeID = op1.Entry.Child ∧
      inode.Attrs.InodeAttributes.Mode &&& fsdb.ModeSymlink = fsdb.ModeSymlink ∧
      fs1.Unlink { Parent := 1, Name := "l" } = .returned fs2 { Parent := 1, Name := "l" } none ∧
      fs2.GetInode 1 "l" true = .ok inode ∧
      fs2.GetInode 1 "l" true ≠ .error fsdb.Error.ErrNoSuchInode := by
  refine ⟨_, _, _, _, rfl, rfl, rfl, by decide, rfl, rfl, ?_⟩
  intro h
  cases h

/-- C23: for every state in which the lock of the parent is free and
`(parent, name)` resolves to an inode that is neither a directory nor a
symlink, `Unlink(parent, name)` returns no error and: if the inode's nlink is
greater than 1, its attribute row now holds the attributes with nlink
decreased by one and everything else as it was, and no other attribute row
and no directory entry has changed; otherwise its attribute row and the
directory entry `(parent, name)` are gone, and `(parent, name)` no longer
resolves. -/
theorem unlink_file (fs : Monofs) (op : fuseops.UnlinkOp) (inode : fsdb.Inode)
    (hfree : op.Parent ∉ fs.fsHashLock.held)
    (hget : fs.GetInode op.Parent op.Name true = .ok inode)
    (hndir : inode.Attrs.InodeAttributes.Mode &&& fsdb.ModeDir ≠ fsdb.ModeDir)
    (hnsym : inode.Attrs.InodeAttributes.Mode &&& fsdb.ModeSymlink ≠ fsdb.ModeSymlink) :
    ∃ fs2, fs.Unlink op = .returned fs2 op none ∧
      (inode.Attrs.InodeAttributes.Nlink > 1 →
        fs2.metadb.GetFsdbInodeAttributes inode.InodeID
          = .ok { inode.Attrs with InodeAttributes :=
              { inode.Attrs.InodeAttributes with
                  Nlink := inode.Attrs.InodeAttributes.Nlink - 1 } } ∧
        fs2.metadb.dentries = fs.metadb.dentries ∧
        ∀ id, id ≠ inode.InodeID →
          fsdb.rowGet fs2.metadb.attrs id = fsdb.rowGet fs.metadb.attrs id) ∧
      (¬ inode.Attrs.InodeAttributes.Nlink > 1 →
        fsdb.rowGet fs2.metadb.attrs inode.InodeID = none ∧
        fsdb.rowGet fs2.metadb.dentries (op.Parent, op.Name) = none ∧
        fs2.GetInode op.Parent op.Name true = .error fsdb.Error.ErrNoSuchInode) := by
  obtain ⟨hf, hd, ha, hp, hn⟩ := fsdb.GetInode_ok fs.metadb op.Parent op.Name inode hget
  unfold Monofs.Unlink
  rw [Lock_free fs op.Parent hfree]
  simp only [GetInode_locked, hget, hndir, hnsym, if_false, ne_eq, not_false_eq_true, if_true]
  by_cases hl : inode.Attrs.InodeAttributes.Nlink > 1
  · simp only [hl, if_true, Monofs.CreateInodeAttrs, fsdb.Fsdb.CreateInodeAttrs, hf,
      Bool.false_eq_true, if_false]
    refine ⟨_, rfl, fun _ => ⟨?_, rfl, ?_⟩, fun hc => absurd trivial hc⟩
    · simp only [Monofs.Unlock, fsdb.Fsdb.GetFsdbInodeAttributes, hf, Bool.false_eq_true,
        if_false, fsdb.rowGet_rowSet_same]
    · intro id hne
      simp only [Monofs.Unlock]
      exact fsdb.rowGet_rowSet_other _ _ _ _ hne
  · simp only [hl, if_false, Monofs.DeleteInode, fsdb.Fsdb.DeleteInode, hf,
      Bool.false_eq_true]
    refine ⟨_, rfl, fun hc => hc.elim, fun _ => ⟨?_, ?_, ?_⟩⟩
    · simp only [Monofs.Unlock]
      exact fsdb.rowGet_rowDelete_same _ _
    · simp only [Monofs.Unlock, hp, hn]
      exact fsdb.rowGet_rowDelete_same _ _
    · simp only [Monofs.Unlock, Monofs.GetInode, fsdb.Fsdb.GetInode, hf, Bool.false_eq_true,
        if_false, hp, hn, fsdb.rowGet_rowDelete_same]

/-- The theorem of C22 at a concrete input, with its hypotheses discharged. -/
theorem unlink_directory_eisdir_witness :
    (1 ∉ ((NewMonoFS "test" 0 0 100).AddInode
        (fsdb.NewInode 2 1 "d" ⟨"", 1, ⟨0, 1, 0o755 ||| fsdb.ModeDir, 0, 0, 0, 0, 0, 0⟩⟩)
        true).1.fsHashLock.held) ∧
    ((NewMonoFS "test" 0 0 100).AddInode
        (fsdb.NewInode 2 1 "d" ⟨"", 1, ⟨0, 1, 0o755 ||| fsdb.ModeDir, 0, 0, 0, 0, 0, 0⟩⟩)
        true).1.GetInode 1 "d" true
      = .ok (fsdb.NewInode 2 1 "d" ⟨"", 1, ⟨0, 1, 0o755 ||| fsdb.ModeDir, 0, 0, 0, 0, 0, 0⟩⟩) ∧
    ((0o755 ||| fsdb.ModeDir) &&& fsdb.ModeDir = fsdb.ModeDir) ∧
    ∃ fs2, ((NewMonoFS "test" 0 0 100).AddInode
        (fsdb.NewInode 2 1 "d" ⟨"", 1, ⟨0, 1, 0o755 ||| fsdb.ModeDir, 0, 0, 0, 0, 0, 0⟩⟩)
        true).1.Unlink { Parent := 1, Name := "d" }
        = .returned fs2 { Parent := 1, Name := "d" } (some (Error.errno Errno.EISDIR)) ∧
      fs2.metadb = ((NewMonoFS "test" 0 0 100).AddInode
        (fsdb.NewInode 2 1 "d" ⟨"", 1, ⟨0, 1, 0o755 ||| fsdb.ModeDir, 0, 0, 0, 0, 0, 0⟩⟩)
        true).1.metadb ∧
      fs2.fsHashLock = ((NewMonoFS "test" 0 0 100).AddInode
        (fsdb.NewInode 2 1 "d" ⟨"", 1, ⟨0, 1, 0o755 ||| fsdb.ModeDir, 0, 0, 0, 0, 0, 0⟩⟩)
        true).1.fsHashLock ∧
      fs2.history = ((NewMonoFS "test" 0 0 100).AddInode
        (fsdb.NewInode 2 1 "d" ⟨"", 1, ⟨0, 1, 0o755 ||| fsdb.ModeDir, 0, 0, 0, 0, 0, 0⟩⟩)
        true).1.history ++ [Event.Lock 1, Event.Unlock 1] :=
  ⟨by decide, rfl, by decide,
    unlink_directory_eisdir _ { Parent := 1, Name := "d" }
      (fsdb.NewInode 2 1 "d" ⟨"", 1, ⟨0, 1, 0o755 ||| fsdb.ModeDir, 0, 0, 0, 0, 0, 0⟩⟩)
      (by decide) rfl (by decide)⟩

/-- The theorem of C23 at a concrete input (an inode with two links), with its
hypotheses discharged. -/
theorem unlink_file_witness :
    (1 ∉ ((NewMonoFS "test" 0 0 100).AddInode
        (fsdb.NewInode 2 1 "f" ⟨"h.head", 1, ⟨0, 2, 0o644, 0, 0, 0, 0, 0, 0⟩⟩)
        true).1.fsHashLock.held) ∧
    ((NewMonoFS "test" 0 0 100).AddInode
        (fsdb.NewInode 2 1 "f" ⟨"h.head", 1, ⟨0, 2, 0o644, 0, 0, 0, 0, 0, 0⟩⟩)
        true).1.GetInode 1 "f" true
      = .ok (fsdb.NewInode 2 1 "f" ⟨"h.head", 1, ⟨0, 2, 0o644, 0, 0, 0, 0, 0, 0⟩⟩) ∧
    (0o644 &&& fsdb.ModeDir ≠ fsdb.ModeDir) ∧ (0o644 &&& fsdb.ModeSymlink ≠ fsdb.ModeSymlink) ∧
    ∃ fs2, ((NewMonoFS "test" 0 0 100).AddInode
        (fsdb.NewInode 2 1 "f" ⟨"h.head", 1, ⟨0, 2, 0o644, 0, 0, 0, 0, 0, 0⟩⟩)
        true).1.Unlink { Parent := 1, Name := "f" }
        = .returned fs2 { Parent := 1, Name := "f" } none ∧
      ((2 : Nat) > 1 →
        fs2.metadb.GetFsdbInodeAttributes 2
          = .ok ⟨"h.head", 1, ⟨0, 2 - 1, 0o644, 0, 0, 0, 0, 0, 0⟩⟩ ∧
        fs2.metadb.dentries = ((NewMonoFS "test" 0 0 100).AddInode
        (fsdb.NewInode 2 1 "f" ⟨"h.head", 1, ⟨0, 2, 0o644, 0, 0, 0, 0, 0, 0⟩⟩)
        true).1.metadb.dentries ∧
        ∀ id, id ≠ 2 →
          fsdb.rowGet fs2.metadb.attrs id = fsdb.rowGet ((NewMonoFS "test" 0 0 100).AddInode
        (fsdb.NewInode 2 1 "f" ⟨"h.head", 1, ⟨0, 2, 0o644, 0, 0, 0, 0, 0, 0⟩⟩)
        true).1.metadb.attrs id) ∧
      (¬ (2 : Nat) > 1 →
        fsdb.rowGet fs2.metadb.attrs 2 = none ∧
        fsdb.rowGet fs2.metadb.dentries (1, "f") = none ∧
        fs2.GetInode 1 "f" true = .error fsdb.Error.ErrNoSuchInode) :=
  ⟨by decide, rfl, by decide, by decide,
    unlink_file _ { Parent := 1, Name := "f" }
      (fsdb.NewInode 2 1 "f" ⟨"h.head", 1, ⟨0, 2, 0o644, 0, 0, 0, 0, 0, 0⟩⟩)
      (by decide) rfl (by decide) (by decide)⟩

/-! ## `CreateLink`, `CreateSymlink`, `ReadSymlink`, `CreateFile` (C24, C25, C26) -/

theorem GetFsdbInodeAttributes_locked (fs : Monofs) (key id : Nat) :
    fsdb.Fsdb.GetFsdbInodeAttributes
      (Monofs.metadb { fs with fsHashLock := { held := key :: fs.fsHashLock.held },
                               history := fs.history ++ [Event.Lock key] }) id
      = fs.metadb.GetFsdbInodeAttributes id := rfl

/-- C24, as stated, fails: `Nlink` is a `uint32` and `CreateLink` increments it
with `++`. From a state in which inode 2 has an attribute row with nlink
`2^32 - 1`, `CreateLink(1, "g", 2)` succeeds and stores the attributes with
nlink 0, not with the previous nlink plus one. -/
theorem link_count_wraps_at_uint32 :
    ∃ fs2 op2,
      ((NewMonoFS "test" 0 0 100).AddInode
          (fsdb.NewInode 2 1 "f" ⟨"h.head", 1, ⟨0, 4294967295, 0o644, 0, 0, 0, 0, 0, 0⟩⟩)
          true).1.metadb.GetFsdbInodeAttributes 2
        = .ok ⟨"h.head", 1, ⟨0, 4294967295, 0o644, 0, 0, 0, 0, 0, 0⟩⟩ ∧
      ((NewMonoFS "test" 0 0 100).AddInode
          (fsdb.NewInode 2 1 "f" ⟨"h.head", 1, ⟨0, 4294967295, 0o644, 0, 0, 0, 0, 0, 0⟩⟩)
          true).1.CreateLink
          { Parent := 1, Name := "g", Target := 2,
            Entry := { Child := 0, Attributes := ⟨0, 0, 0, 0, 0, 0, 0, 0, 0⟩ } }
        = .returned fs2 op2 none ∧
      fs2.metadb.GetFsdbInodeAttributes 2
        = .ok ⟨"h.head", 1, ⟨0, 0, 0o644, 0, 0, 0, 0, 0, 0⟩⟩ := by
  exact ⟨_, _, rfl, rfl, rfl⟩

/-- C24 (amended): in every state in which the lock of the parent is free:
when the target inode T has no attribute row, `CreateLink(parent, name, T)`
returns `ENOENT` and changes neither the metadata DB nor the lock; when T has
an attribute row whose nlink is below `2^32 - 1`, it returns no error, the
entry it reports has child id T, no inode id is allocated, the directory
entry `(parent, name)` now points to T, and T's attribute row holds the
attributes it had with nlink increased by one. -/
theorem create_link (fs : Monofs) (op : fuseops.CreateLinkOp)
    (hfree : op.Parent ∉ fs.fsHashLock.held) :
    (fs.metadb.GetFsdbInodeAttributes op.Target = .error fsdb.Error.ErrNoSuchInode →
      ∃ fs2, fs.CreateLink op = .returned fs2 op (some (Error.errno Errno.ENOENT)) ∧
        fs2.metadb = fs.metadb ∧ fs2.fsHashLock = fs.fsHashLock) ∧
    (∀ iattr, fs.metadb.GetFsdbInodeAttributes op.Target = .ok iattr →
      iattr.InodeAttributes.Nlink + 1 < 2 ^ 32 →
      ∃ fs2 op2, fs.CreateLink op = .returned fs2 op2 none ∧
        op2.Entry.Child = op.Target ∧
        op2.Entry.Attributes
          = { iattr.InodeAttributes with Nlink := iattr.InodeAttributes.Nlink + 1 } ∧
        fs2.metadb.nextID = fs.metadb.nextID ∧
        fsdb.rowGet fs2.metadb.dentries (op.Parent, op.Name) = some op.Target ∧
        fs2.metadb.GetFsdbInodeAttributes op.Target
          = .ok { iattr with InodeAttributes :=
              { iattr.InodeAttributes with Nlink := iattr.InodeAttributes.Nlink + 1 } }) := by
  constructor
  · intro hno
    unfold Monofs.CreateLink
    rw [Lock_free fs op.Parent hfree]
    simp only [GetFsdbInodeAttributes_locked, hno, if_true]
    refine ⟨_, rfl, rfl, ?_⟩
    simp [Monofs.Unlock, HashLock.Unlock]
  · intro iattr hok hlt
    obtain ⟨hf, ha⟩ := fsdb.GetFsdbInodeAttributes_ok fs.metadb op.Target iattr hok
    unfold Monofs.CreateLink
    rw [Lock_free fs op.Parent hfree]
    simp only [GetFsdbInodeAttributes_locked, hok, Monofs.AddInode, fsdb.Fsdb.AddInode, hf,
      Bool.false_eq_true, if_false, fsdb.NewInode, Nat.mod_eq_of_lt hlt]
    refine ⟨_, _, rfl, rfl, rfl, rfl, ?_, ?_⟩
    · simp only [Monofs.Unlock]
      exact fsdb.rowGet_rowSet_same _ _ _
    · simp only [Monofs.Unlock, fsdb.Fsdb.GetFsdbInodeAttributes, hf, Bool.false_eq_true,
        if_false, fsdb.rowGet_rowSet_same]

/-- The theorem of C24 at a concrete input (a target with one link), with its
hypotheses discharged. -/
theorem create_link_witness :
    (1 ∉ ((NewMonoFS "test" 0 0 100).AddInode
        (fsdb.NewInode 2 1 "f" ⟨"h.head", 1, ⟨0, 1, 0o644, 0, 0, 0, 0, 0, 0⟩⟩)
        true).1.fsHashLock.held) ∧
    ((NewMonoFS "test" 0 0 100).AddInode
        (fsdb.NewInode 2 1 "f" ⟨"h.head", 1, ⟨0, 1, 0o644, 0, 0, 0, 0, 0, 0⟩⟩)
        true).1.metadb.GetFsdbInodeAttributes 2
      = .ok ⟨"h.head", 1, ⟨0, 1, 0o644, 0, 0, 0, 0, 0, 0⟩⟩ ∧
    (1 + 1 < 2 ^ 32) ∧
    ∃ fs2 op2, ((NewMonoFS "test" 0 0 100).AddInode
        (fsdb.NewInode 2 1 "f" ⟨"h.head", 1, ⟨0, 1, 0o644, 0, 0, 0, 0, 0, 0⟩⟩)
        true).1.CreateLink
        { Parent := 1, Name := "g", Target := 2,
          Entry := { Child := 0, Attributes := ⟨0, 0, 0, 0, 0, 0, 0, 0, 0⟩ } }
        = .returned fs2 op2 none ∧
      op2.Entry.Child = 2 ∧
      op2.Entry.Attributes = ⟨0, 1 + 1, 0o644, 0, 0, 0, 0, 0, 0⟩ ∧
      fs2.metadb.nextID = ((NewMonoFS "test" 0 0 100).AddInode
        (fsdb.NewInode 2 1 "f" ⟨"h.head", 1, ⟨0, 1, 0o644, 0, 0, 0, 0, 0, 0⟩⟩)
        true).1.metadb.nextID ∧
      fsdb.rowGet fs2.metadb.dentries (1, "g") = some 2 ∧
      fs2.metadb.GetFsdbInodeAttributes 2
        = .ok ⟨"h.head", 1, ⟨0, 1 + 1, 0o644, 0, 0, 0, 0, 0, 0⟩⟩ :=
  ⟨by decide, rfl, by decide,
    (create_link _
        { Parent := 1, Name := "g", Target := 2,
          Entry := { Child := 0, Attributes := ⟨0, 0, 0, 0, 0, 0, 0, 0, 0⟩ } }
        (by decide)).2 ⟨"h.head", 1, ⟨0, 1, 0o644, 0, 0, 0, 0, 0, 0⟩⟩ rfl (by decide)⟩

/-- What `CreateSymlink` does when the lock of the parent is free and the
metadata DB answers. -/
theorem CreateSymlink_spec (fs : Monofs) (op : fuseops.CreateSymlinkOp)
    (hfree : op.Parent ∉ fs.fsHashLock.held) (hf : fs.metadb.failing = false) :
    ∃ fs2 op2, fs.CreateSymlink op = .returned fs2 op2 none ∧
      fs2.metadb.GetFsdbInodeAttributes op2.Entry.Child
        = .ok { Hash := op.Target, ParentID := 0,
                InodeAttributes :=
                  { Size := 0, Nlink := 1, Mode := 0o777 ||| fsdb.ModeSymlink, Rdev := 0,
                    Uid := fs.uid, Gid := fs.gid, Ctime := fs.Clock, Mtime := fs.Clock,
                    Atime := fs.Clock } } ∧
      fsdb.rowGet fs2.metadb.dentries (op.Parent, op.Name) = some op2.Entry.Child := by
  unfold Monofs.CreateSymlink
  rw [Lock_free fs op.Parent hfree]
  simp only [Monofs.NewInode, fsdb.Fsdb.NewInodeID, Monofs.AddInode, fsdb.Fsdb.AddInode, hf,
    Bool.false_eq_true, if_false, fsdb.NewInode]
  refine ⟨_, _, rfl, ?_, ?_⟩
  · simp only [Monofs.Unlock, fsdb.Fsdb.GetFsdbInodeAttributes, hf, Bool.false_eq_true,
      if_false, fsdb.Inode.ID, fsdb.rowGet_rowSet_same]
  · simp only [Monofs.Unlock, fsdb.Inode.ID]
    exact fsdb.rowGet_rowSet_same _ _ _

/-- A `CreateSymlink` that returns no error found the lock free and the
metadata DB answering. -/
theorem CreateSymlink_returned (fs fs2 : Monofs) (op op2 : fuseops.CreateSymlinkOp)
    (h : fs.CreateSymlink op = .returned fs2 op2 none) :
    op.Parent ∉ fs.fsHashLock.held ∧ fs.metadb.failing = false := by
  unfold Monofs.CreateSymlink at h
  cases hl : fs.Lock op.Parent with
  | none => rw [hl] at h; cases h
  | some fs1 =>
    obtain ⟨hfree, rfl⟩ := Lock_some fs fs1 op.Parent hl
    refine ⟨hfree, ?_⟩
    rw [hl] at h
    cases hf : fs.metadb.failing with
    | true =>
      simp [Monofs.NewInode, fsdb.Fsdb.NewInodeID, Monofs.AddInode, fsdb.Fsdb.AddInode, hf] at h
    | false => rfl

/-- C25: whenever `CreateSymlink(parent, name, target)` returns no error, the
inode it has created (the child id of the reported entry) has an attribute
row with hash equal to target, mode `0777 | symlink` and nlink 1, the
directory entry `(parent, name)` points to it, and `ReadSymlink` on that
child id returns no error and exactly target. -/
theorem create_symlink_read_symlink (fs fs2 : Monofs) (op op2 : fuseops.CreateSymlinkOp)
    (h : fs.CreateSymlink op = .returned fs2 op2 none) :
    (∃ a, fs2.metadb.GetFsdbInodeAttributes op2.Entry.Child = .ok a ∧
      a.Hash = op.Target ∧ a.InodeAttributes.Mode = 0o777 ||| fsdb.ModeSymlink ∧
      a.InodeAttributes.Nlink = 1) ∧
    fsdb.rowGet fs2.metadb.dentries (op.Parent, op.Name) = some op2.Entry.Child ∧
    ∀ t0, fs2.ReadSymlink { Inode := op2.Entry.Child, Target := t0 }
      = .returned fs2 { Inode := op2.Entry.Child, Target := op.Target } none := by
  obtain ⟨hfree, hf⟩ := CreateSymlink_returned fs fs2 op op2 h
  obtain ⟨fs3, op3, h3, hrow, hent⟩ := CreateSymlink_spec fs op hfree hf
  rw [h] at h3
  simp only [Outcome.returned.injEq, and_true] at h3
  obtain ⟨rfl, rfl⟩ := h3
  refine ⟨⟨_, hrow, rfl, rfl, rfl⟩, hent, ?_⟩
  intro t0
  unfold Monofs.ReadSymlink
  simp only [hrow]
  rw [if_pos (by decide)]

/-- The theorem of C25 at a concrete input, with its hypothesis discharged. -/
theorem create_symlink_read_symlink_witness :
    ∃ fs2 op2,
      (NewMonoFS "test" 0 0 100).CreateSymlink
        { Parent := 1, Name := "l", Target := "/foo",
          Entry := { Child := 0, Attributes := ⟨0, 0, 0, 0, 0, 0, 0, 0, 0⟩ } }
        = .returned fs2 op2 none ∧
      ((∃ a, fs2.metadb.GetFsdbInodeAttributes op2.Entry.Child = .ok a ∧
        a.Hash = "/foo" ∧ a.InodeAttributes.Mode = 0o777 ||| fsdb.ModeSymlink ∧
        a.InodeAttributes.Nlink = 1) ∧
      fsdb.rowGet fs2.metadb.dentries (1, "l") = some op2.Entry.Child ∧
      ∀ t0, fs2.ReadSymlink { Inode := op2.Entry.Child, Target := t0 }
        = .returned fs2 { Inode := op2.Entry.Child, Target := "/foo" } none) :=
  ⟨_, _, rfl,
    create_symlink_read_symlink (NewMonoFS "test" 0 0 100) _
      { Parent := 1, Name := "l", Target := "/foo",
          Entry := { Child := 0, Attributes := ⟨0, 0, 0, 0, 0, 0, 0, 0, 0⟩ } } _ rfl⟩

/-- C26: for every state in which the lock of the parent is free and
`(parent, name)` already resolves to an inode, `CreateFile(parent, name, mode)`
returns no error, reports that inode's id and attributes, and leaves the
metadata DB as it was, the counter of inode ids included: nothing is
allocated, and the record of the call shows no mutation of the DB. -/
theorem create_file_existing (fs : Monofs) (op : fuseops.CreateFileOp) (inode : fsdb.Inode)
    (hfree : op.Parent ∉ fs.fsHashLock.held)
    (hget : fs.GetInode op.Parent op.Name true = .ok inode) :
    ∃ fs2 op2, fs.CreateFile op = .returned fs2 op2 none ∧
      op2.Entry.Child = inode.InodeID ∧
      op2.Entry.Attributes = inode.Attrs.InodeAttributes ∧
      fs2.metadb = fs.metadb ∧ fs2.metadb.nextID = fs.metadb.nextID ∧
      fs2.history = fs.history ++ [Event.Lock op.Parent, Event.Unlock op.Parent] := by
  unfold Monofs.CreateFile
  rw [Lock_free fs op.Parent hfree]
  simp only [GetInode_locked, hget]
  refine ⟨_, _, rfl, rfl, rfl, rfl, rfl, ?_⟩
  simp [Monofs.Unlock]

/-- The theorem of C26 at a concrete input, with its hypotheses discharged. -/
theorem create_file_existing_witness :
    (1 ∉ ((NewMonoFS "test" 0 0 100).AddInode
        (fsdb.NewInode 2 1 "f" ⟨"h.head", 1, ⟨0, 1, 0o644, 0, 0, 0, 0, 0, 0⟩⟩)
        true).1.fsHashLock.held) ∧
    ((NewMonoFS "test" 0 0 100).AddInode
        (fsdb.NewInode 2 1 "f" ⟨"h.head", 1, ⟨0, 1, 0o644, 0, 0, 0, 0, 0, 0⟩⟩)
        true).1.GetInode 1 "f" true
      = .ok (fsdb.NewInode 2 1 "f" ⟨"h.head", 1, ⟨0, 1, 0o644, 0, 0, 0, 0, 0, 0⟩⟩) ∧
    ∃ fs2 op2, ((NewMonoFS "test" 0 0 100).AddInode
        (fsdb.NewInode 2 1 "f" ⟨"h.head", 1, ⟨0, 1, 0o644, 0, 0, 0, 0, 0, 0⟩⟩)
        true).1.CreateFile
        { Parent := 1, Name := "f", Mode := 0o600,
          Entry := { Child := 0, Attributes := ⟨0, 0, 0, 0, 0, 0, 0, 0, 0⟩ }, Handle := 7 }
        = .returned fs2 op2 none ∧
      op2.Entry.Child = 2 ∧
      op2.Entry.Attributes = ⟨0, 1, 0o644, 0, 0, 0, 0, 0, 0⟩ ∧
      fs2.metadb = ((NewMonoFS "test" 0 0 100).AddInode
        (fsdb.NewInode 2 1 "f" ⟨"h.head", 1, ⟨0, 1, 0o644, 0, 0, 0, 0, 0, 0⟩⟩)
        true).1.metadb ∧
      fs2.metadb.nextID = ((NewMonoFS "test" 0 0 100).AddInode
        (fsdb.NewInode 2 1 "f" ⟨"h.head", 1, ⟨0, 1, 0o644, 0, 0, 0, 0, 0, 0⟩⟩)
        true).1.metadb.nextID ∧
      fs2.history = ((NewMonoFS "test" 0 0 100).AddInode
        (fsdb.NewInode 2 1 "f" ⟨"h.head", 1, ⟨0, 1, 0o644, 0, 0, 0, 0, 0, 0⟩⟩)
        true).1.history ++ [Event.Lock 1, Event.Unlock 1] :=
  ⟨by decide, rfl,
    create_file_existing _
      { Parent := 1, Name := "f", Mode := 0o600,
          Entry := { Child := 0, Attributes := ⟨0, 0, 0, 0, 0, 0, 0, 0, 0⟩ }, Handle := 7 }
      (fsdb.NewInode 2 1 "f" ⟨"h.head", 1, ⟨0, 1, 0o644, 0, 0, 0, 0, 0, 0⟩⟩)
      (by decide) rfl⟩

/-! ## `Rename` (C27, C28) -/

/-- What `Rename` does from a state in which the locks of both parents are free
and the old entry resolves: it deletes the inode under the lock of the old
parent, releases that lock, takes the lock of the new parent, adds the inode
under its new parent and name with `mtime` and `atime` set to the clock, and
then blocks: the call deferred at the second lock is `Lock`, on the mutex the
call itself holds. -/
theorem Rename_blocks (fs : Monofs) (op : fuseops.RenameOp) (inode : fsdb.Inode)
    (hold : op.OldParent ∉ fs.fsHashLock.held) (hnew : op.NewParent ∉ fs.fsHashLock.held)
    (hget : fs.GetInode op.OldParent op.OldName true = .ok inode) :
    ∃ fs2, fs.Rename op = .blocked fs2 ∧
      fs2.GetInode op.NewParent op.NewName true
        = .ok { InodeID := inode.InodeID, ParentID := op.NewParent, Name := op.NewName,
                Attrs := { Hash := inode.Attrs.Hash, ParentID := op.NewParent,
                           InodeAttributes :=
                             { inode.Attrs.InodeAttributes with
                                 Mtime := fs.Clock, Atime := fs.Clock } } } ∧
      ((op.OldParent, op.OldName) ≠ (op.NewParent, op.NewName) →
        fs2.GetInode op.OldParent op.OldName true = .error fsdb.Error.ErrNoSuchInode) ∧
      fs2.history = fs.history ++
        [Event.Lock op.OldParent, Event.DeleteInode inode.InodeID, Event.Unlock op.OldParent,
         Event.Lock op.NewParent, Event.AddInode inode.InodeID] ∧
      fs2.fsHashLock.held = op.NewParent :: fs.fsHashLock.held := by
  obtain ⟨hf, hd, ha, hp, hn⟩ := fsdb.GetInode_ok fs.metadb op.OldParent op.OldName inode hget
  unfold Monofs.Rename
  rw [Lock_free fs op.OldParent hold]
  simp only [GetInode_locked, hget, Monofs.DeleteInode, fsdb.Fsdb.DeleteInode, hf,
    Bool.false_eq_true, if_false]
  rw [Lock_free _ op.NewParent (by simpa [Monofs.Unlock, HashLock.Unlock] using hnew)]
  simp only [Monofs.AddInode, fsdb.Fsdb.AddInode, Monofs.Unlock, hf, Bool.false_eq_true,
    if_false, fsdb.Inode.SetParent, fsdb.Inode.SetName, fsdb.Inode.SetAttrsParent]
  rw [Lock_held _ op.NewParent (by simp)]
  refine ⟨_, rfl, ?_, ?_, ?_, ?_⟩
  · simp only [Monofs.GetInode, fsdb.Fsdb.GetInode, hf, Bool.false_eq_true, if_false,
      fsdb.rowGet_rowSet_same]
  · intro hne
    have hne2 : (op.OldParent, op.OldName) ≠ (op.NewParent, op.NewName) := hne
    simp only [Monofs.GetInode, fsdb.Fsdb.GetInode, hf, Bool.false_eq_true, if_false]
    rw [fsdb.rowGet_rowSet_other _ _ _ _ hne2, hp, hn, fsdb.rowGet_rowDelete_same]
  · simp [List.append_assoc]
  · simp [HashLock.Unlock]

/-- No call of `Rename` returns without an error: once the lock of the new
parent is taken, the only way out passes the deferred `Lock` of the same
mutex. -/
theorem Rename_never_succeeds (fs fs2 : Monofs) (op op2 : fuseops.RenameOp) :
    fs.Rename op ≠ .returned fs2 op2 none := by
  intro h
  unfold Monofs.Rename at h
  cases h1 : fs.Lock op.OldParent with
  | none => rw [h1] at h; cases h
  | some fs1 =>
    rw [h1] at h
    simp only at h
    cases h2 : fs1.GetInode op.OldParent op.OldName true with
    | error err =>
      rw [h2] at h
      simp only at h
      split at h <;> cases h
    | ok inode =>
      rw [h2] at h
      simp only at h
      cases h3 : (fs1.DeleteInode inode false).2 with
      | some err =>
        rw [h3] at h
        cases h
      | none =>
        rw [h3] at h
        simp only at h
        cases h4 : ((fs1.DeleteInode inode false).1.Unlock op.OldParent).Lock op.NewParent with
        | none => rw [h4] at h; cases h
        | some fs3 =>
          rw [h4] at h
          simp only at h
          obtain ⟨_, h5⟩ := Lock_some _ fs3 op.NewParent h4
          have hheld : op.NewParent ∈ fs3.fsHashLock.held := by
            rw [h5]
            exact List.mem_cons_self _ _
          simp only [Monofs.AddInode, fsdb.Fsdb.AddInode] at h
          cases hf : fs3.metadb.failing with
          | true =>
            simp only [hf, if_true] at h
            rw [Lock_held] at h
            · cases h
            · exact hheld
          | false =>
            simp only [hf, Bool.false_eq_true, if_false] at h
            rw [Lock_held] at h
            · cases h
            · exact hheld

/-- C27 (the code falls short of it): no call of `Rename` ever returns without
an error. From a state in which `(1, "f")` resolves to inode 2,
`Rename(1, "f", 1, "g")` does move the entry, so that `(1, "g")` resolves to
inode 2 with parent 1, name "g" and `mtime` and `atime` at the clock (100)
and `(1, "f")` no longer resolves, but the call does not return: the call
deferred after `Lock(NewParent)` is `Lock(NewParent)` again, and the handler
blocks on the mutex it holds (parent 1 stays locked). -/
theorem rename_moves_entry_then_blocks :
    (∀ (fs fs2 : Monofs) (op op2 : fuseops.RenameOp), fs.Rename op ≠ .returned fs2 op2 none) ∧
    ∃ fs2, ((NewMonoFS "test" 0 0 100).AddInode
        (fsdb.NewInode 2 1 "f" ⟨"h.head", 1, ⟨0, 1, 0o644, 0, 0, 0, 0, 0, 0⟩⟩)
        true).1.Rename
        { OldParent := 1, OldName := "f", NewParent := 1, NewName := "g" } = .blocked fs2 ∧
      fs2.GetInode 1 "g" true
        = .ok ⟨2, 1, "g", ⟨"h.head", 1, ⟨0, 1, 0o644, 0, 0, 0, 100, 100, 0⟩⟩⟩ ∧
      fs2.GetInode 1 "f" true = .error fsdb.Error.ErrNoSuchInode ∧
      fs2.fsHashLock.held = [1] :=
  ⟨Rename_never_succeeds, _, rfl, rfl, rfl, rfl⟩

/-- C28 (the code falls short of it): from a state in which `(1, "f")`
resolves to inode 2, the record of `Rename(1, "f", 3, "g")` is: lock of parent
1, delete of inode 2, unlock of parent 1, lock of parent 3, add of inode 2.
The lock of the new parent 3 is taken only after the delete, and the lock of
the old parent 1 is released between the delete and the add, so neither lock
is held across both mutations. -/
theorem rename_releases_old_parent_early :
    ∃ fs2, ((NewMonoFS "test" 0 0 100).AddInode
        (fsdb.NewInode 2 1 "f" ⟨"h.head", 1, ⟨0, 1, 0o644, 0, 0, 0, 0, 0, 0⟩⟩)
        true).1.Rename
        { OldParent := 1, OldName := "f", NewParent := 3, NewName := "g" } = .blocked fs2 ∧
      fs2.history = ((NewMonoFS "test" 0 0 100).AddInode
        (fsdb.NewInode 2 1 "f" ⟨"h.head", 1, ⟨0, 1, 0o644, 0, 0, 0, 0, 0, 0⟩⟩)
        true).1.history ++
        [Event.Lock 1, Event.DeleteInode 2, Event.Unlock 1, Event.Lock 3, Event.AddInode 2] :=
  ⟨_, rfl, rfl⟩

/-! ## The errors of the handlers (C29) and `OpenFile` (C30) -/

/-- The error of `FsFile.WriteAt` is always nil. -/
theorem WriteAt_no_error (f f2 : file.FsFile) (b : List Nat) (off : Int) (n : Nat)
    (err : Option file.EngineError) (h : f.WriteAt b off = some (f2, n, err)) : err = none := by
  unfold file.FsFile.WriteAt at h
  simp only at h
  split at h
  · cases h
  · simp only [Option.some.injEq, Prod.mk.injEq] at h
    exact h.2.2.symm

theorem Unlink_error_errno (fs fs2 : Monofs) (op op2 : fuseops.UnlinkOp) (e : Error)
    (h : fs.Unlink op = .returned fs2 op2 (some e)) : ∃ n, e = Error.errno n := by
  unfold Monofs.Unlink at h
  cases hl : fs.Lock op.Parent with
  | none => rw [hl] at h; cases h
  | some fs1 =>
    rw [hl] at h
    simp only [Outcome.returned.injEq] at h
    obtain ⟨_, _, h3⟩ := h
    revert h3
    repeat' split
    all_goals
      intro h3
      first
        | exact ⟨_, (Option.some.inj h3).symm⟩
        | cases h3

theorem CreateFile_error_errno (fs fs2 : Monofs) (op op2 : fuseops.CreateFileOp) (e : Error)
    (h : fs.CreateFile op = .returned fs2 op2 (some e)) : ∃ n, e = Error.errno n := by
  unfold Monofs.CreateFile at h
  cases hl : fs.Lock op.Parent with
  | none => rw [hl] at h; cases h
  | some fs1 =>
    rw [hl] at h
    simp only [Outcome.returned.injEq] at h
    obtain ⟨_, _, h3⟩ := h
    revert h3
    repeat' split
    all_goals
      intro h3
      first
        | exact ⟨_, (Option.some.inj h3).symm⟩
        | cases h3

theorem CreateLink_error_errno (fs fs2 : Monofs) (op op2 : fuseops.CreateLinkOp) (e : Error)
    (h : fs.CreateLink op = .returned fs2 op2 (some e)) : ∃ n, e = Error.errno n := by
  unfold Monofs.CreateLink at h
  cases hl : fs.Lock op.Parent with
  | none => rw [hl] at h; cases h
  | some fs1 =>
    rw [hl] at h
    simp only [Outcome.returned.injEq] at h
    obtain ⟨_, _, h3⟩ := h
    revert h3
    repeat' split
    all_goals
      intro h3
      first
        | exact ⟨_, (Option.some.inj h3).symm⟩
        | cases h3

theorem CreateSymlink_error_errno (fs fs2 : Monofs) (op op2 : fuseops.CreateSymlinkOp) (e : Error)
    (h : fs.CreateSymlink op = .returned fs2 op2 (some e)) : ∃ n, e = Error.errno n := by
  unfold Monofs.CreateSymlink at h
  cases hl : fs.Lock op.Parent with
  | none => rw [hl] at h; cases h
  | some fs1 =>
    rw [hl] at h
    simp only [Outcome.returned.injEq] at h
    obtain ⟨_, _, h3⟩ := h
    revert h3
    repeat' split
    all_goals
      intro h3
      first
        | exact ⟨_, (Option.some.inj h3).symm⟩
        | cases h3

theorem ReadSymlink_error_errno (fs fs2 : Monofs) (op op2 : fuseops.ReadSymlinkOp) (e : Error)
    (h : fs.ReadSymlink op = .returned fs2 op2 (some e)) : ∃ n, e = Error.errno n := by
  unfold Monofs.ReadSymlink at h
  revert h
  repeat' split
  all_goals
    intro h
    cases h <;> exact ⟨_, rfl⟩

theorem OpenFile_error_errno (fs fs2 : Monofs) (op op2 : fuseops.OpenFileOp) (e : Error)
    (h : fs.OpenFile op = .returned fs2 op2 (some e)) : ∃ n, e = Error.errno n := by
  unfold Monofs.OpenFile at h
  revert h
  repeat' split
  all_goals
    intro h
    cases h <;> exact ⟨_, rfl⟩

theorem Rename_error_errno (fs fs2 : Monofs) (op op2 : fuseops.RenameOp) (e : Error)
    (h : fs.Rename op = .returned fs2 op2 (some e)) : ∃ n, e = Error.errno n := by
  unfold Monofs.Rename at h
  cases h1 : fs.Lock op.OldParent with
  | none => rw [h1] at h; cases h
  | some fs1 =>
    rw [h1] at h
    simp only at h
    cases h2 : fs1.GetInode op.OldParent op.OldName true with
    | error err =>
      rw [h2] at h
      simp only at h
      split at h <;> cases h <;> exact ⟨_, rfl⟩
    | ok inode =>
      rw [h2] at h
      simp only at h
      cases h3 : (fs1.DeleteInode inode false).2 with
      | some err =>
        rw [h3] at h
        cases h
        exact ⟨_, rfl⟩
      | none =>
        rw [h3] at h
        simp only at h
        cases h4 : ((fs1.DeleteInode inode false).1.Unlock op.OldParent).Lock op.NewParent with
        | none => rw [h4] at h; cases h
        | some fs3 =>
          rw [h4] at h
          simp only at h
          split at h
          · cases h
          · simp only [Outcome.returned.injEq] at h
            obtain ⟨_, _, h5⟩ := h
            revert h5
            split
            · intro h5
              exact ⟨_, (Option.some.inj h5).symm⟩
            · intro h5
              cases h5

theorem WriteFile_error_errno (fs fs2 : Monofs) (op op2 : fuseops.WriteFileOp) (e : Error)
    (h : fs.WriteFile op = .returned fs2 op2 (some e)) : ∃ n, e = Error.errno n := by
  unfold Monofs.WriteFile at h
  cases hg : fsdb.rowGet fs.fileHandles op.Handle with
  | none =>
    rw [hg] at h
    simp only [Outcome.returned.injEq] at h
    exact ⟨_, (Option.some.inj h.2.2).symm⟩
  | some handle =>
    rw [hg] at h
    simp only at h
    cases hw : handle.WriteAt op.Data op.Offset with
    | none => rw [hw] at h; cases h
    | some res =>
      obtain ⟨f2, n, err⟩ := res
      rw [hw] at h
      have := WriteAt_no_error handle f2 op.Data op.Offset n err hw
      subst this
      simp at h

theorem FlushFile_error_errno (fs fs2 : Monofs) (op op2 : fuseops.FlushFileOp) (e : Error)
    (h : fs.FlushFile op = .returned fs2 op2 (some e)) : ∃ n, e = Error.errno n := by
  unfold Monofs.FlushFile at h
  cases hg : fsdb.rowGet fs.fileHandles op.Handle with
  | none =>
    rw [hg] at h
    simp only [Outcome.returned.injEq] at h
    exact ⟨_, (Option.some.inj h.2.2).symm⟩
  | some handle =>
    rw [hg] at h
    simp [file.FsFile.Sync] at h

theorem SyncFile_error_errno (fs fs2 : Monofs) (op op2 : fuseops.SyncFileOp) (e : Error)
    (h : fs.SyncFile op = .returned fs2 op2 (some e)) : ∃ n, e = Error.errno n := by
  unfold Monofs.SyncFile at h
  cases hg : fsdb.rowGet fs.fileHandles op.Handle with
  | none =>
    rw [hg] at h
    simp only [Outcome.returned.injEq] at h
    exact ⟨_, (Option.some.inj h.2.2).symm⟩
  | some handle =>
    rw [hg] at h
    simp [file.FsFile.Sync] at h

theorem ReleaseFileHandle_no_error (fs fs2 : Monofs) (op op2 : fuseops.ReleaseFileHandleOp)
    (e : Error) : fs.ReleaseFileHandle op ≠ .returned fs2 op2 (some e) := by
  intro h
  simp [Monofs.ReleaseFileHandle] at h

/-- C29 (the code falls short of it): on a filesystem with a file inode 2,
`OpenFile(2, handle 7)` succeeds, and `ReadFile(handle 7, offset 10, size 5)`
then returns the error that `PickBlocks` makes with `errors.New` ("offset is
bigger than data length") as it is: `ReadFile` hands on the error of `ReadAt`
without mapping it, so the value returned is no errno, and not `EIO`. -/
theorem read_file_returns_raw_error :
    ∃ fs1 fs2 op2,
      ((NewMonoFS "test" 0 0 100).AddInode
        (fsdb.NewInode 2 1 "f" ⟨"h.head", 1, ⟨0, 1, 0o644, 0, 0, 0, 0, 0, 0⟩⟩)
        true).1.OpenFile { Inode := 2, Handle := 7 }
        = .returned fs1 { Inode := 2, Handle := 7 } none ∧
      fs1.ReadFile { Handle := 7, Offset := 10, Size := 5, Dst := [], BytesRead := 0 }
        = .returned fs2 op2
            (some (Error.engine file.EngineError.OffsetBiggerThanDataLength)) ∧
      ∀ n, Error.engine file.EngineError.OffsetBiggerThanDataLength ≠ Error.errno n := by
  refine ⟨_, _, _, rfl, rfl, ?_⟩
  intro n h
  cases h

/-- The errors of `ReadFile`: `EINVAL` for an unknown handle, and whatever error
`ReadAt` returns, handed on as it is. -/
theorem ReadFile_error (fs fs2 : Monofs) (op op2 : fuseops.ReadFileOp) (e : Error)
    (h : fs.ReadFile op = .returned fs2 op2 (some e)) :
    e = Error.errno Errno.EINVAL ∨ ∃ x, e = Error.engine x := by
  unfold Monofs.ReadFile at h
  cases hg : fsdb.rowGet fs.fileHandles op.Handle with
  | none =>
    rw [hg] at h
    simp only [Outcome.returned.injEq] at h
    exact Or.inl (Option.some.inj h.2.2).symm
  | some handle =>
    rw [hg] at h
    simp only at h
    cases hr : handle.ReadAt op.Dst op.Offset op.Size with
    | none => rw [hr] at h; cases h
    | some res =>
      obtain ⟨n, err⟩ := res
      rw [hr] at h
      simp only [Outcome.returned.injEq] at h
      cases err with
      | none => simp at h
      | some x =>
        simp only [Option.map_some'] at h
        exact Or.inr ⟨x, (Option.some.inj h.2.2).symm⟩

/-- C30: for every state and every inode id, `OpenFile` returns `ENOENT` when
the inode has no attribute row, and an error (`EIO`) when the inode is a file
whose hash is empty, in both cases with the state, the handle table included,
as it was; in every other case in which the attribute row is read it returns
no error, and the handle table maps the given handle id to the handle that
`monofile.New` builds for that inode and its hash, the other handle ids and
the metadata DB being as before. -/
theorem open_file (fs : Monofs) (op : fuseops.OpenFileOp) :
    (fs.metadb.GetFsdbInodeAttributes op.Inode = .error fsdb.Error.ErrNoSuchInode →
      fs.OpenFile op = .returned fs op (some (Error.errno Errno.ENOENT))) ∧
    (∀ a, fs.metadb.GetFsdbInodeAttributes op.Inode = .ok a → a.Hash = "" →
      fsdb.InodeDirentType a.InodeAttributes.Mode = fsdb.DirentType.DT_File →
      fs.OpenFile op = .returned fs op (some (Error.errno Errno.EIO))) ∧
    (∀ a, fs.metadb.GetFsdbInodeAttributes op.Inode = .ok a →
      ¬ (a.Hash = "" ∧
        fsdb.InodeDirentType a.InodeAttributes.Mode = fsdb.DirentType.DT_File) →
      ∃ fs2, fs.OpenFile op = .returned fs2 op none ∧
        fsdb.rowGet fs2.fileHandles op.Handle
          = some (file.New fs.Name op.Inode a.Hash fs.localDataPath (fs.content a.Hash)) ∧
        (file.New fs.Name op.Inode a.Hash fs.localDataPath (fs.content a.Hash)).inode
          = op.Inode ∧
        (file.New fs.Name op.Inode a.Hash fs.localDataPath (fs.content a.Hash)).hash
          = a.Hash ∧
        (∀ h, h ≠ op.Handle → fsdb.rowGet fs2.fileHandles h = fsdb.rowGet fs.fileHandles h) ∧
        fs2.metadb = fs.metadb) := by
  refine ⟨?_, ?_, ?_⟩
  · intro hno
    unfold Monofs.OpenFile
    rw [hno]
    simp
  · intro a hok hh hk
    unfold Monofs.OpenFile
    rw [hok]
    simp only [fsdb.InodeAttributes.GetHash]
    rw [if_pos ⟨hh, hk⟩]
  · intro a hok hn
    unfold Monofs.OpenFile
    rw [hok]
    simp only [fsdb.InodeAttributes.GetHash]
    rw [if_neg hn]
    refine ⟨_, rfl, fsdb.rowGet_rowSet_same _ _ _, rfl, rfl, ?_, rfl⟩
    intro h hne
    exact fsdb.rowGet_rowSet_other _ _ _ _ hne

/-- The theorem of C30 at a concrete input (a file inode with a hash), with its
hypotheses discharged. -/
theorem open_file_witness :
    ((NewMonoFS "test" 0 0 100).AddInode
        (fsdb.NewInode 2 1 "f" ⟨"h.head", 1, ⟨0, 1, 0o644, 0, 0, 0, 0, 0, 0⟩⟩)
        true).1.metadb.GetFsdbInodeAttributes 2
      = .ok ⟨"h.head", 1, ⟨0, 1, 0o644, 0, 0, 0, 0, 0, 0⟩⟩ ∧
    ¬ ("h.head" = "" ∧ fsdb.InodeDirentType 0o644 = fsdb.DirentType.DT_File) ∧
    ∃ fs2, ((NewMonoFS "test" 0 0 100).AddInode
        (fsdb.NewInode 2 1 "f" ⟨"h.head", 1, ⟨0, 1, 0o644, 0, 0, 0, 0, 0, 0⟩⟩)
        true).1.OpenFile { Inode := 2, Handle := 7 }
        = .returned fs2 { Inode := 2, Handle := 7 } none ∧
      fsdb.rowGet fs2.fileHandles 7
        = some (file.New "test" 2 "h.head" "data" []) ∧
      (file.New "test" 2 "h.head" "data" []).inode = 2 ∧
      (file.New "test" 2 "h.head" "data" []).hash = "h.head" ∧
      (∀ h, h ≠ 7 → fsdb.rowGet fs2.fileHandles h
        = fsdb.rowGet ((NewMonoFS "test" 0 0 100).AddInode
        (fsdb.NewInode 2 1 "f" ⟨"h.head", 1, ⟨0, 1, 0o644, 0, 0, 0, 0, 0, 0⟩⟩)
        true).1.fileHandles h) ∧
      fs2.metadb = ((NewMonoFS "test" 0 0 100).AddInode
        (fsdb.NewInode 2 1 "f" ⟨"h.head", 1, ⟨0, 1, 0o644, 0, 0, 0, 0, 0, 0⟩⟩)
        true).1.metadb :=
  ⟨rfl, by decide,
    (open_file ((NewMonoFS "test" 0 0 100).AddInode
        (fsdb.NewInode 2 1 "f" ⟨"h.head", 1, ⟨0, 1, 0o644, 0, 0, 0, 0, 0, 0⟩⟩)
        true).1 { Inode := 2, Handle := 7 }).2.2
      ⟨"h.head", 1, ⟨0, 1, 0o644, 0, 0, 0, 0, 0, 0⟩⟩ rfl (by decide)⟩

/-! ## `WriteFile`, `ReadFile` and `ReleaseFileHandle` (C31, C32, C39) -/

/-- What `WriteFile` does on an open handle for arguments in the ranges of their
Go types: it returns no error and stores the file that `WriteAt` leaves under
the handle id. -/
theorem WriteFile_eq (fs : Monofs) (op : fuseops.WriteFileOp) (handle : file.FsFile)
    (hh : fsdb.rowGet fs.fileHandles op.Handle = some handle)
    (hoff : 0 ≤ op.Offset) (ho : op.Offset < 2 ^ 63) (hb : op.Data.length < 2 ^ 63)
    (hd : handle.data.length < 2 ^ 63) :
    ∃ handle2, handle.WriteAt op.Data op.Offset = some (handle2, op.Data.length, none) ∧
      fs.WriteFile op = .returned
        { fs with fileHandles := fsdb.rowSet fs.fileHandles op.Handle handle2 } op none ∧
      handle2.data = (handle.data ++ List.replicate
          (op.Offset.toNat + op.Data.length - handle.data.length) 0).take op.Offset.toNat
        ++ op.Data ++ handle.data.drop (op.Offset.toNat + op.Data.length) ∧
      handle2.fsEngine = handle.fsEngine := by
  obtain ⟨o, ho2⟩ := Int.eq_ofNat_of_zero_le hoff
  have hw := file.WriteAt_eq handle op.Data o (by omega) hb hd
  rw [← ho2] at hw
  refine ⟨_, hw, ?_, ?_, rfl⟩
  · unfold Monofs.WriteFile
    rw [hh]
    simp only
    rw [hw]
    rfl
  · rw [ho2]
    rfl

/-- C31, as stated, fails: on a filesystem with a file inode 2, after
`OpenFile(2, handle 7)` the call `WriteFile(handle 7, offset 0, [1, 2, 3])`
succeeds and the in-memory content of the handle is `[1, 2, 3]`, but the
data engine of the handle is the one it had before the call: its store is
still empty, and `ReadBlock(0)`, the block covering `[0, 3)`, returns
`ErrItemNotFound`. `WriteFile` calls `FsFile.WriteAt`, which never calls
`WriteBlock`. -/
theorem write_file_skips_engine :
    ∃ fs1 fs2 handle1 handle2,
      ((NewMonoFS "test" 0 0 100).AddInode
        (fsdb.NewInode 2 1 "f" ⟨"h.head", 1, ⟨0, 1, 0o644, 0, 0, 0, 0, 0, 0⟩⟩)
        true).1.OpenFile { Inode := 2, Handle := 7 }
        = .returned fs1 { Inode := 2, Handle := 7 } none ∧
      fsdb.rowGet fs1.fileHandles 7 = some handle1 ∧
      fs1.WriteFile { Handle := 7, Offset := 0, Data := [1, 2, 3] }
        = .returned fs2 { Handle := 7, Offset := 0, Data := [1, 2, 3] } none ∧
      fsdb.rowGet fs2.fileHandles 7 = some handle2 ∧
      handle2.data = [1, 2, 3] ∧
      handle2.fsEngine = handle1.fsEngine ∧
      handle2.fsEngine.kvs.file = [] ∧
      handle2.fsEngine.ReadBlock 0 = some (.error kvstore.Error.ErrItemNotFound) :=
  ⟨_, _, _, _, rfl, rfl, rfl, rfl, rfl, rfl, rfl, rfl⟩

/-- C31 (amended): for every open handle, offset and data (an offset
`>= 0` of type `int64`, lengths of type `int`), `WriteFile(handle, offset,
data)` succeeds and writes to the in-memory content of the handle only:
afterwards that content holds the written bytes at
`[offset, offset+len(data))` and has length
`max(len(content), offset+len(data))`, while the handle's data engine is as
before the call (`ReadBlock` of every block returns what it returned before),
and so are the other handles and the metadata DB. -/
theorem write_file_in_memory (fs : Monofs) (op : fuseops.WriteFileOp) (handle : file.FsFile)
    (hh : fsdb.rowGet fs.fileHandles op.Handle = some handle)
    (hoff : 0 ≤ op.Offset) (ho : op.Offset < 2 ^ 63) (hb : op.Data.length < 2 ^ 63)
    (hd : handle.data.length < 2 ^ 63) :
    ∃ fs2 handle2, fs.WriteFile op = .returned fs2 op none ∧
      fsdb.rowGet fs2.fileHandles op.Handle = some handle2 ∧
      (∀ i, i < op.Data.length → handle2.data[op.Offset.toNat + i]? = op.Data[i]?) ∧
      handle2.data.length = max handle.data.length (op.Offset.toNat + op.Data.length) ∧
      handle2.fsEngine = handle.fsEngine ∧
      (∀ block, handle2.fsEngine.ReadBlock block = handle.fsEngine.ReadBlock block) ∧
      (∀ h, h ≠ op.Handle → fsdb.rowGet fs2.fileHandles h = fsdb.rowGet fs.fileHandles h) ∧
      fs2.metadb = fs.metadb := by
  obtain ⟨h1, h2, _, _⟩ := file.written_content handle.data op.Data op.Offset.toNat
  obtain ⟨handle2, _, hw, hdata, heng⟩ := WriteFile_eq fs op handle hh hoff ho hb hd
  rw [← hdata] at h1 h2
  refine ⟨_, handle2, hw, fsdb.rowGet_rowSet_same _ _ _, h2, h1, heng, ?_, ?_, rfl⟩
  · intro block
    rw [heng]
  · intro h hne
    exact fsdb.rowGet_rowSet_other _ _ _ _ hne

/-- C32: for every state and handle id h, `ReleaseFileHandle(h)` returns no
error and removes h from the handle table while leaving every other handle
entry, the metadata DB and the locks unchanged; afterwards `ReadFile`,
`WriteFile`, `FlushFile` and `SyncFile` on h each return `EINVAL`, whatever
their other arguments, and leave the state as it is. -/
theorem release_file_handle (fs : Monofs) (op : fuseops.ReleaseFileHandleOp) :
    ∃ fs2, fs.ReleaseFileHandle op = .returned fs2 op none ∧
      fsdb.rowGet fs2.fileHandles op.Handle = none ∧
      (∀ h, h ≠ op.Handle → fsdb.rowGet fs2.fileHandles h = fsdb.rowGet fs.fileHandles h) ∧
      fs2.metadb = fs.metadb ∧ fs2.fsHashLock = fs.fsHashLock ∧
      (∀ off size dst n,
        fs2.ReadFile { Handle := op.Handle, Offset := off, Size := size, Dst := dst,
                       BytesRead := n }
          = .returned fs2 { Handle := op.Handle, Offset := off, Size := size, Dst := dst,
                            BytesRead := n } (some (Error.errno Errno.EINVAL))) ∧
      (∀ off data,
        fs2.WriteFile { Handle := op.Handle, Offset := off, Data := data }
          = .returned fs2 { Handle := op.Handle, Offset := off, Data := data }
              (some (Error.errno Errno.EINVAL))) ∧
      fs2.FlushFile { Handle := op.Handle }
        = .returned fs2 { Handle := op.Handle } (some (Error.errno Errno.EINVAL)) ∧
      fs2.SyncFile { Handle := op.Handle }
        = .returned fs2 { Handle := op.Handle } (some (Error.errno Errno.EINVAL)) := by
  have hg : fsdb.rowGet (fsdb.rowDelete fs.fileHandles op.Handle) op.Handle = none :=
    fsdb.rowGet_rowDelete_same _ _
  refine ⟨_, rfl, hg, ?_, rfl, rfl, ?_, ?_, ?_, ?_⟩
  · intro h hne
    exact fsdb.rowGet_rowDelete_other _ _ _ hne
  · intro off size dst n
    unfold Monofs.ReadFile
    simp only [hg]
  · intro off data
    unfold Monofs.WriteFile
    simp only [hg]
  · unfold Monofs.FlushFile
    simp only [hg]
  · unfold Monofs.SyncFile
    simp only [hg]

/-- The theorem of C32 at a concrete input: a filesystem with the handles 7
and 8 open, of which 7 is released. -/
theorem release_file_handle_witness :
    ∃ fs2, Monofs.ReleaseFileHandle
        { NewMonoFS "test" 0 0 100 with
            fileHandles := [(7, file.New "test" 2 "h.head" "data" []),
                            (8, file.New "test" 3 "g.head" "data" [])] }
        { Handle := 7 } = .returned fs2 { Handle := 7 } none ∧
      fsdb.rowGet fs2.fileHandles 7 = none ∧
      (∀ h, h ≠ 7 → fsdb.rowGet fs2.fileHandles h
        = fsdb.rowGet [(7, file.New "test" 2 "h.head" "data" []),
                       (8, file.New "test" 3 "g.head" "data" [])] h) ∧
      fs2.metadb = (NewMonoFS "test" 0 0 100).metadb ∧
      fs2.fsHashLock = (NewMonoFS "test" 0 0 100).fsHashLock ∧
      (∀ off size dst n,
        fs2.ReadFile { Handle := 7, Offset := off, Size := size, Dst := dst, BytesRead := n }
          = .returned fs2 { Handle := 7, Offset := off, Size := size, Dst := dst,
                            BytesRead := n } (some (Error.errno Errno.EINVAL))) ∧
      (∀ off data,
        fs2.WriteFile { Handle := 7, Offset := off, Data := data }
          = .returned fs2 { Handle := 7, Offset := off, Data := data }
              (some (Error.errno Errno.EINVAL))) ∧
      fs2.FlushFile { Handle := 7 }
        = .returned fs2 { Handle := 7 } (some (Error.errno Errno.EINVAL)) ∧
      fs2.SyncFile { Handle := 7 }
        = .returned fs2 { Handle := 7 } (some (Error.errno Errno.EINVAL)) :=
  release_file_handle
    { NewMonoFS "test" 0 0 100 with
        fileHandles := [(7, file.New "test" 2 "h.head" "data" []),
                        (8, file.New "test" 3 "g.head" "data" [])] }
    { Handle := 7 }

/-- The theorem of C31 (amended) at a concrete input: a write of three bytes at
offset 2 through the handle 7 of an empty file. -/
theorem write_file_in_memory_witness :
    fsdb.rowGet
        ({ NewMonoFS "test" 0 0 100 with
            fileHandles := [(7, file.New "test" 2 "h.head" "data" [])] } : Monofs).fileHandles 7
      = some (file.New "test" 2 "h.head" "data" []) ∧
    (0 : Int) ≤ 2 ∧ (2 : Int) < 2 ^ 63 ∧ [1, 2, 3].length < 2 ^ 63 ∧
    (file.New "test" 2 "h.head" "data" []).data.length < 2 ^ 63 ∧
    ∃ fs2 handle2,
      Monofs.WriteFile
        { NewMonoFS "test" 0 0 100 with
            fileHandles := [(7, file.New "test" 2 "h.head" "data" [])] }
        { Handle := 7, Offset := 2, Data := [1, 2, 3] }
        = .returned fs2 { Handle := 7, Offset := 2, Data := [1, 2, 3] } none ∧
      fsdb.rowGet fs2.fileHandles 7 = some handle2 ∧
      (∀ i, i < [1, 2, 3].length → handle2.data[(2 : Int).toNat + i]? = [1, 2, 3][i]?) ∧
      handle2.data.length
        = max (file.New "test" 2 "h.head" "data" []).data.length
            ((2 : Int).toNat + [1, 2, 3].length) ∧
      handle2.fsEngine = (file.New "test" 2 "h.head" "data" []).fsEngine ∧
      (∀ block, handle2.fsEngine.ReadBlock block
        = (file.New "test" 2 "h.head" "data" []).fsEngine.ReadBlock block) ∧
      (∀ h, h ≠ 7 → fsdb.rowGet fs2.fileHandles h
        = fsdb.rowGet [(7, file.New "test" 2 "h.head" "data" [])] h) ∧
      fs2.metadb = (NewMonoFS "test" 0 0 100).metadb :=
  ⟨rfl, by decide, by decide, by decide, by decide,
   write_file_in_memory
     { NewMonoFS "test" 0 0 100 with
         fileHandles := [(7, file.New "test" 2 "h.head" "data" [])] }
     { Handle := 7, Offset := 2, Data := [1, 2, 3] } (file.New "test" 2 "h.head" "data" [])
     rfl (by decide) (by decide) (by decide) (by decide)⟩

/-- C39 (the code falls short of it): on a filesystem with a file inode 2,
after `OpenFile(2, handle 7)` and a successful
`WriteFile(handle 7, offset 0, [1, 2, 3])`, the call
`ReadFile(handle 7, offset 0, size 3)` with a destination buffer of three
zero bytes returns no error but reports `BytesRead = 0` and leaves the
buffer as it was: `FsFile.ReadAt` allocates the blocks, drops them and
returns 0, whatever the content of the file. -/
theorem read_after_write_reads_nothing :
    ∃ fs1 fs2,
      ((NewMonoFS "test" 0 0 100).AddInode
        (fsdb.NewInode 2 1 "f" ⟨"h.head", 1, ⟨0, 1, 0o644, 0, 0, 0, 0, 0, 0⟩⟩)
        true).1.OpenFile { Inode := 2, Handle := 7 }
        = .returned fs1 { Inode := 2, Handle := 7 } none ∧
      fs1.WriteFile { Handle := 7, Offset := 0, Data := [1, 2, 3] }
        = .returned fs2 { Handle := 7, Offset := 0, Data := [1, 2, 3] } none ∧
      fs2.ReadFile { Handle := 7, Offset := 0, Size := 3, Dst := [0, 0, 0], BytesRead := 0 }
        = .returned fs2
            { Handle := 7, Offset := 0, Size := 3, Dst := [0, 0, 0], BytesRead := 0 } none :=
  ⟨_, _, rfl, rfl, rfl⟩

/-- Whatever the handle holds, `ReadFile` reports no byte read and leaves the
destination buffer as it was. -/
theorem ReadFile_reads_nothing (fs fs2 : Monofs) (op op2 : fuseops.ReadFileOp)
    (err : Option Error) (h : fs.ReadFile op = .returned fs2 op2 err) :
    fs2 = fs ∧ op2.Dst = op.Dst ∧ (op2.BytesRead = 0 ∨ op2 = op) := by
  unfold Monofs.ReadFile at h
  cases hg : fsdb.rowGet fs.fileHandles op.Handle with
  | none =>
    rw [hg] at h
    simp only [Outcome.returned.injEq] at h
    exact ⟨h.1.symm, by rw [h.2.1], Or.inr h.2.1.symm⟩
  | some handle =>
    rw [hg] at h
    simp only at h
    cases hr : handle.ReadAt op.Dst op.Offset op.Size with
    | none => rw [hr] at h; cases h
    | some res =>
      obtain ⟨n, e⟩ := res
      rw [hr] at h
      simp only [Outcome.returned.injEq] at h
      have hn : n = 0 := by
        unfold file.FsFile.ReadAt at hr
        cases ha : handle.fsEngine.AllocateBlocks (file.uint64 op.Offset) (file.uint64 op.Size) with
        | none => rw [ha] at hr; cases hr
        | some x =>
          rw [ha] at hr
          cases x <;> simp only [Option.map_some', Option.some.injEq, Prod.mk.injEq] at hr <;>
            exact hr.1.symm
      refine ⟨h.1.symm, ?_, Or.inl ?_⟩
      · rw [← h.2.1]
      · rw [← h.2.1, hn]

/-! ## The locks at return (C38) -/

theorem AddInode_lock (fs : Monofs) (inode : fsdb.Inode) (b : Bool) :
    (fs.AddInode inode b).1.fsHashLock = fs.fsHashLock := by
  unfold Monofs.AddInode
  split <;> rfl

theorem DeleteInode_lock (fs : Monofs) (inode : fsdb.Inode) (b : Bool) :
    (fs.DeleteInode inode b).1.fsHashLock = fs.fsHashLock := by
  unfold Monofs.DeleteInode
  split <;> rfl

theorem CreateInodeAttrs_lock (fs : Monofs) (inode : fsdb.Inode) :
    (fs.CreateInodeAttrs inode).1.fsHashLock = fs.fsHashLock := by
  unfold Monofs.CreateInodeAttrs
  split <;> rfl

theorem Unlock_after_Lock (fs : Monofs) (key : Nat) (l : List Nat)
    (h : fs.fsHashLock = { held := key :: l }) :
    (fs.Unlock key).fsHashLock = { held := l } := by
  simp [Monofs.Unlock, HashLock.Unlock, h]

theorem NewInode_lock (fs : Monofs) (parent : Nat) (name : String)
    (attrs : fsdb.InodeAttributes) :
    (fs.NewInode parent name attrs).1.fsHashLock = fs.fsHashLock := rfl

/-- From a state in which the lock of the parent is free, `Unlink` returns with
the locks as they were. -/
theorem Unlink_releases (fs : Monofs) (op : fuseops.UnlinkOp)
    (hfree : op.Parent ∉ fs.fsHashLock.held) :
    ∃ fs2 err, fs.Unlink op = .returned fs2 op err ∧ fs2.fsHashLock = fs.fsHashLock := by
  unfold Monofs.Unlink
  rw [Lock_free fs op.Parent hfree]
  refine ⟨_, _, rfl, ?_⟩
  apply Unlock_after_Lock
  repeat' first
    | split
    | dsimp only
  all_goals
    first
      | rfl
      | (rename_i h
         have e := congrArg Prod.fst h
         dsimp only at e
         rw [← e]
         first
           | rw [CreateInodeAttrs_lock]
           | rw [DeleteInode_lock])

/-- From a state in which the lock of the parent is free, `CreateFile` returns
with the locks as they were. -/
theorem CreateFile_releases (fs : Monofs) (op : fuseops.CreateFileOp)
    (hfree : op.Parent ∉ fs.fsHashLock.held) :
    ∃ fs2 op2 err, fs.CreateFile op = .returned fs2 op2 err ∧
      fs2.fsHashLock = fs.fsHashLock := by
  unfold Monofs.CreateFile
  rw [Lock_free fs op.Parent hfree]
  refine ⟨_, _, _, rfl, ?_⟩
  apply Unlock_after_Lock
  repeat' first
    | split
    | dsimp only
  all_goals
    first
      | rfl
      | (rename_i h
         have e := congrArg Prod.fst h
         dsimp only at e
         rw [← e, AddInode_lock]
         try rfl)

/-- From a state in which the lock of the parent is free, `CreateLink` returns
with the locks as they were. -/
theorem CreateLink_releases (fs : Monofs) (op : fuseops.CreateLinkOp)
    (hfree : op.Parent ∉ fs.fsHashLock.held) :
    ∃ fs2 op2 err, fs.CreateLink op = .returned fs2 op2 err ∧
      fs2.fsHashLock = fs.fsHashLock := by
  unfold Monofs.CreateLink
  rw [Lock_free fs op.Parent hfree]
  refine ⟨_, _, _, rfl, ?_⟩
  apply Unlock_after_Lock
  repeat' first
    | split
    | dsimp only
  all_goals
    first
      | rfl
      | (rename_i h
         have e := congrArg Prod.fst h
         dsimp only at e
         rw [← e, AddInode_lock]
         try rfl)

/-- From a state in which the lock of the parent is free, `CreateSymlink`
returns with the locks as they were. -/
theorem CreateSymlink_releases (fs : Monofs) (op : fuseops.CreateSymlinkOp)
    (hfree : op.Parent ∉ fs.fsHashLock.held) :
    ∃ fs2 op2 err, fs.CreateSymlink op = .returned fs2 op2 err ∧
      fs2.fsHashLock = fs.fsHashLock := by
  unfold Monofs.CreateSymlink
  rw [Lock_free fs op.Parent hfree]
  refine ⟨_, _, _, rfl, ?_⟩
  apply Unlock_after_Lock
  repeat' first
    | split
    | dsimp only
  all_goals
    first
      | rfl
      | (rename_i h
         have e := congrArg Prod.fst h
         dsimp only at e
         rw [← e, AddInode_lock]
         try rfl)

/-- C38 (the code falls short of it): from a state in which no lock is held and
`(1, "f")` resolves to inode 2, `Rename(1, "f", 5, "g")` does not return: it
blocks in the call deferred after `Lock(NewParent)`, which is
`Lock(NewParent)` again, and the lock of parent 5, which the call acquired,
is still held, so the set of held locks is not the one before the call. -/
theorem rename_keeps_new_parent_lock :
    ((NewMonoFS "test" 0 0 100).AddInode
        (fsdb.NewInode 2 1 "f" ⟨"h.head", 1, ⟨0, 1, 0o644, 0, 0, 0, 0, 0, 0⟩⟩)
        true).1.fsHashLock.held = [] ∧
    ∃ fs2, ((NewMonoFS "test" 0 0 100).AddInode
        (fsdb.NewInode 2 1 "f" ⟨"h.head", 1, ⟨0, 1, 0o644, 0, 0, 0, 0, 0, 0⟩⟩)
        true).1.Rename
        { OldParent := 1, OldName := "f", NewParent := 5, NewName := "g" } = .blocked fs2 ∧
      fs2.fsHashLock.held = [5] :=
  ⟨rfl, _, rfl, rfl⟩

end monofs
